import Mathlib

/-!
# rouge_sdf: block sources, cursor, tree decoder and page reconstruction

A shallow embedding of `src/BasicFile.hpp` (blocks and the `File` cursor) and of
`src/main.cpp` (`FileTree::ParseNames` and the reconstruction code of the
`ParseNames` callback in `wmain`).

Conventions of the embedding.

* `size_t` and `uint64_t` are 64-bit words: a `Nat` reduced modulo `W = 2 ^ 64`
  wherever the C++ arithmetic can wrap.
* A thrown C++ exception is an `Except.error` carrying a `Fault` that names the
  message of the `throw`.  A `memcpy` that leaves the owned buffer (undefined
  behaviour in C++) is the separate fault `Fault.wild`: it is *not* a thrown
  exception.
* The callback of `ParseNames` is modelled by the list of argument tuples it is
  invoked with (`Run.emitted`), in order of invocation.
* The recursion of `ParseNames` is not bounded in the source; the embedding
  carries a recursion budget and reports `Fault.fuel` when it is exhausted.
-/

namespace RougeSdf

/-- Number of values of a `size_t` / `uint64_t` word. -/
def W : Nat := 2 ^ 64

/-- Ways in which an operation can fail to return normally. -/
inductive Fault where
  /-- `std::runtime_error("Memory file index out of range")`, `BlockMemory::Read`. -/
  | memoryIndexOutOfRange
  /-- `std::runtime_error("Going beyond file")`, `BlockDisk::Read`. -/
  | goingBeyondFile
  /-- `std::runtime_error("File read error")`, `BlockDisk::Read` after the stream went bad. -/
  | fileReadError
  /-- `std::exception("File create error: part file")`, `BlockPart::BlockPart`. -/
  | partCreate
  /-- `std::exception("File read error: part file")`, `BlockPart::Read`. -/
  | partRead
  /-- `std::exception("File seek error: virtual file")`, `File::Seek`. -/
  | seekError
  /-- `std::exception("File part error: virtual file")`, `File::Part` and `File::Array`. -/
  | filePartError
  /-- `std::exception("Array index out of range")`, `DataArray::operator[]`. -/
  | arrayIndexOutOfRange
  /-- `std::exception("Unexcepted byte in file tree")`, `FileTree::ParseNames`. -/
  | unexpectedByte
  /-- `std::exception("Uncompress error")`, the callback in `wmain`. -/
  | uncompressError
  /-- A memory access outside the owned buffer: undefined behaviour, no exception. -/
  | wild
  /-- A remainder by zero (`File::Align(0)`): undefined behaviour, no exception. -/
  | divisionByZero
  /-- The recursion budget of the embedding ran out (the source keeps recursing). -/
  | fuel
  deriving DecidableEq, Repr

deriving instance DecidableEq for Except

/-- Faults that are exceptions thrown by the code (as opposed to undefined
behaviour or an exhausted recursion budget). -/
def Fault.isException : Fault → Bool
  | .wild => false
  | .divisionByZero => false
  | .fuel => false
  | _ => true

/-! ## Blocks (`BasicFile.hpp`) -/

/-- The three `BlockBase` implementations.  A `disk` block is a file that opens
and reads without I/O failure; its `fileSize` is the length of its content, as
probed by the constructor.  A `memory` block owns exactly `blockSize` bytes. -/
inductive Block where
  | disk (content : List UInt8)
  | memory (blockData : List UInt8)
  | part (file : Block) (offset : Nat) (size : Nat)
  deriving DecidableEq, Repr

/-- `Size()` of each block class. -/
def Block.Size : Block → Nat
  | .disk content => content.length
  | .memory blockData => blockData.length
  | .part _ _ size => size

/-- The `size` bytes of a buffer that start at `offset`. -/
def slice (buffer : List UInt8) (offset size : Nat) : List UInt8 :=
  (buffer.drop offset).take size

/-- `Read(data, offset, size)` of each block class; the bytes copied to `data`
are the result.  The guards compare `offset + size` computed in `size_t`, so a
request whose end wraps around passes them.  Past its guard, `BlockMemory::Read`
does the `memcpy`, which leaves the buffer exactly when the request ends beyond
it (`Fault.wild`); `BlockDisk::Read` seeks and reads, and the stream goes bad
(`"File read error"`) exactly when the request does not lie inside the file;
`BlockPart::Read` forwards to its backing block at `offset + offset_`. -/
def Block.Read : Block → Nat → Nat → Except Fault (List UInt8)
  | .disk content, offset, size =>
    if (offset + size) % W > content.length then .error .goingBeyondFile
    else if offset + size ≤ content.length then .ok (slice content offset size)
    else .error .fileReadError
  | .memory blockData, offset, size =>
    if (offset + size) % W > blockData.length then .error .memoryIndexOutOfRange
    else if offset + size ≤ blockData.length then .ok (slice blockData offset size)
    else .error .wild
  | .part file offset_ size_, offset, size =>
    if (offset + size) % W > size_ then .error .partRead
    else file.Read ((offset + offset_) % W) size

/-- The `BlockPart` that the constructor ends with, past its guard: built on
`file`, or, when `file` is itself a `BlockPart` (the `dynamic_cast` succeeds), on
the backing block of `file` with the offsets added. -/
def collapse (file : Block) (offset size : Nat) : Block :=
  match file with
  | .part sourceFile sourceOffset _ => .part sourceFile ((offset + sourceOffset) % W) size
  | _ => .part file offset size

/-- `MakeBlockPart(base, offset, size)`, that is the constructor of `BlockPart`:
the bounds guard, then the collapse onto the backing block of a `BlockPart`. -/
def MakeBlockPart (base : Block) (offset size : Nat) : Except Fault Block :=
  if (offset + size) % W > base.Size then .error .partCreate
  else .ok (collapse base offset size)

/-- `MakeBlockMemory(std::move(data), size)`: adopts a buffer of `size` bytes. -/
def MakeBlockMemory (data : List UInt8) : Block := .memory data

/-! ## The cursor `File` -/

/-- A `File`: a block and a read position. -/
structure File where
  block : Block
  position : Nat
  deriving DecidableEq, Repr

/-- `File::Size`. -/
def File.Size (f : File) : Nat := f.block.Size

/-- `FileOrigin`. -/
inductive FileOrigin where
  | FileOriginBegin
  | FileOriginCurrent
  | FileOriginEnd
  deriving DecidableEq, Repr

/-- `File::Seek(newPosition, origin)`: the cursor afterwards, or the exception
(the cursor is then left as it was). -/
def File.Seek (f : File) (newPosition : Nat) (origin : FileOrigin) : Except Fault File :=
  match origin with
  | .FileOriginBegin =>
    if newPosition > f.Size then .error .seekError
    else .ok { f with position := newPosition }
  | .FileOriginCurrent =>
    if (newPosition + f.position) % W > f.Size then .error .seekError
    else .ok { f with position := (f.position + newPosition) % W }
  | .FileOriginEnd =>
    if newPosition > f.Size then .error .seekError
    else .ok { f with position := f.Size - newPosition }

/-- The scalar `File::Read<T>()` for a type of `sizeofT` bytes: the position is
advanced first, then the bytes at the old position are fetched from the block.
Returns the cursor afterwards (also when the fetch throws) and the object
representation read. -/
def File.Read (f : File) (sizeofT : Nat) : File × Except Fault (List UInt8) :=
  let readPosition := f.position
  ({ f with position := (f.position + sizeofT) % W }, f.block.Read readPosition sizeofT)

/-- Value of a little-endian byte string (the target is little-endian). -/
def leValue : List UInt8 → Nat
  | [] => 0
  | b :: bs => b.toNat + 256 * leValue bs

/-- A scalar read of an unsigned integer type of `sizeofT` bytes inside code that
lets the exception escape: the value and the advanced cursor, or the fault. -/
def File.ReadUInt (f : File) (sizeofT : Nat) : Except Fault (Nat × File) :=
  match (f.Read sizeofT).2 with
  | .ok bytes => .ok (leValue bytes, (f.Read sizeofT).1)
  | .error e => .error e

/-- `data.Read<uint8_t>()`; also `data.Read<char>()`, whose value is kept as the
unsigned byte (the range tests of `ParseNames` are stated on that byte). -/
def File.ReadU8 (f : File) : Except Fault (Nat × File) := f.ReadUInt 1

/-- `data.Read<uint32_t>()`. -/
def File.ReadU32 (f : File) : Except Fault (Nat × File) := f.ReadUInt 4

/-! ## `FileTree::ParseNames` (`main.cpp`) -/

/-- The arguments of one invocation of the callback of `ParseNames`. -/
structure Record where
  name : List UInt8
  packageId : Nat
  packageOffset : Nat
  decompressedSize : Nat
  compSizeArray : List Nat
  ddsType : Nat
  append : Bool
  useDDS : Bool
  deriving DecidableEq, Repr

/-- What a run did: the callback invocations made, in order, and how it ended. -/
structure Run (α : Type) where
  emitted : List Record
  result : Except Fault α

/-- The loop of the lambda `readVariadicInteger`, from iteration `i` with
`remaining` iterations to go.  Every call site passes a count of at most 7, so
the shift stays below 64 bits. -/
def readVariadicIntegerFrom : Nat → File → Nat → Nat → Except Fault (Nat × File)
  | 0, data, result, _ => .ok (result, data)
  | remaining + 1, data, result, i =>
    match data.ReadU8 with
    | .error e => .error e
    | .ok (b, data) => readVariadicIntegerFrom remaining data (result ||| (b <<< (i * 8))) (i + 1)

/-- The lambda `readVariadicInteger(count)`. -/
def readVariadicInteger (data : File) (count : Nat) : Except Fault (Nat × File) :=
  readVariadicIntegerFrom count data 0 0

/-- The loop `for (page = 0; page < pageCount; page++)` that fills
`compSizeArray`, with `remaining` iterations to go. -/
def readPages : Nat → File → List Nat → Except Fault (List Nat × File)
  | 0, data, compSizeArray => .ok (compSizeArray, data)
  | remaining + 1, data, compSizeArray =>
    match readVariadicInteger data 2 with
    | .error e => .error e
    | .ok (compSize, data) => readPages remaining data (compSizeArray ++ [compSize])

/-- The fields decoded by one iteration of the chunk loop. -/
structure Chunk where
  ch3 : Nat
  decompressedSize : Nat
  compressedSize : Nat
  packageOffset : Nat
  packageId : Nat
  compSizeArray : List Nat
  deriving DecidableEq, Repr

/-- The body of the chunk loop up to the callback invocation. -/
def readChunk (data : File) : Except Fault (Chunk × File) :=
  match data.ReadU8 with
  | .error e => .error e
  | .ok (ch3, data) =>
    let compressedSizeByteCount := (ch3 &&& 3) + 1
    let packageOffsetByteCount := (ch3 >>> 2) &&& 7
    let hasCompression := (ch3 >>> 5) &&& 1
    match readVariadicInteger data compressedSizeByteCount with
    | .error e => .error e
    | .ok (decompressedSize, data) =>
      match (if hasCompression ≠ 0 then readVariadicInteger data compressedSizeByteCount
             else .ok (0, data)) with
      | .error e => .error e
      | .ok (compressedSize, data) =>
        match (if packageOffsetByteCount ≠ 0 then readVariadicInteger data packageOffsetByteCount
               else .ok (0, data)) with
        | .error e => .error e
        | .ok (packageOffset, data) =>
          match readVariadicInteger data 2 with
          | .error e => .error e
          | .ok (packageId, data) =>
            match (if hasCompression ≠ 0 then
                     let pageCount := ((decompressedSize + 0xffff) % W) >>> 16
                     if pageCount > 1 then readPages pageCount data [] else .ok ([], data)
                   else .ok ([], data)) with
            | .error e => .error e
            | .ok (compSizeArray, data) =>
              match readVariadicInteger data 4 with
              | .error e => .error e
              | .ok (_, data) =>
                let compSizeArray :=
                  if compSizeArray.length = 0 ∧ hasCompression ≠ 0 then
                    compSizeArray ++ [compressedSize]
                  else compSizeArray
                .ok (⟨ch3, decompressedSize, compressedSize, packageOffset, packageId,
                      compSizeArray⟩, data)

/-- The chunk loop `for (chunkIndex = ...; chunkIndex < count1; chunkIndex++)`,
from `chunkIndex` with `remaining` iterations to go. -/
def chunkLoop (name : List UInt8) (ddsType byteCount : Nat) : Nat → Nat → File → Run File
  | 0, _, data => ⟨[], .ok data⟩
  | remaining + 1, chunkIndex, data =>
    match readChunk data with
    | .error e => ⟨[], .error e⟩
    | .ok (c, data) =>
      let rest := chunkLoop name ddsType byteCount remaining (chunkIndex + 1) data
      ⟨{ name := name, packageId := c.packageId, packageOffset := c.packageOffset,
         decompressedSize := c.decompressedSize, compSizeArray := c.compSizeArray,
         ddsType := ddsType, append := chunkIndex != 0,
         useDDS := byteCount != 0 && chunkIndex == 0 } :: rest.emitted, rest.result⟩

/-- The trailer loop `while (ch3--) { Read<uint8_t>(); Read<uint8_t>(); }`. -/
def skipTrailer : Nat → File → Except Fault File
  | 0, data => .ok data
  | ch3 + 1, data =>
    match data.ReadU8 with
    | .error e => .error e
    | .ok (_, data) =>
      match data.ReadU8 with
      | .error e => .error e
      | .ok (_, data) => skipTrailer ch3 data

/-- The `if (count1) { ... }` part of the file-entry branch. -/
def fileEntryChunks (data : File) (name : List UInt8) (count1 : Nat) : Run File :=
  if count1 ≠ 0 then
    match data.ReadU32 with
    | .error e => ⟨[], .error e⟩
    | .ok (_, data) =>
      match data.ReadU8 with
      | .error e => ⟨[], .error e⟩
      | .ok (ch2, data) =>
        let byteCount := ch2 &&& 3
        match readVariadicInteger data byteCount with
        | .error e => ⟨[], .error e⟩
        | .ok (ddsType, data) => chunkLoop name ddsType byteCount count1 0 data
  else ⟨[], .ok data⟩

/-- The file-entry branch of `ParseNames`; `ch` is the control byte, `data` the
cursor after it. -/
def fileEntry (data : File) (name : List UInt8) (ch : Nat) : Run Unit :=
  let ch := ch - 65
  let count1 := ch &&& 7
  let flag1 := (ch >>> 3) &&& 1
  let chunks := fileEntryChunks data name count1
  match chunks.result with
  | .error e => ⟨chunks.emitted, .error e⟩
  | .ok data =>
    if flag1 ≠ 0 then
      match data.ReadU8 with
      | .error e => ⟨chunks.emitted, .error e⟩
      | .ok (ch3, data) =>
        match skipTrailer ch3 data with
        | .error e => ⟨chunks.emitted, .error e⟩
        | .ok _ => ⟨chunks.emitted, .ok ()⟩
    else ⟨chunks.emitted, .ok ()⟩

/-- The loop `while (ch--) name += data.Read<char>();` of the string part. -/
def readName : Nat → File → List UInt8 → Except Fault (List UInt8 × File)
  | 0, data, name => .ok (name, data)
  | ch + 1, data, name =>
    match (data.Read 1).2 with
    | .error e => .error e
    | .ok bytes => readName ch (data.Read 1).1 (name ++ bytes)

/-- Two statements in sequence: the second runs only when the first returned. -/
def Run.andThen (first second : Run Unit) : Run Unit :=
  match first.result with
  | .error e => ⟨first.emitted, .error e⟩
  | .ok _ => ⟨first.emitted ++ second.emitted, second.result⟩

/-- The body of `FileTree::ParseNames(data, cb, name)`; the two kinds of
recursive call (`ParseNames(data, cb, name)` after a name fragment, and the two
calls of a branch node) go through `self`. -/
def ParseNamesBody (self : File → List UInt8 → Run Unit) (data : File) (name : List UInt8) :
    Run Unit :=
  match data.ReadU8 with
  | .error e => ⟨[], .error e⟩
  | .ok (ch, data) =>
    if ch = 0 then ⟨[], .error .unexpectedByte⟩
    else if 1 ≤ ch ∧ ch ≤ 0x1f then
      match readName ch data name with
      | .error e => ⟨[], .error e⟩
      | .ok (name, data) => self data name
    else if 65 ≤ ch ∧ ch ≤ 90 then fileEntry data name ch
    else
      let data2 := data
      match data.ReadU32 with
      | .error e => ⟨[], .error e⟩
      | .ok (offset, data) =>
        match data2.Seek offset .FileOriginBegin with
        | .error e => ⟨[], .error e⟩
        | .ok data2 => (self data name).andThen (self data2 name)

/-- `FileTree::ParseNames(data, cb, name)` with a recursion budget: every call
consumes one unit, and a call without budget ends with `Fault.fuel`. -/
def ParseNames : Nat → File → List UInt8 → Run Unit
  | 0, _, _ => ⟨[], .error .fuel⟩
  | fuel + 1, data, name => ParseNamesBody (ParseNames fuel) data name

/-- The call `ParseNames(data, cb, name)` runs to its end as `r` (it returns or
throws): some recursion budget suffices. -/
def Completes (data : File) (name : List UInt8) (r : Run Unit) : Prop :=
  ∃ fuel, ParseNames fuel data name = r ∧ r.result ≠ .error .fuel

/-- The control byte `ch` is that of a branch node. -/
def isBranch (ch : Nat) : Prop := ch ≠ 0 ∧ ¬ (1 ≤ ch ∧ ch ≤ 0x1f) ∧ ¬ (65 ≤ ch ∧ ch ≤ 90)

instance (ch : Nat) : Decidable (isBranch ch) := by
  unfold isBranch
  infer_instance

/-- The byte of a block at position `pos`, when a 1-byte read there returns. -/
def Block.byteAt (b : Block) (pos : Nat) : Option UInt8 :=
  match b.Read pos 1 with
  | .ok [x] => some x
  | _ => none

/-- `Visits data name data' name'`: the walk started by the call
`ParseNames(data, cb, name)` makes the (possibly nested) call
`ParseNames(data', cb, name')`.  The right child of a branch node is visited
only once the walk of the left child has returned. -/
inductive Visits : File → List UInt8 → File → List UInt8 → Prop
  | root (data : File) (name : List UInt8) : Visits data name data name
  | fragment {data data1 data2 x : File} {name name2 y : List UInt8} {ch : Nat} :
      data.ReadU8 = .ok (ch, data1) → 1 ≤ ch ∧ ch ≤ 0x1f →
      readName ch data1 name = .ok (name2, data2) →
      Visits data2 name2 x y → Visits data name x y
  | left {data data1 dataL dataR x : File} {name y : List UInt8} {ch offset : Nat} :
      data.ReadU8 = .ok (ch, data1) → isBranch ch →
      data1.ReadU32 = .ok (offset, dataL) →
      data1.Seek offset .FileOriginBegin = .ok dataR →
      Visits dataL name x y → Visits data name x y
  | right {data data1 dataL dataR x : File} {name y : List UInt8} {ch offset : Nat}
      {rl : Run Unit} :
      data.ReadU8 = .ok (ch, data1) → isBranch ch →
      data1.ReadU32 = .ok (offset, dataL) →
      data1.Seek offset .FileOriginBegin = .ok dataR →
      Completes dataL name rl → rl.result = .ok () →
      Visits dataR name x y → Visits data name x y

/-! ## Reconstruction of a chunk (the callback of `ParseNames` in `wmain`) -/

/-- A store of `bytes` into `buffer` at `offset` (a `memcpy`, or the output of
`uncompress`); a store that leaves the buffer is `Fault.wild`. -/
def store (buffer : List UInt8) (offset : Nat) (bytes : List UInt8) : Except Fault (List UInt8) :=
  if offset + bytes.length ≤ buffer.length then
    .ok (buffer.take offset ++ bytes ++ buffer.drop (offset + bytes.length))
  else .error .wild

/-- The variables that the page loop updates: the output buffer
`decompressed`, `decompOffset`, `compOffset`, and (not in the source) the
number of calls of `uncompress` made so far. -/
structure PageState where
  decompressed : List UInt8
  decompOffset : Nat
  compOffset : Nat
  uncompressCalls : Nat
  deriving DecidableEq, Repr

/-- One iteration of `for (uint64_t compSizePart : compSizeArray)`.

The parameter `uncompress destLen source` stands for zlib's
`uncompress(dest, &destLen, source, sourceLen)`: `some out` when it returns
`Z_OK` having produced `out` (then `destLen` is set to `out.length`), `none` for
any other return code. -/
def pageStep (uncompress : Nat → List UInt8 → Option (List UInt8)) (fileBlock : Block)
    (packageOffset decompressedSize : Nat) (st : PageState) (compSizePart : Nat) :
    Except Fault PageState :=
  let pageSize := 0x10000
  let decompSizePart := min ((decompressedSize + W - st.decompOffset) % W) pageSize
  if compSizePart = 0 ∨ decompSizePart = compSizePart then
    match fileBlock.Read ((packageOffset + st.compOffset) % W) decompSizePart with
    | .error e => .error e
    | .ok bytes =>
      match store st.decompressed st.decompOffset bytes with
      | .error e => .error e
      | .ok buffer =>
        .ok { decompressed := buffer
              decompOffset := (st.decompOffset + decompSizePart) % W
              compOffset := (st.compOffset + decompSizePart) % W
              uncompressCalls := st.uncompressCalls }
  else
    match fileBlock.Read ((packageOffset + st.compOffset) % W) compSizePart with
    | .error e => .error e
    | .ok compressed =>
      match uncompress decompSizePart compressed with
      | none => .error .uncompressError
      | some out =>
        match store st.decompressed st.decompOffset out with
        | .error e => .error e
        | .ok buffer =>
          .ok { decompressed := buffer
                decompOffset := (st.decompOffset + out.length) % W
                compOffset := (st.compOffset + compSizePart) % W
                uncompressCalls := st.uncompressCalls + 1 }

/-- The page loop over `compSizeArray`. -/
def pageLoop (uncompress : Nat → List UInt8 → Option (List UInt8)) (fileBlock : Block)
    (packageOffset decompressedSize : Nat) : PageState → List Nat → Except Fault PageState
  | st, [] => .ok st
  | st, compSizePart :: rest =>
    match pageStep uncompress fileBlock packageOffset decompressedSize st compSizePart with
    | .error e => .error e
    | .ok st => pageLoop uncompress fileBlock packageOffset decompressedSize st rest

/-- The state in which the page loop starts: a zero-filled buffer of
`decompressedSize` bytes (`std::make_unique<uint8_t[]>`), both offsets 0. -/
def initialPageState (decompressedSize : Nat) : PageState :=
  { decompressed := List.replicate decompressedSize 0
    decompOffset := 0
    compOffset := 0
    uncompressCalls := 0 }

/-- The computation of `resultBlock` in the callback (`main.cpp`, the
`if (compSizeArray.size() == 0) ... else ...` statement). -/
def reconstruct (uncompress : Nat → List UInt8 → Option (List UInt8)) (fileBlock : Block)
    (packageOffset decompressedSize : Nat) (compSizeArray : List Nat) : Except Fault Block :=
  if compSizeArray.length = 0 then
    MakeBlockPart fileBlock packageOffset decompressedSize
  else
    match pageLoop uncompress fileBlock packageOffset decompressedSize
        (initialPageState decompressedSize) compSizeArray with
    | .error e => .error e
    | .ok st => .ok (MakeBlockMemory st.decompressed)

/-- The stream `[2]['h']['i']['B'][id:4][ch2][tag][c][size][offset][packageId:2][fileId:4]`. -/
def demoStream : List UInt8 :=
  [2, 104, 105, 66, 1, 2, 3, 4, 1, 7, 0x04, 0x10, 0x20, 5, 0, 9, 9, 9, 9]

/-- The cursor over the memory block `s` that stands right after the prefix `pre`. -/
def cursorAfter (s pre : List UInt8) : File := ⟨.memory s, pre.length⟩

/-! ## Byte layout of a file entry (used to state what the decoder yields) -/

/-- Values of consecutive 2-byte little-endian integers. -/
def leValues16 : List UInt8 → List Nat
  | b0 :: b1 :: rest => leValue [b0, b1] :: leValues16 rest
  | _ => []

/-- The bytes of one chunk slot, field by field, in stream order. -/
structure SlotBytes where
  ch3 : UInt8
  decompressedSize : List UInt8
  compressedSize : List UInt8
  packageOffset : List UInt8
  packageId : List UInt8
  pages : List UInt8
  fileId : List UInt8

/-- The `isCompressed` bit of the control byte of a slot. -/
def SlotBytes.isCompressed (b : SlotBytes) : Bool := (b.ch3.toNat >>> 5) &&& 1 != 0

/-- The page count `(decompressedSize + 0xffff) >> 16` of a slot. -/
def SlotBytes.pageCount (b : SlotBytes) : Nat :=
  ((leValue b.decompressedSize + 0xffff) % W) >>> 16

/-- Every field of the slot has the width that its control byte announces. -/
def SlotBytes.WellFormed (b : SlotBytes) : Prop :=
  b.decompressedSize.length = (b.ch3.toNat &&& 3) + 1 ∧
  b.compressedSize.length = (if b.isCompressed then (b.ch3.toNat &&& 3) + 1 else 0) ∧
  b.packageOffset.length = ((b.ch3.toNat >>> 2) &&& 7) ∧
  b.packageId.length = 2 ∧
  b.pages.length = (if b.isCompressed ∧ b.pageCount > 1 then 2 * b.pageCount else 0) ∧
  b.fileId.length = 4

instance (b : SlotBytes) : Decidable b.WellFormed := by
  unfold SlotBytes.WellFormed
  infer_instance

/-- The slot as it stands in the stream. -/
def SlotBytes.bytes (b : SlotBytes) : List UInt8 :=
  b.ch3 :: (b.decompressedSize ++ (b.compressedSize ++ (b.packageOffset ++
    (b.packageId ++ (b.pages ++ b.fileId)))))

/-- The page list that the slot describes. -/
def SlotBytes.compSizeArray (b : SlotBytes) : List Nat :=
  if b.isCompressed then
    if b.pageCount > 1 then leValues16 b.pages else [leValue b.compressedSize]
  else []

/-- The bytes of a file entry with one chunk slot and no trailer: control byte,
4-byte identifier, the byte `ch2`, the type tag, the slot. -/
structure EntryBytes where
  ctrl : UInt8
  strangeId : List UInt8
  ch2 : UInt8
  ddsType : List UInt8
  slot : SlotBytes

/-- The control byte is a file-entry byte with `entryCount = 1` and no trailer,
and every field has its announced width. -/
def EntryBytes.WellFormed (e : EntryBytes) : Prop :=
  (65 ≤ e.ctrl.toNat ∧ e.ctrl.toNat ≤ 90) ∧
  (e.ctrl.toNat - 65) &&& 7 = 1 ∧ ((e.ctrl.toNat - 65) >>> 3) &&& 1 = 0 ∧
  e.strangeId.length = 4 ∧ e.ddsType.length = (e.ch2.toNat &&& 3) ∧ e.slot.WellFormed

instance (e : EntryBytes) : Decidable e.WellFormed := by
  unfold EntryBytes.WellFormed
  infer_instance

/-- The entry as it stands in the stream. -/
def EntryBytes.bytes (e : EntryBytes) : List UInt8 :=
  e.ctrl :: (e.strangeId ++ (e.ch2 :: (e.ddsType ++ e.slot.bytes)))

/-- The record that the entry describes, under the accumulated `name`. -/
def EntryBytes.record (e : EntryBytes) (name : List UInt8) : Record :=
  { name := name
    packageId := leValue e.slot.packageId
    packageOffset := leValue e.slot.packageOffset
    decompressedSize := leValue e.slot.decompressedSize
    compSizeArray := e.slot.compSizeArray
    ddsType := leValue e.ddsType
    append := false
    useDDS := (e.ch2.toNat &&& 3) != 0 }

/-- The entry of `demoStream`. -/
def demoEntry : EntryBytes :=
  { ctrl := 66, strangeId := [1, 2, 3, 4], ch2 := 1, ddsType := [7],
    slot := { ch3 := 0x04, decompressedSize := [0x10], compressedSize := [],
              packageOffset := [0x20], packageId := [5, 0], pages := [],
              fileId := [9, 9, 9, 9] } }

/-- The bytes of a file-entry node with at least one chunk slot: control byte,
4-byte identifier, the byte `ch2`, the type tag, the chunk slots, and the
trailer (`[n]` followed by `2 * n` bytes) when the control byte announces one. -/
structure NodeBytes where
  ctrl : UInt8
  strangeId : List UInt8
  ch2 : UInt8
  ddsType : List UInt8
  slots : List SlotBytes
  trailer : List UInt8

/-- The trailer is absent when the `hasTrailer` bit is clear, and otherwise is a
count `n` followed by `2 * n` bytes. -/
def trailerWellFormed (flag1 : Nat) (trailer : List UInt8) : Prop :=
  if flag1 = 0 then trailer = []
  else
    match trailer with
    | [] => False
    | n :: rest => rest.length = 2 * n.toNat

instance (flag1 : Nat) (trailer : List UInt8) : Decidable (trailerWellFormed flag1 trailer) := by
  unfold trailerWellFormed
  split
  · infer_instance
  · split <;> infer_instance

/-- All bytes of the node are present: the control byte is a file-entry byte
whose `entryCount` is the (non-zero) number of slots, and every field has its
announced width. -/
def NodeBytes.WellFormed (e : NodeBytes) : Prop :=
  (65 ≤ e.ctrl.toNat ∧ e.ctrl.toNat ≤ 90) ∧
  (e.ctrl.toNat - 65) &&& 7 = e.slots.length ∧ e.slots.length ≠ 0 ∧
  e.strangeId.length = 4 ∧ e.ddsType.length = (e.ch2.toNat &&& 3) ∧
  (∀ b ∈ e.slots, b.WellFormed) ∧
  trailerWellFormed (((e.ctrl.toNat - 65) >>> 3) &&& 1) e.trailer

instance (e : NodeBytes) : Decidable e.WellFormed := by
  unfold NodeBytes.WellFormed
  infer_instance

/-- The chunk slots as they stand in the stream. -/
def slotsBytes : List SlotBytes → List UInt8
  | [] => []
  | b :: rest => b.bytes ++ slotsBytes rest

/-- The node as it stands in the stream. -/
def NodeBytes.bytes (e : NodeBytes) : List UInt8 :=
  e.ctrl :: (e.strangeId ++ (e.ch2 :: (e.ddsType ++ (slotsBytes e.slots ++ e.trailer))))

/-- The records that the slots describe, the first slot having index `chunkIndex`. -/
def slotRecords (name : List UInt8) (ddsType byteCount : Nat) : Nat → List SlotBytes → List Record
  | _, [] => []
  | chunkIndex, b :: rest =>
    { name := name
      packageId := leValue b.packageId
      packageOffset := leValue b.packageOffset
      decompressedSize := leValue b.decompressedSize
      compSizeArray := b.compSizeArray
      ddsType := ddsType
      append := chunkIndex != 0
      useDDS := byteCount != 0 && chunkIndex == 0 } ::
      slotRecords name ddsType byteCount (chunkIndex + 1) rest

/-- A file-entry node with two chunk slots (control byte `'C'`, no trailer). -/
def demoNode : NodeBytes :=
  { ctrl := 67, strangeId := [1, 2, 3, 4], ch2 := 1, ddsType := [7],
    slots := [{ ch3 := 0x04, decompressedSize := [0x10], compressedSize := [],
                packageOffset := [0x20], packageId := [5, 0], pages := [],
                fileId := [9, 9, 9, 9] },
              { ch3 := 0x00, decompressedSize := [0x11], compressedSize := [],
                packageOffset := [], packageId := [6, 0], pages := [],
                fileId := [8, 8, 8, 8] }],
    trailer := [] }

/-- A branch node at position 0 with jump offset 19; its left child, at position
5, is a file entry with one uncompressed chunk of size 3 in package 1; its right
child, at position 19, is the name fragment `"x"` followed by a file entry with
one uncompressed chunk of size 4 in package 2. -/
def branchStream : List UInt8 :=
  [0x80, 19, 0, 0, 0,
   66, 0, 0, 0, 0, 0, 0, 3, 1, 0, 0, 0, 0, 0,
   1, 120, 66, 0, 0, 0, 0, 0, 0, 4, 2, 0, 0, 0, 0, 0]

/-- The left child of `branchStream` under a branch node whose jump offset, 200,
lies beyond the end of the stream. -/
def badBranchStream : List UInt8 :=
  [0x80, 200, 0, 0, 0,
   66, 0, 0, 0, 0, 0, 0, 3, 1, 0, 0, 0, 0, 0]

/-! ## The bytes that a block exposes (used to state what reads return) -/

/-- The byte range that a block exposes. -/
def Block.bytes : Block → List UInt8
  | .disk content => content
  | .memory blockData => blockData
  | .part file offset size => slice file.bytes offset size

/-- A block as the constructors build it: sizes are `size_t` values, and the
window of a `BlockPart` lies inside its backing block (the constructor's guard,
without wrap-around). -/
def Block.WF : Block → Prop
  | .disk content => content.length < W
  | .memory blockData => blockData.length < W
  | .part file offset size => file.WF ∧ offset + size ≤ file.Size

instance Block.decidableWF : (b : Block) → Decidable b.WF
  | .disk content => inferInstanceAs (Decidable (content.length < W))
  | .memory blockData => inferInstanceAs (Decidable (blockData.length < W))
  | .part file offset size =>
    have := Block.decidableWF file
    inferInstanceAs (Decidable (file.WF ∧ offset + size ≤ file.Size))

/-- Every page of the list is stored raw: with the running `decompOffset`, the
recorded size is 0 or the expected size `min(decompressedSize - decompOffset,
0x10000)` of the page. -/
def allRaw (decompressedSize : Nat) : Nat → List Nat → Prop
  | _, [] => True
  | decompOffset, s :: rest =>
    (s = 0 ∨ min (decompressedSize - decompOffset) 0x10000 = s) ∧
      allRaw decompressedSize (decompOffset + min (decompressedSize - decompOffset) 0x10000) rest

instance allRaw.decidable (decompressedSize : Nat) :
    (decompOffset : Nat) → (pages : List Nat) → Decidable (allRaw decompressedSize decompOffset pages)
  | _, [] => inferInstanceAs (Decidable True)
  | decompOffset, s :: rest =>
    have := allRaw.decidable decompressedSize
      (decompOffset + min (decompressedSize - decompOffset) 0x10000) rest
    inferInstanceAs (Decidable ((s = 0 ∨ min (decompressedSize - decompOffset) 0x10000 = s) ∧
      allRaw decompressedSize (decompOffset + min (decompressedSize - decompOffset) 0x10000) rest))

/-- A compressed chunk slot: control byte `0x22` (3-byte sizes, no offset field,
compressed), `decompressedSize = 0x20000`, `compressedSize = 5`, `packageId = 1`,
the two page sizes `0x1234` and `0x5678`, and the 4-byte `fileId`. -/
def pagedSlot : List UInt8 :=
  [0x22, 0, 0, 2, 5, 0, 0, 1, 0, 0x34, 0x12, 0x78, 0x56, 9, 9, 9, 9]

/-! ## Further operations of `BasicFile.hpp` and the header step of `wmain` -/

/-- `MakeBlockPair(block1, block2)`: a buffer of `block1->Size() + block2->Size()`
bytes (the sum in `size_t`) is filled with all bytes of `block1`, then, behind
them, with all bytes of `block2`, and becomes a `BlockMemory`. -/
def MakeBlockPair (block1 block2 : Block) : Except Fault Block :=
  let size := (block1.Size + block2.Size) % W
  match block1.Read 0 block1.Size with
  | .error e => .error e
  | .ok bytes1 =>
    match store (List.replicate size 0) 0 bytes1 with
    | .error e => .error e
    | .ok data =>
      match block2.Read 0 block2.Size with
      | .error e => .error e
      | .ok bytes2 =>
        match store data block1.Size bytes2 with
        | .error e => .error e
        | .ok data => .ok (.memory data)

/-- The array `File::Read(T *elements, size_t elementCount)` for a type of
`sizeofT` bytes: the position is advanced first, then the bytes are fetched. -/
def File.ReadArray (f : File) (sizeofT elementCount : Nat) : File × Except Fault (List UInt8) :=
  let readPosition := f.position
  ({ f with position := (f.position + (sizeofT * elementCount) % W) % W },
    f.block.Read readPosition ((elementCount * sizeofT) % W))

/-- `File::Part(offset, size)`: a view of the block, the cursor is not touched. -/
def File.PartAt (f : File) (offset size : Nat) : Except Fault Block :=
  MakeBlockPart f.block offset size

/-- `File::Part(size)`: the guard comes before the position is advanced. -/
def File.Part (f : File) (size : Nat) : File × Except Fault Block :=
  let oldPos := f.position
  if (size + f.position) % W > f.Size then (f, .error .filePartError)
  else ({ f with position := (f.position + size) % W }, MakeBlockPart f.block oldPos size)

/-- `File::Part()`: `Part(block->Size() - position)`, the difference in `size_t`. -/
def File.PartRest (f : File) : File × Except Fault Block :=
  f.Part ((f.block.Size + W - f.position % W) % W)

/-- `File::Array<T>(elementCount)` for a type of `sizeofT` bytes: the guard comes
before the position is advanced; the result is the bytes of the `DataArray`. -/
def File.Array (f : File) (sizeofT elementCount : Nat) : File × Except Fault (List UInt8) :=
  let oldPosition := f.position
  if ((sizeofT * elementCount) % W + f.position) % W > f.Size then (f, .error .filePartError)
  else ({ f with position := (f.position + (sizeofT * elementCount) % W) % W },
    f.block.Read oldPosition ((elementCount * sizeofT) % W))

/-- `File::Align(aligment)`; `position % 0` is undefined behaviour. -/
def File.Align (f : File) (aligment : Nat) : Except Fault File :=
  if aligment = 0 then .error .divisionByZero
  else
    let mod := f.position % aligment
    if mod ≠ 0 then .ok { f with position := (f.position + (aligment - mod)) % W }
    else .ok f

/-- A call of one of the operations of a cursor. -/
inductive FileOp where
  | seek (newPosition : Nat) (origin : FileOrigin)
  | read (sizeofT : Nat)
  | readArray (sizeofT elementCount : Nat)
  | part (size : Nat)
  | array (sizeofT elementCount : Nat)
  | align (aligment : Nat)
  deriving DecidableEq, Repr

/-- The cursor after an operation, whether the operation returned or threw. -/
def File.after (f : File) : FileOp → File
  | .seek newPosition origin =>
    match f.Seek newPosition origin with
    | .ok f2 => f2
    | .error _ => f
  | .read sizeofT => (f.Read sizeofT).1
  | .readArray sizeofT elementCount => (f.ReadArray sizeofT elementCount).1
  | .part size => (f.Part size).1
  | .array sizeofT elementCount => (f.Array sizeofT elementCount).1
  | .align aligment =>
    match f.Align aligment with
    | .ok f2 => f2
    | .error _ => f

/-- The cursor after a sequence of operations, made on the cursor `File(block)`
when `f` is that cursor. -/
def File.afterAll (f : File) : List FileOp → File
  | [] => f
  | op :: ops => (f.after op).afterAll ops

/-- `File(block)`: the cursor at position 0. -/
def File.mk0 (block : Block) : File := ⟨block, 0⟩

/-- The record `SdfDdsHeader`: `usedBytes` and the `0x94` bytes of `bytes`. -/
structure SdfDdsHeader where
  usedBytes : Nat
  bytes : List UInt8
  deriving DecidableEq, Repr

/-- `DataArray<T>::operator[](index)` on an array of `count = data.length`
elements. -/
def DataArray.get {α : Type} (data : List α) (index : Nat) : Except Fault α :=
  match data[index]? with
  | none => .error .arrayIndexOutOfRange
  | some x => .ok x

/-- The `if (useDDS) { ... }` statement of the callback, for `useDDS` true: the
header record `ddsHeaderBlock[ddsType]` is looked up, a buffer of
`usedBytes + resultBlock->Size()` bytes receives the first `usedBytes` bytes of
the record (a `memcpy` that leaves the `0x94` bytes of the record when
`usedBytes > 0x94`) and then all bytes of `resultBlock`. -/
def prependHeader (ddsHeaderBlock : List SdfDdsHeader) (ddsType : Nat) (resultBlock : Block) :
    Except Fault Block :=
  match DataArray.get ddsHeaderBlock ddsType with
  | .error e => .error e
  | .ok ddsHeader =>
    let ddsHeaderDataSize := ddsHeader.usedBytes
    let fullDataBlockSize := (ddsHeaderDataSize + resultBlock.Size) % W
    if ddsHeaderDataSize ≤ 0x94 then
      match store (List.replicate fullDataBlockSize 0) 0 (ddsHeader.bytes.take ddsHeaderDataSize)
        with
      | .error e => .error e
      | .ok fullDataBlock =>
        match resultBlock.Read 0 resultBlock.Size with
        | .error e => .error e
        | .ok bytes =>
          match store fullDataBlock ddsHeaderDataSize bytes with
          | .error e => .error e
          | .ok fullDataBlock => .ok (MakeBlockMemory fullDataBlock)
    else .error .wild

/-- The block that the callback writes: `resultBlock`, behind its header when
`useDDS` holds. -/
def blockToWrite (ddsHeaderBlock : List SdfDdsHeader) (ddsType : Nat) (useDDS : Bool)
    (resultBlock : Block) : Except Fault Block :=
  if useDDS then prependHeader ddsHeaderBlock ddsType resultBlock else .ok resultBlock

/-- No part of the block is built on a part: the shape of every block that
`MakeBlockPart` builds from disk and memory blocks. -/
def Block.flat : Block → Prop
  | .disk _ => True
  | .memory _ => True
  | .part (.part _ _ _) _ _ => False
  | .part _ _ _ => True

/-- A stream whose first node is a branch node with jump offset 0, its own
position; the left child, at position 5, is the file entry `'A'` without chunks. -/
def loopStream : List UInt8 := [0x80, 0, 0, 0, 0, 65]

/-- Every branch node that the walk from `(data, name)` reaches jumps forward:
its offset is greater than the position of its control byte. -/
def ForwardJumps (data : File) (name : List UInt8) : Prop :=
  ∀ (x x1 xL : File) (y : List UInt8) (ch offset : Nat), Visits data name x y →
    x.ReadU8 = .ok (ch, x1) → isBranch ch → x1.ReadU32 = .ok (offset, xL) →
    x.position < offset

/-- A test on the bytes of a stream: at every position that holds a branch byte
followed by four bytes, the little-endian value of those four bytes is greater
than the position. -/
def forwardOffsets (s : List UInt8) : Prop :=
  ∀ q ∈ List.range s.length, isBranch (leValue (slice s q 1)) → q + 5 ≤ s.length →
    q < leValue (slice s (q + 1) 4)

instance (s : List UInt8) : Decidable (forwardOffsets s) := by
  unfold forwardOffsets
  infer_instance

/-! ## The package file of a chunk (the callback of `ParseNames` in `wmain`) -/

/-- The variable `layer` of the callback. -/
def layer (packageId : Nat) : List Char :=
  if packageId < 1000 then ['A']
  else if packageId < 2000 then ['B']
  else ['C']

/-- The output of the directive `%04i` of `boost::wformat` for the unsigned
`packageId`: its decimal digits, filled on the left with `'0'` up to a width of
four characters. -/
def format04i (packageId : Nat) : List Char :=
  let digits := Nat.toDigits 10 packageId
  List.replicate (4 - digits.length) '0' ++ digits

/-- The variable `dataFormated`:
`boost::str(boost::wformat(L"-%s-%04i.sdfdata") % layer % packageId)`. -/
def dataFormated (packageId : Nat) : List Char :=
  ['-'] ++ layer packageId ++ ['-'] ++ format04i packageId ++
    ['.', 's', 'd', 'f', 'd', 'a', 't', 'a']

/-- The variable `sdfDataPath`.  The argument `stemPath` is the value of
`sdfTocPath.parent_path().append(sdfTocPath.stem().wstring()).wstring()`, the
path of the index file without its extension as `boost::filesystem` computes it. -/
def sdfDataPath (stemPath : List Char) (packageId : Nat) : List Char :=
  stemPath ++ dataFormated packageId

/-- The number that a string of decimal digits denotes. -/
def decimalValue (digits : List Char) : Nat :=
  digits.foldl (fun acc c => 10 * acc + (c.toNat - 48)) 0


/-! ## Paths in the tree that a stream encodes -/

/-- `Path data x frags`: in the tree that the stream encodes, the node at the
cursor `x` is reached from the node at the cursor `data` by steps from a
name-fragment node to the node that follows its bytes, and from a branch node to
its left child (the node that follows the offset field) or to its right child
(the node at the offset).  `frags` lists the fragments of the name-fragment nodes
passed on the way, in the order in which they are passed. -/
inductive Path : File → File → List (List UInt8) → Prop
  | root (data : File) : Path data data []
  | fragment {data data1 data2 x : File} {ch : Nat} {frag : List UInt8}
      {frags : List (List UInt8)} :
      data.ReadU8 = .ok (ch, data1) → 1 ≤ ch ∧ ch ≤ 0x1f →
      readName ch data1 [] = .ok (frag, data2) →
      Path data2 x frags → Path data x (frag :: frags)
  | left {data data1 dataL dataR x : File} {ch offset : Nat} {frags : List (List UInt8)} :
      data.ReadU8 = .ok (ch, data1) → isBranch ch →
      data1.ReadU32 = .ok (offset, dataL) →
      data1.Seek offset .FileOriginBegin = .ok dataR →
      Path dataL x frags → Path data x frags
  | right {data data1 dataL dataR x : File} {ch offset : Nat} {frags : List (List UInt8)} :
      data.ReadU8 = .ok (ch, data1) → isBranch ch →
      data1.ReadU32 = .ok (offset, dataL) →
      data1.Seek offset .FileOriginBegin = .ok dataR →
      Path dataR x frags → Path data x frags

/-- A file entry (control byte `'B'`, one chunk slot, no trailer) whose slot is
compressed: control byte `0x20` (1-byte sizes, no offset field),
`decompressedSize = 3`, `compressedSize = 2`, `packageId = 1`, and the 4-byte
`fileId`. -/
def compressedEntryStream : List UInt8 :=
  [66, 0, 0, 0, 0, 0, 0x20, 3, 2, 1, 0, 9, 9, 9, 9]


/-- `Within s out`: the outcome of a decoding step over the memory stream `s`
either is a cursor on `s` at a position within `s`, or is the range error of
`BlockMemory::Read`. -/
def Within (s : List UInt8) {α : Type} (out : Except Fault (α × File)) : Prop :=
  match out with
  | .error e => e = .memoryIndexOutOfRange
  | .ok (_, d) => ∃ q, d = ⟨.memory s, q⟩ ∧ q ≤ s.length


/-! ## A page that zlib decompresses to fewer bytes than expected -/

/-- The zlib stream of the single byte `'a'`, as `compress` produces it at the
default level: header `78 9c`, one fixed-Huffman block, Adler-32 `00 62 00 62`. -/
def zlibStreamOfA : List UInt8 := [0x78, 0x9c, 0x4b, 0x04, 0x00, 0x00, 0x62, 0x00, 0x62]

/-- The behaviour of zlib's `uncompress` on the stream `zlibStreamOfA`: with a
capacity of at least one byte it returns `Z_OK`, having written the byte `'a'`
and set `destLen` to 1; with no capacity it returns `Z_BUF_ERROR`.  Calls on any
other source are left out (counted as not `Z_OK`); none is made below. -/
def uncompressOfA (destLen : Nat) (source : List UInt8) : Option (List UInt8) :=
  if source = zlibStreamOfA ∧ 1 ≤ destLen then some [0x61] else none

/-- A file entry (control byte `'B'`, one chunk slot, no trailer) whose slot is
compressed: control byte `0x20` (1-byte sizes, no offset field),
`decompressedSize = 2`, `compressedSize = 9`, `packageId = 1`, and the 4-byte
`fileId`. -/
def shortPageStream : List UInt8 :=
  [66, 0, 0, 0, 0, 0, 0x20, 2, 9, 1, 0, 9, 9, 9, 9]

/-- The name fragment `"x"` followed, at position 2, by a branch node whose jump
offset is 2, its own position; the left child of the branch node, at position 7,
is the file entry `'A'` without chunks. -/
def selfJumpStream : List UInt8 := [1, 120, 0x80, 2, 0, 0, 0, 65]

/-! ## Theorems -/

/-! ### Basic facts about block reads and scalar reads -/

theorem slice_length (buffer : List UInt8) (offset size : Nat)
    (h : offset + size ≤ buffer.length) : (slice buffer offset size).length = size := by
  simp [slice]; omega

/-- A block read that returns, returns exactly `size` bytes. -/
theorem Block.Read_length (b : Block) : ∀ (offset size : Nat) (bytes : List UInt8),
    b.Read offset size = .ok bytes → bytes.length = size := by
  induction b with
  | disk content =>
    intro offset size bytes h
    simp only [Block.Read] at h
    split at h
    · cases h
    · split at h
      · cases h; exact slice_length _ _ _ (by assumption)
      · cases h
  | memory blockData =>
    intro offset size bytes h
    simp only [Block.Read] at h
    split at h
    · cases h
    · split at h
      · cases h; exact slice_length _ _ _ (by assumption)
      · cases h
  | part file offset_ size_ ih =>
    intro offset size bytes h
    simp only [Block.Read] at h
    split at h
    · cases h
    · exact ih _ _ _ h

/-- A scalar read that returns: the bytes come from the block at the old
position and the cursor has advanced by the size of the type. -/
theorem File.ReadUInt_ok {f f1 : File} {k v : Nat} (h : f.ReadUInt k = .ok (v, f1)) :
    ∃ bytes, f.block.Read f.position k = .ok bytes ∧ bytes.length = k ∧ v = leValue bytes ∧
      f1 = ⟨f.block, (f.position + k) % W⟩ := by
  unfold File.ReadUInt at h
  simp only [File.Read] at h
  split at h
  · rename_i bytes hb
    injection h with h
    injection h with h1 h2
    exact ⟨bytes, hb, Block.Read_length _ _ _ _ hb, h1.symm, h2.symm⟩
  · cases h

theorem File.ReadUInt_block {f f1 : File} {k v : Nat} (h : f.ReadUInt k = .ok (v, f1)) :
    f1.block = f.block := by
  obtain ⟨_, _, _, _, rfl⟩ := File.ReadUInt_ok h
  rfl

theorem File.ReadUInt_position {f f1 : File} {k v : Nat} (h : f.ReadUInt k = .ok (v, f1)) :
    f1.position = (f.position + k) % W := by
  obtain ⟨_, _, _, _, rfl⟩ := File.ReadUInt_ok h
  rfl

/-! ### The chunk loop -/

/-- Shape of the records that the chunk loop emits. -/
theorem chunkLoop_records (name : List UInt8) (ddsType byteCount : Nat) :
    ∀ (remaining chunkIndex : Nat) (data : File),
      (chunkLoop name ddsType byteCount remaining chunkIndex data).emitted.length ≤ remaining ∧
      ((∃ d, (chunkLoop name ddsType byteCount remaining chunkIndex data).result = .ok d) →
        (chunkLoop name ddsType byteCount remaining chunkIndex data).emitted.length = remaining) ∧
      ∀ (i : Nat) (r : Record),
        (chunkLoop name ddsType byteCount remaining chunkIndex data).emitted[i]? = some r →
        r.name = name ∧ r.ddsType = ddsType ∧ r.append = (chunkIndex + i != 0) ∧
          r.useDDS = (byteCount != 0 && chunkIndex + i == 0) := by
  intro remaining
  induction remaining with
  | zero =>
    intro chunkIndex data
    simp [chunkLoop]
  | succ n ih =>
    intro chunkIndex data
    cases hrc : readChunk data with
    | error e => simp [chunkLoop, hrc]
    | ok p =>
      obtain ⟨c, data1⟩ := p
      obtain ⟨h1, h2, h3⟩ := ih (chunkIndex + 1) data1
      simp only [chunkLoop, hrc, List.length_cons]
      refine ⟨by omega, ?_, ?_⟩
      · intro hd
        rw [h2 hd]
      · intro i r hr
        cases i with
        | zero =>
          simp only [List.getElem?_cons_zero, Option.some.injEq] at hr
          subst hr
          simp
        | succ j =>
          simp only [List.getElem?_cons_succ] at hr
          have hj := h3 j r hr
          have e : chunkIndex + (j + 1) = chunkIndex + 1 + j := by omega
          rw [e]
          exact hj

/-- Shape of the records emitted by the `if (count1)` part of a file entry:
`b` is the byte that follows the 4-byte identifier. -/
theorem fileEntryChunks_records (data1 : File) (name : List UInt8) (count1 : Nat) :
    (fileEntryChunks data1 name count1).emitted.length ≤ count1 ∧
    ((∃ d, (fileEntryChunks data1 name count1).result = .ok d) →
      (fileEntryChunks data1 name count1).emitted.length = count1) ∧
    ∃ ddsType : Nat, ∀ (i : Nat) (r : Record),
      (fileEntryChunks data1 name count1).emitted[i]? = some r →
      r.name = name ∧ r.ddsType = ddsType ∧ r.append = (i != 0) ∧
      ∃ b : UInt8, data1.block.Read ((data1.position + 4) % W) 1 = .ok [b] ∧
        r.useDDS = ((b.toNat &&& 3) != 0 && i == 0) := by
  by_cases hc : count1 = 0
  · simp [fileEntryChunks, hc]
  cases h2 : data1.ReadU32 with
  | error e => simp [fileEntryChunks, hc, h2]
  | ok p2 =>
    obtain ⟨sid, d2⟩ := p2
    cases h3 : d2.ReadU8 with
    | error e => simp [fileEntryChunks, hc, h2, h3]
    | ok p3 =>
      obtain ⟨ch2, d3⟩ := p3
      cases h4 : readVariadicInteger d3 (ch2 &&& 3) with
      | error e => simp [fileEntryChunks, hc, h2, h3, h4]
      | ok p4 =>
        obtain ⟨ddsType, d4⟩ := p4
        have hfe : fileEntryChunks data1 name count1 =
            chunkLoop name ddsType (ch2 &&& 3) count1 0 d4 := by
          simp [fileEntryChunks, hc, h2, h3, h4]
        rw [hfe]
        obtain ⟨bs, hbs, hlen, hv, hd3⟩ := File.ReadUInt_ok h3
        obtain ⟨b, rfl⟩ : ∃ b, bs = [b] := by
          match bs, hlen with
          | [b], _ => exact ⟨b, rfl⟩
        have hpos : d2.position = (data1.position + 4) % W := File.ReadUInt_position h2
        have hblk : d2.block = data1.block := File.ReadUInt_block h2
        rw [hpos, hblk] at hbs
        have hv2 : ch2 = b.toNat := by simpa [leValue] using hv
        obtain ⟨k1, k2, k3⟩ := chunkLoop_records name ddsType (ch2 &&& 3) count1 0 d4
        refine ⟨k1, k2, ddsType, ?_⟩
        intro i r hr
        have := k3 i r hr
        simp only [Nat.zero_add] at this
        refine ⟨this.1, this.2.1, this.2.2.1, b, hbs, ?_⟩
        rw [← hv2]
        exact this.2.2.2

/-- The file-entry branch emits what its chunk loop emits. -/
theorem fileEntry_emitted (data : File) (name : List UInt8) (ch : Nat) :
    (fileEntry data name ch).emitted = (fileEntryChunks data name ((ch - 65) &&& 7)).emitted := by
  unfold fileEntry
  simp only
  split
  · rfl
  · split
    · split
      · rfl
      · split <;> rfl
    · rfl

/-- The file-entry branch returns only when its chunk loop returned. -/
theorem fileEntry_ok (data : File) (name : List UInt8) (ch : Nat)
    (h : (fileEntry data name ch).result = .ok ()) :
    ∃ d, (fileEntryChunks data name ((ch - 65) &&& 7)).result = .ok d := by
  unfold fileEntry at h
  simp only at h
  split at h
  · cases h
  · rename_i d hd
    exact ⟨d, hd⟩

/-- On a file-entry control byte `ParseNames` runs the file-entry branch. -/
theorem ParseNames_fileEntry (fuel : Nat) (data data1 : File) (name : List UInt8) (ch : Nat)
    (hch : data.ReadU8 = .ok (ch, data1)) (hA : 65 ≤ ch ∧ ch ≤ 90) :
    ParseNames (fuel + 1) data name = fileEntry data1 name ch := by
  show ParseNamesBody (ParseNames fuel) data name = _
  unfold ParseNamesBody
  rw [hch]
  simp only
  rw [if_neg (by omega), if_neg (by omega), if_pos hA]

/-! ### Reads from a memory block given as a concatenation -/

theorem slice_append (pre bs post : List UInt8) :
    slice (pre ++ (bs ++ post)) pre.length bs.length = bs := by
  simp [slice]

/-- Reading the bytes `bs` that follow the prefix `pre` of a memory block. -/
theorem File.Read_cursorAfter (s pre bs post : List UInt8) (hs : s = pre ++ (bs ++ post))
    (hW : s.length < W) :
    (cursorAfter s pre).Read bs.length = (cursorAfter s (pre ++ bs), .ok bs) := by
  have hlen : pre.length + bs.length ≤ s.length := by
    rw [hs]; simp only [List.length_append]; omega
  have hmod : (pre.length + bs.length) % W = pre.length + bs.length :=
    Nat.mod_eq_of_lt (by omega)
  simp only [File.Read, cursorAfter, Block.Read, hmod, List.length_append]
  rw [if_neg (by omega), if_pos hlen]
  rw [hs, slice_append]

theorem File.ReadUInt_cursorAfter (s pre bs post : List UInt8) (hs : s = pre ++ (bs ++ post))
    (hW : s.length < W) :
    (cursorAfter s pre).ReadUInt bs.length = .ok (leValue bs, cursorAfter s (pre ++ bs)) := by
  simp only [File.ReadUInt, File.Read_cursorAfter s pre bs post hs hW]

theorem File.ReadU8_cursorAfter (s pre post : List UInt8) (b : UInt8)
    (hs : s = pre ++ (b :: post)) (hW : s.length < W) :
    (cursorAfter s pre).ReadU8 = .ok (b.toNat, cursorAfter s (pre ++ [b])) := by
  have := File.ReadUInt_cursorAfter s pre [b] post
    (by simpa using hs) hW
  simpa [File.ReadU8, leValue] using this

theorem File.ReadU32_cursorAfter (s pre bs post : List UInt8) (hs : s = pre ++ (bs ++ post))
    (hW : s.length < W) (h4 : bs.length = 4) :
    (cursorAfter s pre).ReadU32 = .ok (leValue bs, cursorAfter s (pre ++ bs)) := by
  have := File.ReadUInt_cursorAfter s pre bs post hs hW
  rw [h4] at this
  exact this

theorem leValue_lt (bs : List UInt8) : leValue bs < 2 ^ (8 * bs.length) := by
  induction bs with
  | nil => simp [leValue]
  | cons b bs ih =>
    have hb : b.toNat < 256 := UInt8.toNat_lt b
    simp only [leValue, List.length_cons]
    have : 2 ^ (8 * (bs.length + 1)) = 256 * 2 ^ (8 * bs.length) := by
      rw [Nat.mul_add, Nat.pow_add]; norm_num; ring
    rw [this]
    nlinarith

/-- The accumulation `result |= byte << (i * 8)` adds the byte at its place when
`result` has no bit at or above bit `8 * i`. -/
theorem or_shift_byte (result b i : Nat) (h : result < 2 ^ (8 * i)) :
    result ||| (b <<< (i * 8)) = result + 2 ^ (8 * i) * b := by
  rw [Nat.shiftLeft_eq, Nat.mul_comm i 8, Nat.mul_comm b, Nat.lor_comm, Nat.add_comm]
  exact (Nat.mul_add_lt_is_or h b).symm

theorem readVariadicIntegerFrom_cursorAfter {s : List UInt8} (hW : s.length < W) :
    ∀ (bs pre post : List UInt8) (result i : Nat), s = pre ++ (bs ++ post) →
      result < 2 ^ (8 * i) →
      readVariadicIntegerFrom bs.length (cursorAfter s pre) result i =
        .ok (result + 2 ^ (8 * i) * leValue bs, cursorAfter s (pre ++ bs)) := by
  intro bs
  induction bs with
  | nil =>
    intro pre post result i _ _
    simp [readVariadicIntegerFrom, leValue]
  | cons b bs ih =>
    intro pre post result i hs hr
    have hb : b.toNat < 256 := UInt8.toNat_lt b
    have h1 := File.ReadU8_cursorAfter s pre (bs ++ post) b
      (by simpa using hs) hW
    simp only [List.length_cons, readVariadicIntegerFrom, h1]
    have hpow : 2 ^ (8 * (i + 1)) = 256 * 2 ^ (8 * i) := by
      rw [Nat.mul_add, Nat.pow_add]; norm_num; ring
    rw [or_shift_byte _ _ _ hr,
      ih (pre ++ [b]) post _ (i + 1) (by simpa using hs) (by rw [hpow]; nlinarith)]
    simp only [leValue, List.append_assoc, List.singleton_append, hpow]
    congr 2
    ring

/-- `readVariadicInteger` over the bytes `bs` yields their little-endian value. -/
theorem readVariadicInteger_cursorAfter (s pre bs post : List UInt8)
    (hs : s = pre ++ (bs ++ post)) (hW : s.length < W) :
    readVariadicInteger (cursorAfter s pre) bs.length =
      .ok (leValue bs, cursorAfter s (pre ++ bs)) := by
  have := readVariadicIntegerFrom_cursorAfter hW bs pre post 0 0 hs (by simp)
  simpa [readVariadicInteger] using this

theorem readName_cursorAfter {s : List UInt8} (hW : s.length < W) :
    ∀ (frag pre post name : List UInt8), s = pre ++ (frag ++ post) →
      readName frag.length (cursorAfter s pre) name =
        .ok (name ++ frag, cursorAfter s (pre ++ frag)) := by
  intro frag
  induction frag with
  | nil =>
    intro pre post name _
    simp [readName]
  | cons b frag ih =>
    intro pre post name hs
    have h1 := File.Read_cursorAfter s pre [b] (frag ++ post)
      (by simpa using hs) hW
    simp only [List.length_singleton] at h1
    simp only [List.length_cons, readName, h1]
    rw [ih (pre ++ [b]) post _ (by simpa using hs)]
    simp

theorem readPages_cursorAfter {s : List UInt8} (hW : s.length < W) :
    ∀ (n : Nat) (pages pre post : List UInt8) (acc : List Nat), pages.length = 2 * n →
      s = pre ++ (pages ++ post) →
      readPages n (cursorAfter s pre) acc =
        .ok (acc ++ leValues16 pages, cursorAfter s (pre ++ pages)) := by
  intro n
  induction n with
  | zero =>
    intro pages pre post acc hlen _
    have : pages = [] := List.length_eq_zero.mp (by simpa using hlen)
    subst this
    simp [readPages, leValues16]
  | succ n ih =>
    intro pages pre post acc hlen hs
    match pages, hlen with
    | b0 :: b1 :: pages, hlen =>
      have h1 := readVariadicInteger_cursorAfter s pre [b0, b1]
        (pages ++ post) (by simpa using hs) hW
      simp only [List.length_cons, List.length_nil] at h1
      simp only [readPages, h1]
      rw [ih pages (pre ++ [b0, b1]) post _ (by simp only [List.length_cons] at hlen; omega)
        (by simpa using hs)]
      simp [leValues16]

/-- An optional field: read when `c` holds, else absent with value 0. -/
theorem optionalField_cursorAfter (s pre bs post : List UInt8) (c : Prop) [Decidable c]
    (k : Nat) (hs : s = pre ++ (bs ++ post)) (hW : s.length < W)
    (hlen : bs.length = if c then k else 0) :
    (if c then readVariadicInteger (cursorAfter s pre) k else .ok (0, cursorAfter s pre)) =
      .ok (leValue bs, cursorAfter s (pre ++ bs)) := by
  by_cases hc : c
  · rw [if_pos hc] at hlen ⊢
    rw [← hlen]
    exact readVariadicInteger_cursorAfter s pre bs post hs hW
  · rw [if_neg hc] at hlen ⊢
    have : bs = [] := List.length_eq_zero.mp hlen
    subst this
    simp [leValue]

/-- The chunk-loop body over a well-formed slot yields the slot's fields. -/
theorem readChunk_cursorAfter (s pre post : List UInt8) (b : SlotBytes)
    (hs : s = pre ++ (b.bytes ++ post)) (hW : s.length < W) (hwf : b.WellFormed) :
    readChunk (cursorAfter s pre) =
      .ok (⟨b.ch3.toNat, leValue b.decompressedSize, leValue b.compressedSize,
            leValue b.packageOffset, leValue b.packageId, b.compSizeArray⟩,
           cursorAfter s (pre ++ b.bytes)) := by
  obtain ⟨w1, w2, w3, w4, w5, w6⟩ := hwf
  simp only [SlotBytes.bytes, List.cons_append, List.append_assoc] at hs
  have r0 := File.ReadU8_cursorAfter s pre _ b.ch3 hs hW
  have r1 := readVariadicInteger_cursorAfter s (pre ++ [b.ch3])
    b.decompressedSize _ (by simpa using hs) hW
  have r2 := optionalField_cursorAfter s (pre ++ [b.ch3] ++ b.decompressedSize)
    b.compressedSize _ ((b.ch3.toNat >>> 5) &&& 1 ≠ 0) ((b.ch3.toNat &&& 3) + 1)
    (by simpa using hs) hW (by simpa [SlotBytes.isCompressed] using w2)
  have r3 := optionalField_cursorAfter s
    (pre ++ [b.ch3] ++ b.decompressedSize ++ b.compressedSize)
    b.packageOffset _ ((b.ch3.toNat >>> 2) &&& 7 ≠ 0) ((b.ch3.toNat >>> 2) &&& 7)
    (by simpa using hs) hW (by rw [w3]; split <;> omega)
  have r4 := readVariadicInteger_cursorAfter s
    (pre ++ [b.ch3] ++ b.decompressedSize ++ b.compressedSize ++ b.packageOffset)
    b.packageId _ (by simpa using hs) hW
  have r6 := readVariadicInteger_cursorAfter s
    (pre ++ [b.ch3] ++ b.decompressedSize ++ b.compressedSize ++ b.packageOffset
      ++ b.packageId ++ b.pages)
    b.fileId post (by simpa using hs) hW
  have r5 : (if (b.ch3.toNat >>> 5) &&& 1 ≠ 0 then
        (let pageCount := ((leValue b.decompressedSize + 0xffff) % W) >>> 16
         if pageCount > 1 then
           readPages pageCount (cursorAfter s (pre ++ [b.ch3] ++ b.decompressedSize ++
             b.compressedSize ++ b.packageOffset ++ b.packageId)) []
         else .ok ([], cursorAfter s (pre ++ [b.ch3] ++ b.decompressedSize ++
             b.compressedSize ++ b.packageOffset ++ b.packageId)))
      else .ok ([], cursorAfter s (pre ++ [b.ch3] ++ b.decompressedSize ++
             b.compressedSize ++ b.packageOffset ++ b.packageId))) =
      .ok (if b.isCompressed ∧ b.pageCount > 1 then leValues16 b.pages else [],
        cursorAfter s (pre ++ [b.ch3] ++ b.decompressedSize ++
             b.compressedSize ++ b.packageOffset ++ b.packageId ++ b.pages)) := by
    by_cases hc : (b.ch3.toNat >>> 5) &&& 1 ≠ 0
    · have hc' : b.isCompressed = true := by simpa [SlotBytes.isCompressed] using hc
      rw [if_pos hc]
      by_cases hp : b.pageCount > 1
      · have hp' : ((leValue b.decompressedSize + 0xffff) % W) >>> 16 > 1 := hp
        simp only [hp', if_true]
        rw [if_pos ⟨hc', hp⟩] at w5 ⊢
        have := readPages_cursorAfter hW b.pageCount b.pages
          (pre ++ [b.ch3] ++ b.decompressedSize ++ b.compressedSize ++ b.packageOffset
            ++ b.packageId) (b.fileId ++ post) [] w5 (by simpa using hs)
        simpa [SlotBytes.pageCount] using this
      · have hp' : ¬ ((leValue b.decompressedSize + 0xffff) % W) >>> 16 > 1 := hp
        simp only [hp', if_false]
        rw [if_neg (fun h => hp h.2)] at w5 ⊢
        have : b.pages = [] := List.length_eq_zero.mp w5
        rw [this]; simp
    · have hc' : ¬ (b.isCompressed = true) := by simpa [SlotBytes.isCompressed] using hc
      rw [if_neg hc]
      rw [if_neg (fun h => hc' h.1)] at w5 ⊢
      have : b.pages = [] := List.length_eq_zero.mp w5
      rw [this]; simp
  rw [w1] at r1
  rw [w4] at r4
  rw [w6] at r6
  unfold readChunk
  rw [r0]
  simp only
  rw [r1]
  simp only
  rw [r2]
  simp only
  rw [r3]
  simp only
  rw [r4]
  simp only
  rw [r5]
  simp only
  rw [r6]
  simp only [SlotBytes.bytes, List.append_assoc, List.singleton_append, List.cons_append,
    List.nil_append]
  congr 3
  unfold SlotBytes.compSizeArray
  by_cases hc : (b.ch3.toNat >>> 5) &&& 1 ≠ 0
  · have hc' : b.isCompressed = true := by simpa [SlotBytes.isCompressed] using hc
    by_cases hp : b.pageCount > 1
    · have hne : ¬ (leValues16 b.pages).length = 0 := by
        rw [if_pos ⟨hc', hp⟩] at w5
        match hpg : b.pages, w5 with
        | b0 :: b1 :: rest, _ => simp [leValues16]
        | [_], h => simp at h; omega
        | [], h => simp at h; omega
      have e1 : b.isCompressed = true ∧ b.pageCount > 1 := ⟨hc', hp⟩
      simp only [if_pos e1, if_pos hc', if_pos hp]
      rw [if_neg (fun h => hne h.1)]
    · have e1 : ¬ (b.isCompressed = true ∧ b.pageCount > 1) := fun h => hp h.2
      simp only [if_neg e1, if_pos hc', if_neg hp]
      rw [if_pos ⟨rfl, hc⟩]
      rfl
  · have hc' : ¬ (b.isCompressed = true) := by simpa [SlotBytes.isCompressed] using hc
    have e1 : ¬ (b.isCompressed = true ∧ b.pageCount > 1) := fun h => hc' h.1
    simp only [if_neg e1, if_neg hc']
    rw [if_neg (fun h => hc h.2)]

/-- The file-entry branch over a well-formed single-slot entry without trailer
emits the entry's record and returns. -/
theorem fileEntry_cursorAfter (s pre post : List UInt8) (e : EntryBytes) (name : List UInt8)
    (hs : s = pre ++ (e.bytes ++ post)) (hW : s.length < W) (hwf : e.WellFormed) :
    fileEntry (cursorAfter s (pre ++ [e.ctrl])) name e.ctrl.toNat =
      ⟨[e.record name], .ok ()⟩ := by
  obtain ⟨_, hcount, hflag, hid, htag, hslot⟩ := hwf
  simp only [EntryBytes.bytes, List.cons_append, List.append_assoc] at hs
  have r1 := File.ReadU32_cursorAfter s (pre ++ [e.ctrl]) e.strangeId _
    (by simpa using hs) hW hid
  have r2 := File.ReadU8_cursorAfter s (pre ++ [e.ctrl] ++ e.strangeId) _
    e.ch2 (by simpa using hs) hW
  have r3 := readVariadicInteger_cursorAfter s
    (pre ++ [e.ctrl] ++ e.strangeId ++ [e.ch2]) e.ddsType _
    (by simpa using hs) hW
  have r4 := readChunk_cursorAfter s
    (pre ++ [e.ctrl] ++ e.strangeId ++ [e.ch2] ++ e.ddsType) post e.slot
    (by simpa using hs) hW hslot
  rw [htag] at r3
  have hchunks : fileEntryChunks (cursorAfter s (pre ++ [e.ctrl])) name 1 =
      ⟨[e.record name], .ok (cursorAfter s
        (pre ++ [e.ctrl] ++ e.strangeId ++ [e.ch2] ++ e.ddsType ++ e.slot.bytes))⟩ := by
    unfold fileEntryChunks
    rw [if_pos (by decide), r1]
    simp only
    rw [r2]
    simp only
    rw [r3]
    simp only [chunkLoop, r4, EntryBytes.record]
    simp
  unfold fileEntry
  simp only [hcount, hflag, hchunks]
  simp

/-- C2: over the stream `[n] frag [entry] rest`, where `n` in `1..31` is the length
of the name fragment `frag` and `entry` is a well-formed file entry with
`entryCount = 1` and no trailer, `ParseNames` with prefix `p` invokes the
callback exactly once and returns; the record has `name = p ++ frag`, and its
`ddsType` (headerTypeTag), `decompressedSize`, `packageOffset` and `packageId`
are the little-endian values of the corresponding field bytes, whose widths are
`ch2 & 3`, `(c & 3) + 1`, `(c >> 2) & 7` and 2 (`packageOffset = 0` when its
width is 0). -/
theorem parseNames_minimal_stream (fuel : Nat) (p frag rest : List UInt8) (n : UInt8)
    (e : EntryBytes) (hn : n.toNat = frag.length)
    (hfrag : 1 ≤ frag.length ∧ frag.length ≤ 31) (hwf : e.WellFormed)
    (hW : (n :: (frag ++ (e.bytes ++ rest))).length < W) :
    ParseNames (fuel + 2) ⟨.memory (n :: (frag ++ (e.bytes ++ rest))), 0⟩ p =
      ⟨[e.record (p ++ frag)], .ok ()⟩ ∧
    (e.record (p ++ frag)).name = p ++ frag ∧
    (e.record (p ++ frag)).ddsType = leValue e.ddsType ∧
    (e.record (p ++ frag)).decompressedSize = leValue e.slot.decompressedSize ∧
    (e.record (p ++ frag)).packageOffset = leValue e.slot.packageOffset ∧
    (e.record (p ++ frag)).packageId = leValue e.slot.packageId ∧
    e.ddsType.length = (e.ch2.toNat &&& 3) ∧
    e.slot.decompressedSize.length = (e.slot.ch3.toNat &&& 3) + 1 ∧
    e.slot.packageOffset.length = ((e.slot.ch3.toNat >>> 2) &&& 7) ∧
    e.slot.packageId.length = 2 ∧
    (e.slot.packageOffset.length = 0 → (e.record (p ++ frag)).packageOffset = 0) := by
  refine ⟨?_, rfl, rfl, rfl, rfl, rfl, hwf.2.2.2.2.1, hwf.2.2.2.2.2.1, hwf.2.2.2.2.2.2.2.1,
    hwf.2.2.2.2.2.2.2.2.1, ?_⟩
  · generalize hs : n :: (frag ++ (e.bytes ++ rest)) = s at hW
    have hs' : s = [] ++ (n :: (frag ++ (e.bytes ++ rest))) := by simp [hs]
    have r0 := File.ReadU8_cursorAfter s [] _ n hs' hW
    have r1 := readName_cursorAfter hW frag [n] (e.bytes ++ rest) p (by simp [hs])
    have r2 := File.ReadU8_cursorAfter s ([n] ++ frag)
      (e.strangeId ++ (e.ch2 :: (e.ddsType ++ e.slot.bytes)) ++ rest) e.ctrl
      (by simp [← hs, EntryBytes.bytes]) hW
    have r3 := fileEntry_cursorAfter s ([n] ++ frag) rest e (p ++ frag)
      (by simp [hs]) hW hwf
    have hcur : (⟨.memory s, 0⟩ : File) = cursorAfter s [] := rfl
    rw [hcur]
    show ParseNamesBody (ParseNames (fuel + 1)) _ _ = _
    unfold ParseNamesBody
    simp only [List.nil_append] at r0
    rw [r0]
    simp only
    rw [if_neg (by omega), if_pos (by omega), hn, r1]
    simp only
    rw [ParseNames_fileEntry fuel _ _ _ _ r2 hwf.1, r3]
  · intro h0
    have : e.slot.packageOffset = [] := List.length_eq_zero.mp h0
    simp [EntryBytes.record, this, leValue]

/-- C2 at `demoStream` = `[2]['h']['i']['B'] ...`: one invocation, with name "hi". -/
theorem parseNames_minimal_stream_witness :
    ParseNames 2 ⟨.memory demoStream, 0⟩ [] =
      ⟨[{ name := [104, 105], packageId := 5, packageOffset := 0x20, decompressedSize := 0x10,
          compSizeArray := [], ddsType := 7, append := false, useDDS := true }], .ok ()⟩ :=
  (parseNames_minimal_stream 0 [] [104, 105] [] 2 demoEntry (by decide) (by decide)
    (by decide) (by decide)).1

/-! ### The recursion budget -/

/-- If the recursive calls agree wherever the first does not run out of budget,
so does the body. -/
theorem ParseNamesBody_congr (self self2 : File → List UInt8 → Run Unit)
    (h : ∀ d n, (self d n).result ≠ .error .fuel → self2 d n = self d n)
    (data : File) (name : List UInt8)
    (hr : (ParseNamesBody self data name).result ≠ .error .fuel) :
    ParseNamesBody self2 data name = ParseNamesBody self data name := by
  unfold ParseNamesBody at hr ⊢
  cases h1 : data.ReadU8 with
  | error e => rfl
  | ok p1 =>
    obtain ⟨ch, d1⟩ := p1
    simp only [h1] at hr ⊢
    by_cases c0 : ch = 0
    · simp only [if_pos c0]
    · simp only [if_neg c0] at hr ⊢
      by_cases c1 : 1 ≤ ch ∧ ch ≤ 0x1f
      · simp only [if_pos c1] at hr ⊢
        cases h2 : readName ch d1 name with
        | error e => rfl
        | ok p2 =>
          obtain ⟨name2, d2⟩ := p2
          simp only [h2] at hr ⊢
          exact h _ _ hr
      · simp only [if_neg c1] at hr ⊢
        by_cases c2 : 65 ≤ ch ∧ ch ≤ 90
        · simp only [if_pos c2]
        · simp only [if_neg c2] at hr ⊢
          cases h3 : d1.ReadU32 with
          | error e => rfl
          | ok p3 =>
            obtain ⟨offset, dl⟩ := p3
            simp only [h3] at hr ⊢
            cases h4 : d1.Seek offset .FileOriginBegin with
            | error e => rfl
            | ok dr =>
              simp only [h4] at hr ⊢
              unfold Run.andThen at hr ⊢
              cases hl : (self dl name).result with
              | error e =>
                simp only [hl] at hr
                have hne : (self dl name).result ≠ .error .fuel := by
                  rw [hl]; exact hr
                rw [h _ _ hne, hl]
              | ok u =>
                simp only [hl] at hr
                have hne : (self dl name).result ≠ .error .fuel := by
                  rw [hl]; exact fun h => by cases h
                rw [h _ _ hne, hl, h _ _ hr]

/-- One more unit of budget does not change a run that did not exhaust it. -/
theorem ParseNames_fuel_succ : ∀ (fuel : Nat) (data : File) (name : List UInt8),
    (ParseNames fuel data name).result ≠ .error .fuel →
    ParseNames (fuel + 1) data name = ParseNames fuel data name := by
  intro fuel
  induction fuel with
  | zero =>
    intro data name h
    exact absurd rfl h
  | succ n ih =>
    intro data name h
    exact ParseNamesBody_congr (ParseNames n) (ParseNames (n + 1)) ih data name h

/-- A larger budget does not change a run that did not exhaust the budget. -/
theorem ParseNames_fuel_le {fuel fuel2 : Nat} (hle : fuel ≤ fuel2) (data : File)
    (name : List UInt8) (h : (ParseNames fuel data name).result ≠ .error .fuel) :
    ParseNames fuel2 data name = ParseNames fuel data name := by
  induction hle with
  | refl => rfl
  | step _ ih =>
    rw [ParseNames_fuel_succ _ _ _ (by rw [ih]; exact h), ih]

/-- A call completes in at most one way. -/
theorem Completes_unique {data : File} {name : List UInt8} {r r2 : Run Unit}
    (h : Completes data name r) (h2 : Completes data name r2) : r = r2 := by
  obtain ⟨f, hf, hne⟩ := h
  obtain ⟨f2, hf2, hne2⟩ := h2
  rcases Nat.le_total f f2 with hle | hle
  · rw [← hf, ← hf2]
    exact (ParseNames_fuel_le hle data name (by rw [hf]; exact hne)).symm
  · rw [← hf, ← hf2]
    exact ParseNames_fuel_le hle data name (by rw [hf2]; exact hne2)

/-- A completed call gives the same run for every budget from some budget on. -/
theorem Completes_eventually {data : File} {name : List UInt8} {r : Run Unit}
    (h : Completes data name r) : ∃ fuel0, ∀ fuel, fuel0 ≤ fuel → ParseNames fuel data name = r := by
  obtain ⟨f, hf, hne⟩ := h
  exact ⟨f, fun fuel hle => by rw [ParseNames_fuel_le hle data name (by rw [hf]; exact hne), hf]⟩

/-! ### Scalar reads in terms of the bytes of the block -/

theorem File.ReadUInt_of_bytes (f : File) (k : Nat) (bytes : List UInt8)
    (h : f.block.Read f.position k = .ok bytes) :
    f.ReadUInt k = .ok (leValue bytes, ⟨f.block, (f.position + k) % W⟩) := by
  simp [File.ReadUInt, File.Read, h]

theorem andThen_result_ne_fuel (a b : Run Unit) (ha : a.result ≠ .error .fuel)
    (hb : b.result ≠ .error .fuel) : (a.andThen b).result ≠ .error .fuel := by
  unfold Run.andThen
  cases h : a.result with
  | error e => simpa [h] using ha
  | ok u => simpa using hb

theorem andThen_emitted_of_ok (a b : Run Unit) (ha : a.result = .ok ()) :
    (a.andThen b).emitted = a.emitted ++ b.emitted := by
  simp [Run.andThen, ha]

/-- A branch node whose jump offset is within the block: the run is the run of
the left child followed by the run of the right child. -/
theorem parseNames_branch_of_le (data : File) (name : List UInt8) (b : UInt8) (bs : List UInt8)
    (hb : data.block.Read data.position 1 = .ok [b]) (hbranch : isBranch b.toNat)
    (hbs : data.block.Read ((data.position + 1) % W) 4 = .ok bs)
    (ho : leValue bs ≤ data.Size) :
    (∀ fuel, ParseNames (fuel + 1) data name =
      (ParseNames fuel ⟨data.block, ((data.position + 1) % W + 4) % W⟩ name).andThen
        (ParseNames fuel ⟨data.block, leValue bs⟩ name)) ∧
    (∀ rl rr, Completes ⟨data.block, ((data.position + 1) % W + 4) % W⟩ name rl →
      Completes ⟨data.block, leValue bs⟩ name rr →
      Completes data name (rl.andThen rr)) ∧
    (∀ rl rr, Completes ⟨data.block, ((data.position + 1) % W + 4) % W⟩ name rl →
      rl.result = .ok () → Completes ⟨data.block, leValue bs⟩ name rr →
      ∃ r, Completes data name r ∧ r.emitted = rl.emitted ++ rr.emitted) := by
  have h1 : data.ReadU8 = .ok (b.toNat, ⟨data.block, (data.position + 1) % W⟩) := by
    have := File.ReadUInt_of_bytes data 1 [b] hb
    simpa [File.ReadU8, leValue] using this
  have h2 : (⟨data.block, (data.position + 1) % W⟩ : File).ReadU32 =
      .ok (leValue bs, ⟨data.block, ((data.position + 1) % W + 4) % W⟩) :=
    File.ReadUInt_of_bytes ⟨data.block, (data.position + 1) % W⟩ 4 bs hbs
  have h3 : (⟨data.block, (data.position + 1) % W⟩ : File).Seek (leValue bs) .FileOriginBegin =
      .ok ⟨data.block, leValue bs⟩ := by
    simp only [File.Seek, File.Size]
    rw [if_neg (by simpa [File.Size] using ho)]
  have step : ∀ fuel, ParseNames (fuel + 1) data name =
      (ParseNames fuel ⟨data.block, ((data.position + 1) % W + 4) % W⟩ name).andThen
        (ParseNames fuel ⟨data.block, leValue bs⟩ name) := by
    intro fuel
    show ParseNamesBody (ParseNames fuel) data name = _
    unfold ParseNamesBody
    rw [h1]
    simp only
    rw [if_neg hbranch.1, if_neg hbranch.2.1, if_neg hbranch.2.2, h2]
    simp only
    rw [h3]
  have comp : ∀ rl rr, Completes ⟨data.block, ((data.position + 1) % W + 4) % W⟩ name rl →
      Completes ⟨data.block, leValue bs⟩ name rr → Completes data name (rl.andThen rr) := by
    intro rl rr hl hr
    obtain ⟨fl, hfl⟩ := Completes_eventually hl
    obtain ⟨fr, hfr⟩ := Completes_eventually hr
    refine ⟨max fl fr + 1, ?_, andThen_result_ne_fuel _ _ hl.choose_spec.2 hr.choose_spec.2⟩
    rw [step, hfl _ (Nat.le_max_left _ _), hfr _ (Nat.le_max_right _ _)]
  refine ⟨step, comp, ?_⟩
  intro rl rr hl hok hr
  exact ⟨rl.andThen rr, comp rl rr hl hr, andThen_emitted_of_ok rl rr hok⟩

/-- A branch node whose jump offset lies beyond the block: `Seek` throws before
either child is decoded. -/
theorem parseNames_branch_of_gt (data : File) (name : List UInt8) (b : UInt8) (bs : List UInt8)
    (hb : data.block.Read data.position 1 = .ok [b]) (hbranch : isBranch b.toNat)
    (hbs : data.block.Read ((data.position + 1) % W) 4 = .ok bs)
    (ho : data.Size < leValue bs) (fuel : Nat) :
    ParseNames (fuel + 1) data name = ⟨[], .error .seekError⟩ := by
  have h1 : data.ReadU8 = .ok (b.toNat, ⟨data.block, (data.position + 1) % W⟩) := by
    have := File.ReadUInt_of_bytes data 1 [b] hb
    simpa [File.ReadU8, leValue] using this
  have h2 : (⟨data.block, (data.position + 1) % W⟩ : File).ReadU32 =
      .ok (leValue bs, ⟨data.block, ((data.position + 1) % W + 4) % W⟩) :=
    File.ReadUInt_of_bytes ⟨data.block, (data.position + 1) % W⟩ 4 bs hbs
  have h3 : (⟨data.block, (data.position + 1) % W⟩ : File).Seek (leValue bs) .FileOriginBegin =
      .error .seekError := by
    simp only [File.Seek, File.Size]
    rw [if_pos (by simpa [File.Size] using ho)]
  show ParseNamesBody (ParseNames fuel) data name = _
  unfold ParseNamesBody
  rw [h1]
  simp only
  rw [if_neg hbranch.1, if_neg hbranch.2.1, if_neg hbranch.2.2, h2]
  simp only
  rw [h3]

/-- C3 (as amended): at a branch node (control byte `b` that is neither 0, nor in
`1..31`, nor in `'A'..'Z'`) at position `q`, followed by the four bytes `bs` of
little-endian value `o`: when `o <= Size()`, the run of `ParseNames` is the run at
position `q + 5` (left child) followed, once that one has returned, by the run
at absolute position `o` (right child), both with the name in effect at the
branch node, so the records emitted are those of the left child followed by
those of the right child; when `o > Size()`, `ParseNames` throws the seek error
before either child is decoded and no record is emitted. -/
theorem parseNames_branch (data : File) (name : List UInt8) (b : UInt8) (bs : List UInt8)
    (hb : data.block.Read data.position 1 = .ok [b]) (hbranch : isBranch b.toNat)
    (hbs : data.block.Read ((data.position + 1) % W) 4 = .ok bs) :
    (leValue bs ≤ data.Size →
      (∀ fuel, ParseNames (fuel + 1) data name =
        (ParseNames fuel ⟨data.block, ((data.position + 1) % W + 4) % W⟩ name).andThen
          (ParseNames fuel ⟨data.block, leValue bs⟩ name)) ∧
      (∀ rl rr, Completes ⟨data.block, ((data.position + 1) % W + 4) % W⟩ name rl →
        Completes ⟨data.block, leValue bs⟩ name rr →
        Completes data name (rl.andThen rr)) ∧
      (∀ rl rr, Completes ⟨data.block, ((data.position + 1) % W + 4) % W⟩ name rl →
        rl.result = .ok () → Completes ⟨data.block, leValue bs⟩ name rr →
        ∃ r, Completes data name r ∧ r.emitted = rl.emitted ++ rr.emitted)) ∧
    (data.Size < leValue bs →
      ∀ fuel, ParseNames (fuel + 1) data name = ⟨[], .error .seekError⟩) ∧
    (data.position + 5 < W → ((data.position + 1) % W + 4) % W = data.position + 5) := by
  refine ⟨fun ho => parseNames_branch_of_le data name b bs hb hbranch hbs ho,
    fun ho fuel => parseNames_branch_of_gt data name b bs hb hbranch hbs ho fuel, ?_⟩
  intro hq
  have e1 : (data.position + 1) % W = data.position + 1 := Nat.mod_eq_of_lt (by omega)
  rw [e1]
  exact Nat.mod_eq_of_lt (by omega)

/-- C3 at `branchStream`: the run at the branch node is the run of the left child
(position 5) followed by the run of the right child (position 19). -/
theorem parseNames_branch_witness :
    ParseNames 3 ⟨.memory branchStream, 0⟩ [] =
      (ParseNames 2 ⟨.memory branchStream, 5⟩ []).andThen
        (ParseNames 2 ⟨.memory branchStream, 19⟩ []) :=
  ((parseNames_branch ⟨.memory branchStream, 0⟩ [] 0x80 [19, 0, 0, 0] (by decide) (by decide)
    (by decide)).1 (by decide)).1 2

/-- C3 as stated fails on `badBranchStream`, whose branch node carries the offset
200 beyond the 19 bytes of the stream: decoding at position 5 emits one record
and returns, yet `ParseNames` at the branch node emits nothing and throws the
seek error. -/
theorem parseNames_branch_counterexample :
    (ParseNames 3 ⟨.memory badBranchStream, 0⟩ []).emitted ≠
        (ParseNames 2 ⟨.memory badBranchStream, 5⟩ []).emitted ++
          (ParseNames 2 ⟨.memory badBranchStream, 200⟩ []).emitted ∧
      (ParseNames 3 ⟨.memory badBranchStream, 0⟩ []).emitted = [] ∧
      (ParseNames 3 ⟨.memory badBranchStream, 0⟩ []).result = .error .seekError ∧
      (ParseNames 2 ⟨.memory badBranchStream, 5⟩ []).emitted.length = 1 ∧
      (ParseNames 2 ⟨.memory badBranchStream, 5⟩ []).result = .ok () := by
  decide

/-! ### Control byte 0 -/

/-- A call at a cursor whose control byte is 0 throws the format error. -/
theorem ParseNamesBody_zero (self : File → List UInt8 → Run Unit) (x : File)
    (y : List UInt8) (hz : x.block.Read x.position 1 = .ok [0]) :
    ParseNamesBody self x y = ⟨[], .error .unexpectedByte⟩ := by
  have h1 : x.ReadU8 = .ok (0, ⟨x.block, (x.position + 1) % W⟩) := by
    have := File.ReadUInt_of_bytes x 1 [0] hz
    simpa [File.ReadU8, leValue] using this
  unfold ParseNamesBody
  rw [h1]
  simp

/-- The exception of a nested call reaches the caller: if the walk from
`(data, name)` makes the call at `(x, y)` and that call, for every budget from
some budget on, ends with the thrown fault `e`, so does the walk. -/
theorem Visits_error {data x : File} {name y : List UInt8} (hv : Visits data name x y)
    (e : Fault) (he : ∃ fuel0, ∀ fuel, fuel0 ≤ fuel → (ParseNames fuel x y).result = .error e) :
    ∃ fuel0, ∀ fuel, fuel0 ≤ fuel → (ParseNames fuel data name).result = .error e := by
  induction hv with
  | root data name => exact he
  | @fragment data data1 data2 x name name2 y ch h1 hc h2 _ ih =>
    obtain ⟨f0, hf0⟩ := ih he
    refine ⟨f0 + 1, fun fuel hle => ?_⟩
    obtain ⟨k, rfl⟩ : ∃ k, fuel = k + 1 := ⟨fuel - 1, by omega⟩
    show (ParseNamesBody (ParseNames k) data name).result = _
    unfold ParseNamesBody
    rw [h1]
    simp only
    rw [if_neg (by omega), if_pos hc, h2]
    exact hf0 k (by omega)
  | @left data data1 dataL dataR x name y ch offset h1 hb h2 h3 _ ih =>
    obtain ⟨f0, hf0⟩ := ih he
    refine ⟨f0 + 1, fun fuel hle => ?_⟩
    obtain ⟨k, rfl⟩ : ∃ k, fuel = k + 1 := ⟨fuel - 1, by omega⟩
    show (ParseNamesBody (ParseNames k) data name).result = _
    unfold ParseNamesBody
    rw [h1]
    simp only
    rw [if_neg hb.1, if_neg hb.2.1, if_neg hb.2.2, h2]
    simp only
    rw [h3]
    simp only [Run.andThen, hf0 k (by omega)]
  | @right data data1 dataL dataR x name y ch offset rl h1 hb h2 h3 hl hok _ ih =>
    obtain ⟨f0, hf0⟩ := ih he
    obtain ⟨fl, hfl⟩ := Completes_eventually hl
    refine ⟨max f0 fl + 1, fun fuel hle => ?_⟩
    obtain ⟨k, rfl⟩ : ∃ k, fuel = k + 1 := ⟨fuel - 1, by omega⟩
    have hk0 : f0 ≤ k := by have := Nat.le_max_left f0 fl; omega
    have hkl : fl ≤ k := by have := Nat.le_max_right f0 fl; omega
    show (ParseNamesBody (ParseNames k) data name).result = _
    unfold ParseNamesBody
    rw [h1]
    simp only
    rw [if_neg hb.1, if_neg hb.2.1, if_neg hb.2.2, h2]
    simp only
    rw [h3]
    simp only [Run.andThen, hfl k hkl, hok, hf0 k hk0]

/-- C5: whenever the walk started by `ParseNames(data, cb, name)` reaches a node
position (the call at cursor `x`) whose control byte is 0, `ParseNames` fails with
the format error "Unexcepted byte in file tree": for every sufficient recursion
budget the run ends with that exception (it neither returns nor skips the byte). -/
theorem parseNames_zero_byte (data x : File) (name y : List UInt8)
    (hv : Visits data name x y) (hz : x.block.Read x.position 1 = .ok [0]) :
    ∃ fuel0, ∀ fuel, fuel0 ≤ fuel →
      (ParseNames fuel data name).result = .error .unexpectedByte := by
  refine Visits_error hv .unexpectedByte ⟨1, fun fuel hle => ?_⟩
  obtain ⟨k, rfl⟩ : ∃ k, fuel = k + 1 := ⟨fuel - 1, by omega⟩
  show (ParseNamesBody (ParseNames k) x y).result = _
  rw [ParseNamesBody_zero _ x y hz]

/-- C5 on the stream `[1]['x'][0]`: the walk from position 0 reaches position 2,
whose control byte is 0, and fails with the format error. -/
theorem parseNames_zero_byte_witness :
    ∃ fuel0, ∀ fuel, fuel0 ≤ fuel →
      (ParseNames fuel ⟨.memory [1, 120, 0], 0⟩ []).result = .error .unexpectedByte :=
  parseNames_zero_byte ⟨.memory [1, 120, 0], 0⟩ ⟨.memory [1, 120, 0], 2⟩ [] [120]
    (Visits.fragment (by decide : File.ReadU8 ⟨.memory [1, 120, 0], 0⟩ = .ok (1, ⟨.memory [1, 120, 0], 1⟩))
      (by decide) (by decide : readName 1 ⟨.memory [1, 120, 0], 1⟩ [] = .ok ([120], ⟨.memory [1, 120, 0], 2⟩))
      (Visits.root _ _))
    (by decide)

/-! ### The chunk-loop body over an arbitrary block -/

theorem Block.byteAt_of_read {b : Block} {pos : Nat} {x : UInt8}
    (h : b.Read pos 1 = .ok [x]) : b.byteAt pos = some x := by
  simp [Block.byteAt, h]

/-- A `Read<uint8_t>()` that returns, in terms of the byte read. -/
theorem File.ReadU8_ok {f f1 : File} {v : Nat} (h : f.ReadU8 = .ok (v, f1)) :
    ∃ x : UInt8, f.block.byteAt f.position = some x ∧ v = x.toNat ∧
      f1 = ⟨f.block, (f.position + 1) % W⟩ := by
  obtain ⟨bytes, hb, hlen, hv, hf⟩ := File.ReadUInt_ok h
  match bytes, hlen with
  | [x], _ =>
    exact ⟨x, Block.byteAt_of_read hb, by simpa [leValue] using hv, hf⟩

/-- What a `readVariadicInteger` loop that returns has read. -/
theorem readVariadicIntegerFrom_ok : ∀ (remaining : Nat) (data data2 : File) (result i v : Nat),
    data.position < W → result < 2 ^ (8 * i) →
    readVariadicIntegerFrom remaining data result i = .ok (v, data2) →
    ∃ bs : List UInt8, bs.length = remaining ∧ v = result + 2 ^ (8 * i) * leValue bs ∧
      data2 = ⟨data.block, (data.position + remaining) % W⟩ ∧
      ∀ k, k < remaining → data.block.byteAt ((data.position + k) % W) = bs[k]? := by
  intro remaining
  induction remaining with
  | zero =>
    intro data data2 result i v hp _ h
    simp only [readVariadicIntegerFrom, Except.ok.injEq, Prod.mk.injEq] at h
    refine ⟨[], rfl, by simp [leValue, h.1], ?_, by intro k hk; omega⟩
    rw [← h.2, Nat.add_zero, Nat.mod_eq_of_lt hp]
  | succ n ih =>
    intro data data2 result i v hp hr h
    simp only [readVariadicIntegerFrom] at h
    cases h1 : data.ReadU8 with
    | error e => simp [h1] at h
    | ok p1 =>
      obtain ⟨b, d1⟩ := p1
      simp only [h1] at h
      obtain ⟨x, hx, hbx, hd1⟩ := File.ReadU8_ok h1
      have hxlt : x.toNat < 256 := UInt8.toNat_lt x
      have hpow : 2 ^ (8 * (i + 1)) = 256 * 2 ^ (8 * i) := by
        rw [Nat.mul_add, Nat.pow_add]; norm_num; ring
      rw [or_shift_byte _ _ _ hr] at h
      have hd1p : d1.position < W := by
        rw [hd1]; exact Nat.mod_lt _ (by decide)
      obtain ⟨bs, hlen, hv, hd2, hbytes⟩ := ih d1 data2 _ (i + 1) v hd1p
        (by rw [hpow, hbx]; nlinarith) h
      refine ⟨x :: bs, by simp [hlen], ?_, ?_, ?_⟩
      · rw [hv, hbx, hpow]
        simp only [leValue]
        ring
      · rw [hd2, hd1]
        simp only [File.mk.injEq, true_and]
        simp only [W]
        omega
      · intro k hk
        cases k with
        | zero =>
          simpa [Nat.mod_eq_of_lt hp] using hx
        | succ j =>
          have := hbytes j (by omega)
          rw [hd1] at this
          simp only at this
          rw [List.getElem?_cons_succ, ← this]
          congr 1
          simp only [W]
          omega

/-- What a `readVariadicInteger(count)` that returns has read. -/
theorem readVariadicInteger_ok {data data2 : File} {count v : Nat} (hp : data.position < W)
    (h : readVariadicInteger data count = .ok (v, data2)) :
    ∃ bs : List UInt8, bs.length = count ∧ v = leValue bs ∧
      data2 = ⟨data.block, (data.position + count) % W⟩ ∧
      ∀ k, k < count → data.block.byteAt ((data.position + k) % W) = bs[k]? := by
  obtain ⟨bs, h1, h2, h3, h4⟩ :=
    readVariadicIntegerFrom_ok count data data2 0 0 v hp (by simp) h
  exact ⟨bs, h1, by simpa using h2, h3, h4⟩

/-- What a page loop that returns has read: `remaining` consecutive 2-byte
little-endian integers. -/
theorem readPages_ok : ∀ (remaining : Nat) (data data2 : File) (acc arr : List Nat),
    data.position < W → readPages remaining data acc = .ok (arr, data2) →
    ∃ vals : List Nat, arr = acc ++ vals ∧ vals.length = remaining ∧
      data2 = ⟨data.block, (data.position + 2 * remaining) % W⟩ ∧
      ∀ k, k < remaining → ∃ b0 b1 : UInt8,
        data.block.byteAt ((data.position + 2 * k) % W) = some b0 ∧
        data.block.byteAt ((data.position + 2 * k + 1) % W) = some b1 ∧
        vals[k]? = some (b0.toNat + 256 * b1.toNat) := by
  intro remaining
  induction remaining with
  | zero =>
    intro data data2 acc arr hp h
    simp only [readPages, Except.ok.injEq, Prod.mk.injEq] at h
    refine ⟨[], by simp [h.1], rfl, ?_, by intro k hk; omega⟩
    rw [← h.2, Nat.mul_zero, Nat.add_zero, Nat.mod_eq_of_lt hp]
  | succ n ih =>
    intro data data2 acc arr hp h
    simp only [readPages] at h
    cases h1 : readVariadicInteger data 2 with
    | error e => simp [h1] at h
    | ok p1 =>
      obtain ⟨v, d1⟩ := p1
      simp only [h1] at h
      obtain ⟨bs, hlen, hv, hd1, hbytes⟩ := readVariadicInteger_ok hp h1
      have hd1p : d1.position < W := by
        rw [hd1]; exact Nat.mod_lt _ (by decide)
      obtain ⟨vals, harr, hvl, hd2, hrest⟩ := ih d1 data2 _ arr hd1p h
      match bs, hlen with
      | [b0, b1], _ =>
        refine ⟨v :: vals, by simp [harr], by simp [hvl], ?_, ?_⟩
        · rw [hd2, hd1]
          simp only [File.mk.injEq, true_and]
          simp only [W]
          omega
        · intro k hk
          cases k with
          | zero =>
            refine ⟨b0, b1, ?_, ?_, ?_⟩
            · simpa using hbytes 0 (by omega)
            · simpa using hbytes 1 (by omega)
            · simp [hv, leValue]
          | succ j =>
            obtain ⟨c0, c1, e0, e1, e2⟩ := hrest j (by omega)
            rw [hd1] at e0 e1
            simp only at e0 e1
            refine ⟨c0, c1, ?_, ?_, by simpa using e2⟩
            · rw [← e0]; congr 1; simp only [W]; omega
            · rw [← e1]; congr 1; simp only [W]; omega

/-- The page count of the code is the ceiling of `decompressedSize / 0x10000` for
every size that fits the at most four bytes of the size field. -/
theorem pageCount_eq_ceil (n : Nat) (hn : n < 2 ^ 32) :
    ((n + 0xffff) % W) >>> 16 = ⌈(n : ℚ) / 0x10000⌉₊ := by
  have hmod : (n + 0xffff) % W = n + 0xffff := Nat.mod_eq_of_lt (by simp only [W]; omega)
  rw [hmod, Nat.shiftRight_eq_div_pow]
  symm
  apply le_antisymm
  · rw [Nat.ceil_le, div_le_iff₀ (by norm_num)]
    have : n ≤ (n + 0xffff) / 2 ^ 16 * 0x10000 := by omega
    exact_mod_cast this
  · rcases Nat.eq_zero_or_pos ((n + 0xffff) / 2 ^ 16) with h0 | hpos
    · rw [h0]; exact Nat.zero_le _
    · have hlt : (n + 0xffff) / 2 ^ 16 - 1 < ⌈(n : ℚ) / 0x10000⌉₊ := by
        rw [Nat.lt_ceil, lt_div_iff₀ (by norm_num)]
        have : ((n + 0xffff) / 2 ^ 16 - 1) * 0x10000 < n := by omega
        exact_mod_cast this
      omega

/-- C4: for every chunk slot that the chunk loop of `ParseNames` decodes (the body
`readChunk` returns the chunk `c`, whose `decompressedSize` and `compSizeArray`
the loop hands to the callback unchanged): `decompressedSize` fits four bytes and the code's
page count `(decompressedSize + 0xffff) >> 16` is `ceil(decompressedSize /
0x10000)` (as for every size below `2^32`); if the `isCompressed` bit of the
slot's control byte is clear, `compSizeArray` is empty; if it is set and the
page count is at most 1, `compSizeArray = [compressedSize]`; if it is set and the
page count exceeds 1, `compSizeArray` has exactly page-count elements, the `k`-th
being the 2-byte little-endian integer at the `k`-th pair of bytes that follow
the `packageId` field in the stream. -/
theorem readChunk_pages (data data2 : File) (c : Chunk)
    (h : readChunk data = .ok (c, data2)) :
    (∀ name ddsType byteCount remaining chunkIndex, ∃ r,
      (chunkLoop name ddsType byteCount (remaining + 1) chunkIndex data).emitted.head? =
        some r ∧
      r.decompressedSize = c.decompressedSize ∧ r.compSizeArray = c.compSizeArray) ∧
    (∃ x : UInt8, data.block.byteAt data.position = some x ∧ c.ch3 = x.toNat) ∧
    c.decompressedSize < 2 ^ 32 ∧
    ((c.decompressedSize + 0xffff) % W) >>> 16 = ⌈(c.decompressedSize : ℚ) / 0x10000⌉₊ ∧
    (∀ n : Nat, n < 2 ^ 32 → ((n + 0xffff) % W) >>> 16 = ⌈(n : ℚ) / 0x10000⌉₊) ∧
    ((c.ch3 >>> 5) &&& 1 = 0 → c.compSizeArray = []) ∧
    ((c.ch3 >>> 5) &&& 1 ≠ 0 → ((c.decompressedSize + 0xffff) % W) >>> 16 ≤ 1 →
      c.compSizeArray = [c.compressedSize]) ∧
    ((c.ch3 >>> 5) &&& 1 ≠ 0 → ((c.decompressedSize + 0xffff) % W) >>> 16 > 1 →
      c.compSizeArray.length = ((c.decompressedSize + 0xffff) % W) >>> 16 ∧
      ∀ k, k < ((c.decompressedSize + 0xffff) % W) >>> 16 → ∃ b0 b1 : UInt8,
        data.block.byteAt ((data.position + 1 + 2 * ((c.ch3 &&& 3) + 1) +
          ((c.ch3 >>> 2) &&& 7) + 2 + 2 * k) % W) = some b0 ∧
        data.block.byteAt ((data.position + 1 + 2 * ((c.ch3 &&& 3) + 1) +
          ((c.ch3 >>> 2) &&& 7) + 2 + 2 * k + 1) % W) = some b1 ∧
        c.compSizeArray[k]? = some (b0.toNat + 256 * b1.toNat)) := by
  refine ⟨fun name ddsType byteCount remaining chunkIndex => by
    simp only [chunkLoop, h, List.head?_cons]
    exact ⟨_, rfl, rfl, rfl⟩, ?_⟩
  unfold readChunk at h
  cases h0 : data.ReadU8 with
  | error e => rw [h0] at h; cases h
  | ok p0 =>
  obtain ⟨ch3, d0⟩ := p0
  simp only [h0] at h
  obtain ⟨x, hx, hch3, hd0⟩ := File.ReadU8_ok h0
  have hd0p : d0.position < W := by rw [hd0]; exact Nat.mod_lt _ (by decide)
  cases h1 : readVariadicInteger d0 ((ch3 &&& 3) + 1) with
  | error e => rw [h1] at h; cases h
  | ok p1 =>
  obtain ⟨ds, d1⟩ := p1
  simp only [h1] at h
  obtain ⟨bs1, hlen1, hds, hd1, _⟩ := readVariadicInteger_ok hd0p h1
  have hd1p : d1.position < W := by rw [hd1]; exact Nat.mod_lt _ (by decide)
  have hds32 : ds < 2 ^ 32 := by
    have h3 : ch3 &&& 3 ≤ 3 := Nat.and_le_right
    have := leValue_lt bs1
    rw [hlen1] at this
    rw [hds]
    exact lt_of_lt_of_le this (Nat.pow_le_pow_right (by decide) (by omega))
  cases h2 : (if (ch3 >>> 5) &&& 1 ≠ 0 then readVariadicInteger d1 ((ch3 &&& 3) + 1)
      else .ok (0, d1)) with
  | error e => rw [h2] at h; cases h
  | ok p2 =>
  obtain ⟨cs, d2⟩ := p2
  simp only [h2] at h
  cases h3 : (if (ch3 >>> 2) &&& 7 ≠ 0 then readVariadicInteger d2 ((ch3 >>> 2) &&& 7)
      else .ok (0, d2)) with
  | error e => rw [h3] at h; cases h
  | ok p3 =>
  obtain ⟨po, d3⟩ := p3
  simp only [h3] at h
  cases h4 : readVariadicInteger d3 2 with
  | error e => rw [h4] at h; cases h
  | ok p4 =>
  obtain ⟨pid, d4⟩ := p4
  simp only [h4] at h
  cases h5 : (if (ch3 >>> 5) &&& 1 ≠ 0 then
      (let pageCount := ((ds + 0xffff) % W) >>> 16
       if pageCount > 1 then readPages pageCount d4 [] else .ok ([], d4))
      else .ok ([], d4)) with
  | error e => rw [h5] at h; cases h
  | ok p5 =>
  obtain ⟨arr, d5⟩ := p5
  simp only [h5] at h
  cases h6 : readVariadicInteger d5 4 with
  | error e => rw [h6] at h; cases h
  | ok p6 =>
  obtain ⟨fid, d6⟩ := p6
  simp only [h6, Except.ok.injEq, Prod.mk.injEq] at h
  obtain ⟨hc, _⟩ := h
  subst hc
  simp only
  refine ⟨⟨x, hx, hch3⟩, hds32, pageCount_eq_ceil ds hds32, pageCount_eq_ceil, ?_, ?_, ?_⟩
  · intro hz
    rw [if_neg (by simpa using hz)] at h5
    simp only [Except.ok.injEq, Prod.mk.injEq] at h5
    rw [if_neg (fun hh => hh.2 hz), ← h5.1]
  · intro hnz hle
    rw [if_pos hnz] at h5
    simp only at h5
    rw [if_neg (by omega)] at h5
    simp only [Except.ok.injEq, Prod.mk.injEq] at h5
    rw [← h5.1, if_pos ⟨rfl, hnz⟩]
    rfl
  · intro hnz hgt
    rw [if_pos hnz] at h5 h2
    simp only at h5
    rw [if_pos hgt] at h5
    obtain ⟨bs2, hlen2, _, hd2, _⟩ := readVariadicInteger_ok hd1p h2
    have hd2p : d2.position < W := by rw [hd2]; exact Nat.mod_lt _ (by decide)
    have hd3 : d3 = ⟨d2.block, (d2.position + ((ch3 >>> 2) &&& 7)) % W⟩ := by
      by_cases ho : (ch3 >>> 2) &&& 7 ≠ 0
      · rw [if_pos ho] at h3
        obtain ⟨_, _, _, hd3, _⟩ := readVariadicInteger_ok hd2p h3
        exact hd3
      · rw [if_neg ho] at h3
        simp only [Except.ok.injEq, Prod.mk.injEq] at h3
        have ho' : (ch3 >>> 2) &&& 7 = 0 := by simpa using ho
        rw [← h3.2, ho', Nat.add_zero, Nat.mod_eq_of_lt hd2p]
    have hd3p : d3.position < W := by rw [hd3]; exact Nat.mod_lt _ (by decide)
    obtain ⟨_, _, _, hd4, _⟩ := readVariadicInteger_ok hd3p h4
    have hd4p : d4.position < W := by rw [hd4]; exact Nat.mod_lt _ (by decide)
    obtain ⟨vals, harr, hvl, _, hvals⟩ := readPages_ok _ d4 d5 [] arr hd4p h5
    simp only [List.nil_append] at harr
    have hne : ¬ (arr.length = 0 ∧ (ch3 >>> 5) &&& 1 ≠ 0) := by
      intro hh
      rw [harr, hvl] at hh
      omega
    rw [if_neg hne, harr]
    refine ⟨hvl, fun k hk => ?_⟩
    obtain ⟨b0, b1, e0, e1, e2⟩ := hvals k hk
    have hblk : d4.block = data.block := by rw [hd4, hd3, hd2, hd1, hd0]
    have hpos : d4.position = (data.position + 1 + 2 * ((ch3 &&& 3) + 1) +
        ((ch3 >>> 2) &&& 7) + 2) % W := by
      rw [hd4, hd3, hd2, hd1, hd0]
      simp only [W]
      omega
    rw [hblk, hpos] at e0 e1
    refine ⟨b0, b1, ?_, ?_, e2⟩
    · rw [← e0]; congr 1; simp only [W]; omega
    · rw [← e1]; congr 1; simp only [W]; omega

/-- C4 on `pagedSlot`, a compressed slot of `0x20000` bytes: the page count is 2 and
two page sizes are read. -/
theorem readChunk_pages_witness :
    ([0x1234, 0x5678] : List Nat).length = ((0x20000 + 0xffff) % W) >>> 16 :=
  ((readChunk_pages ⟨.memory pagedSlot, 0⟩ ⟨.memory pagedSlot, 17⟩
    ⟨0x22, 0x20000, 5, 0, 1, [0x1234, 0x5678]⟩ (by decide)).2.2.2.2.2.2.2
      (by decide) (by decide)).1

/-! ### Reads of well-formed blocks -/

theorem slice_slice (buffer : List UInt8) (o s o2 s2 : Nat) (h : o2 + s2 ≤ s) :
    slice (slice buffer o s) o2 s2 = slice buffer (o + o2) s2 := by
  unfold slice
  rw [List.drop_take, List.take_take, List.drop_drop, Nat.min_eq_left (by omega)]

theorem slice_append_slice (buffer : List UInt8) (o d e : Nat) :
    slice buffer o d ++ slice buffer (o + d) e = slice buffer o (d + e) := by
  unfold slice
  rw [← List.drop_drop, List.take_add]

theorem Block.bytes_length (b : Block) (h : b.WF) : b.bytes.length = b.Size := by
  induction b with
  | disk content => rfl
  | memory blockData => rfl
  | part file offset size ih =>
    have := ih h.1
    have h2 := h.2
    simp only [Block.bytes, Block.Size]
    exact slice_length _ _ _ (by omega)

theorem Block.WF_size_lt (b : Block) (h : b.WF) : b.Size < W := by
  induction b with
  | disk content => exact h
  | memory blockData => exact h
  | part file offset size ih =>
    have := ih h.1
    have h2 := h.2
    simp only [Block.Size]
    omega

/-- A read inside a well-formed block returns the requested window of its bytes. -/
theorem Block.Read_of_le (b : Block) : ∀ (offset size : Nat), b.WF →
    offset + size ≤ b.Size → b.Read offset size = .ok (slice b.bytes offset size) := by
  induction b with
  | disk content =>
    intro offset size _ hle
    have hle2 : offset + size ≤ content.length := hle
    have hmod : (offset + size) % W ≤ content.length := le_trans (Nat.mod_le _ _) hle2
    simp only [Block.Read, Block.bytes]
    rw [if_neg (by omega), if_pos hle2]
  | memory blockData =>
    intro offset size _ hle
    have hle2 : offset + size ≤ blockData.length := hle
    have hmod : (offset + size) % W ≤ blockData.length := le_trans (Nat.mod_le _ _) hle2
    simp only [Block.Read, Block.bytes]
    rw [if_neg (by omega), if_pos hle2]
  | part file offset_ size_ ih =>
    intro offset size hwf hle
    have hle2 : offset + size ≤ size_ := hle
    have hmod : (offset + size) % W ≤ size_ := le_trans (Nat.mod_le _ _) hle2
    have hfs := Block.WF_size_lt file hwf.1
    have h2 := hwf.2
    have hmod2 : (offset + offset_) % W = offset_ + offset := by
      rw [Nat.mod_eq_of_lt (by omega), Nat.add_comm]
    simp only [Block.Read, Block.bytes]
    rw [if_neg (by omega), hmod2, ih _ _ hwf.1 (by omega), slice_slice _ _ _ _ _ hle2]

/-! ### Pages stored raw -/

theorem store_window (pre : List UInt8) (bytes : List UInt8) (m e : Nat)
    (hb : bytes.length = e) (he : e ≤ m) :
    store (pre ++ List.replicate m 0) pre.length bytes =
      .ok (pre ++ bytes ++ List.replicate (m - e) 0) := by
  unfold store
  rw [if_pos (by simp only [List.length_append, List.length_replicate]; omega)]
  congr 1
  rw [List.take_left', List.drop_append_eq_append_drop, List.drop_of_length_le (by omega),
    List.nil_append, hb, List.drop_replicate]
  · congr 2
    omega
  · rfl

/-- One raw page: the window of the package is copied to the buffer. -/
theorem pageStep_raw (uncompress : Nat → List UInt8 → Option (List UInt8)) (fileBlock : Block)
    (packageOffset decompressedSize d calls s : Nat) (hwf : fileBlock.WF)
    (hle : packageOffset + decompressedSize ≤ fileBlock.Size) (hd : d ≤ decompressedSize)
    (hs : s = 0 ∨ min (decompressedSize - d) 0x10000 = s) :
    pageStep uncompress fileBlock packageOffset decompressedSize
        ⟨slice fileBlock.bytes packageOffset d ++ List.replicate (decompressedSize - d) 0,
          d, d, calls⟩ s =
      .ok ⟨slice fileBlock.bytes packageOffset (d + min (decompressedSize - d) 0x10000) ++
            List.replicate (decompressedSize - (d + min (decompressedSize - d) 0x10000)) 0,
          d + min (decompressedSize - d) 0x10000, d + min (decompressedSize - d) 0x10000,
          calls⟩ := by
  have hW := Block.WF_size_lt fileBlock hwf
  have hlen := Block.bytes_length fileBlock hwf
  have hexp : (decompressedSize + W - d) % W = decompressedSize - d := by
    have : decompressedSize + W - d = (decompressedSize - d) + W := by omega
    rw [this, Nat.add_mod_right, Nat.mod_eq_of_lt (by omega)]
  generalize he : min (decompressedSize - d) 0x10000 = e at hs ⊢
  have hed : d + e ≤ decompressedSize := by omega
  have hoff : (packageOffset + d) % W = packageOffset + d := Nat.mod_eq_of_lt (by omega)
  have hde : (d + e) % W = d + e := Nat.mod_eq_of_lt (by omega)
  have hread := Block.Read_of_le fileBlock (packageOffset + d) e hwf (by omega)
  have hsl : (slice fileBlock.bytes packageOffset d).length = d :=
    slice_length _ _ _ (by omega)
  have hsl2 : (slice fileBlock.bytes (packageOffset + d) e).length = e :=
    slice_length _ _ _ (by omega)
  have hst := store_window (slice fileBlock.bytes packageOffset d)
    (slice fileBlock.bytes (packageOffset + d) e) (decompressedSize - d) e hsl2 (by omega)
  rw [hsl] at hst
  unfold pageStep
  simp only [hexp, he, hoff, hde]
  rw [if_pos hs, hread]
  simp only
  rw [hst]
  simp only [Except.ok.injEq, PageState.mk.injEq, and_true]
  rw [slice_append_slice]
  congr 2
  omega

/-- A list of raw pages copies the window of the package page by page and never
calls `uncompress`. -/
theorem pageLoop_allRaw (uncompress : Nat → List UInt8 → Option (List UInt8))
    (fileBlock : Block) (packageOffset decompressedSize : Nat) (hwf : fileBlock.WF)
    (hle : packageOffset + decompressedSize ≤ fileBlock.Size) :
    ∀ (pages : List Nat) (d calls : Nat), d ≤ decompressedSize →
      allRaw decompressedSize d pages →
      pageLoop uncompress fileBlock packageOffset decompressedSize
          ⟨slice fileBlock.bytes packageOffset d ++ List.replicate (decompressedSize - d) 0,
            d, d, calls⟩ pages =
        .ok ⟨slice fileBlock.bytes packageOffset
              (min decompressedSize (d + pages.length * 0x10000)) ++
              List.replicate
                (decompressedSize - min decompressedSize (d + pages.length * 0x10000)) 0,
            min decompressedSize (d + pages.length * 0x10000),
            min decompressedSize (d + pages.length * 0x10000), calls⟩ := by
  intro pages
  induction pages with
  | nil =>
    intro d calls hd _
    simp only [pageLoop, List.length_nil, Nat.zero_mul, Nat.add_zero, Nat.min_eq_right hd]
  | cons s rest ih =>
    intro d calls hd hraw
    obtain ⟨hs, hrest⟩ := hraw
    simp only [pageLoop]
    rw [pageStep_raw uncompress fileBlock packageOffset decompressedSize d calls s hwf hle hd hs]
    simp only
    rw [ih _ calls (by omega) hrest]
    have : min decompressedSize
        (d + min (decompressedSize - d) 0x10000 + rest.length * 0x10000) =
        min decompressedSize (d + (rest.length + 1) * 0x10000) := by omega
    simp only [List.length_cons, this]

/-! ### One page of the page loop, over a partly filled buffer -/

theorem expected_size (decompressedSize d : Nat) (hn : decompressedSize < W)
    (hd : d ≤ decompressedSize) : (decompressedSize + W - d) % W = decompressedSize - d := by
  have : decompressedSize + W - d = (decompressedSize - d) + W := by omega
  rw [this, Nat.add_mod_right, Nat.mod_eq_of_lt (by omega)]

/-- A raw page: the bytes read from the package are stored behind the part of
the buffer filled so far. -/
theorem pageStep_raw_filled (uncompress : Nat → List UInt8 → Option (List UInt8))
    (fileBlock : Block) (packageOffset decompressedSize : Nat) (filled : List UInt8)
    (compOffset calls s : Nat) (bytes : List UInt8) (hn : decompressedSize < W)
    (hf : filled.length ≤ decompressedSize)
    (hs : s = 0 ∨ min (decompressedSize - filled.length) 0x10000 = s)
    (hread : fileBlock.Read ((packageOffset + compOffset) % W)
      (min (decompressedSize - filled.length) 0x10000) = .ok bytes) :
    pageStep uncompress fileBlock packageOffset decompressedSize
        ⟨filled ++ List.replicate (decompressedSize - filled.length) 0, filled.length,
          compOffset, calls⟩ s =
      .ok ⟨filled ++ bytes ++ List.replicate (decompressedSize - filled.length -
              min (decompressedSize - filled.length) 0x10000) 0,
          filled.length + min (decompressedSize - filled.length) 0x10000,
          (compOffset + min (decompressedSize - filled.length) 0x10000) % W, calls⟩ := by
  have hexp := expected_size decompressedSize filled.length hn hf
  have hbl := Block.Read_length _ _ _ _ hread
  generalize he : min (decompressedSize - filled.length) 0x10000 = e at hs hread hbl ⊢
  have hde : (filled.length + e) % W = filled.length + e := Nat.mod_eq_of_lt (by omega)
  have hst := store_window filled bytes (decompressedSize - filled.length) e hbl (by omega)
  unfold pageStep
  simp only [hexp, he, hde]
  rw [if_pos hs, hread]
  simp only
  rw [hst]

/-- A compressed page on which `uncompress` returns `Z_OK` with `out`: `out` is
stored behind the part of the buffer filled so far and `decompOffset` advances
by the length of `out`. -/
theorem pageStep_compressed_filled (uncompress : Nat → List UInt8 → Option (List UInt8))
    (fileBlock : Block) (packageOffset decompressedSize : Nat) (filled : List UInt8)
    (compOffset calls s : Nat) (compressed out : List UInt8) (hn : decompressedSize < W)
    (hf : filled.length ≤ decompressedSize) (hs : s ≠ 0)
    (hne : min (decompressedSize - filled.length) 0x10000 ≠ s)
    (hread : fileBlock.Read ((packageOffset + compOffset) % W) s = .ok compressed)
    (hu : uncompress (min (decompressedSize - filled.length) 0x10000) compressed = some out)
    (hout : out.length ≤ min (decompressedSize - filled.length) 0x10000) :
    pageStep uncompress fileBlock packageOffset decompressedSize
        ⟨filled ++ List.replicate (decompressedSize - filled.length) 0, filled.length,
          compOffset, calls⟩ s =
      .ok ⟨filled ++ out ++ List.replicate (decompressedSize - filled.length - out.length) 0,
          filled.length + out.length, (compOffset + s) % W, calls + 1⟩ := by
  have hexp := expected_size decompressedSize filled.length hn hf
  generalize he : min (decompressedSize - filled.length) 0x10000 = e at hne hu hout ⊢
  have hde : (filled.length + out.length) % W = filled.length + out.length :=
    Nat.mod_eq_of_lt (by omega)
  have hst := store_window filled out (decompressedSize - filled.length) out.length rfl
    (by omega)
  unfold pageStep
  simp only [hexp, he, hde]
  rw [if_neg (by intro h; rcases h with h | h; exact hs h; exact hne h), hread]
  simp only
  rw [hu]
  simp only
  rw [hst]
  simp only [hde]

/-- A compressed page on which `uncompress` does not return `Z_OK`: the callback
throws "Uncompress error". -/
theorem pageStep_compressed_fail (uncompress : Nat → List UInt8 → Option (List UInt8))
    (fileBlock : Block) (packageOffset decompressedSize : Nat) (st : PageState) (s : Nat)
    (compressed : List UInt8) (hn : decompressedSize < W)
    (hd : st.decompOffset ≤ decompressedSize) (hs : s ≠ 0)
    (hne : min (decompressedSize - st.decompOffset) 0x10000 ≠ s)
    (hread : fileBlock.Read ((packageOffset + st.compOffset) % W) s = .ok compressed)
    (hu : uncompress (min (decompressedSize - st.decompOffset) 0x10000) compressed = none) :
    pageStep uncompress fileBlock packageOffset decompressedSize st s =
      .error .uncompressError := by
  have hexp := expected_size decompressedSize st.decompOffset hn hd
  unfold pageStep
  simp only [hexp]
  rw [if_neg (by intro h; rcases h with h | h; exact hs h; exact hne h), hread]
  simp only
  rw [hu]

/-- C7: for `decompressedSize = 0x20000` and the page list `[s1, s2]` with `s1` a
compressed size (`s1 != 0`, `s1 != 0x10000`) and `s2` raw (0 or `0x10000`), when
`uncompress` returns exactly `0x10000` bytes `d1` for the package bytes
`[packageOffset, packageOffset + s1)`, reconstruction returns a memory block of
`0x20000` bytes: `d1` followed by the package bytes
`[packageOffset + s1, packageOffset + s1 + 0x10000)`. -/
theorem reconstruct_two_pages (uncompress : Nat → List UInt8 → Option (List UInt8))
    (fileBlock : Block) (packageOffset s1 s2 : Nat) (d1 : List UInt8)
    (hwf : fileBlock.WF) (hle : packageOffset + s1 + 0x10000 ≤ fileBlock.Size)
    (hs1 : s1 ≠ 0 ∧ s1 ≠ 0x10000) (hs2 : s2 = 0 ∨ s2 = 0x10000)
    (hd1 : uncompress 0x10000 (slice fileBlock.bytes packageOffset s1) = some d1)
    (hlen : d1.length = 0x10000) :
    reconstruct uncompress fileBlock packageOffset 0x20000 [s1, s2] =
      .ok (.memory (d1 ++ slice fileBlock.bytes (packageOffset + s1) 0x10000)) ∧
    (d1 ++ slice fileBlock.bytes (packageOffset + s1) 0x10000).length = 0x20000 := by
  have hW := Block.WF_size_lt fileBlock hwf
  have hbl := Block.bytes_length fileBlock hwf
  have hn : (0x20000 : Nat) < W := by decide
  have hr1 : fileBlock.Read ((packageOffset + 0) % W) s1 =
      .ok (slice fileBlock.bytes packageOffset s1) := by
    rw [Nat.add_zero, Nat.mod_eq_of_lt (by omega)]
    exact Block.Read_of_le fileBlock _ _ hwf (by omega)
  have hr2 : fileBlock.Read ((packageOffset + (0 + s1) % W) % W) 0x10000 =
      .ok (slice fileBlock.bytes (packageOffset + s1) 0x10000) := by
    rw [Nat.zero_add, Nat.mod_eq_of_lt (a := s1) (by omega), Nat.mod_eq_of_lt (by omega)]
    exact Block.Read_of_le fileBlock _ _ hwf (by omega)
  have hsl : (slice fileBlock.bytes (packageOffset + s1) 0x10000).length = 0x10000 :=
    slice_length _ _ _ (by omega)
  have e1 : min (0x20000 - ([] : List UInt8).length) 0x10000 = 0x10000 := by decide
  have step1 := pageStep_compressed_filled uncompress fileBlock packageOffset 0x20000 []
    0 0 s1 (slice fileBlock.bytes packageOffset s1) d1 hn (by decide) hs1.1
    (by rw [e1]; exact fun h => hs1.2 h.symm) hr1 (by rw [e1]; exact hd1)
    (by rw [e1, hlen])
  have hfl : ([] ++ d1 : List UInt8).length = 0x10000 := by
    rw [List.nil_append, hlen]
  have e2 : min (0x20000 - ([] ++ d1 : List UInt8).length) 0x10000 = 0x10000 := by
    rw [hfl]
    decide
  have step2 := pageStep_raw_filled uncompress fileBlock packageOffset 0x20000 ([] ++ d1)
    ((0 + s1) % W) (0 + 1) s2 (slice fileBlock.bytes (packageOffset + s1) 0x10000) hn
    (by rw [hfl]; decide) (by rw [e2]; rcases hs2 with h | h; exact Or.inl h; exact Or.inr h.symm)
    (by rw [e2]; exact hr2)
  have h0 : (0x20000 : Nat) - ([] : List UInt8).length - d1.length =
      0x20000 - ([] ++ d1).length := by
    rw [hfl, hlen]
    rfl
  have hz : (0x20000 : Nat) - ([] ++ d1 : List UInt8).length -
      min (0x20000 - ([] ++ d1 : List UInt8).length) 0x10000 = 0 := by
    rw [hfl]
    decide
  have h1 : ([] : List UInt8).length + d1.length = ([] ++ d1).length := by
    rw [List.length_append]
  rw [h0, h1] at step1
  rw [hz, List.replicate_zero, List.append_nil] at step2
  refine ⟨?_, by rw [List.length_append, hlen, hsl]⟩
  have hl : ¬ ([s1, s2] : List Nat).length = 0 := by
    intro h; cases h
  have hinit : initialPageState 0x20000 =
      ⟨[] ++ List.replicate (0x20000 - ([] : List UInt8).length) 0,
        ([] : List UInt8).length, 0, 0⟩ := rfl
  unfold reconstruct
  rw [if_neg hl, hinit]
  simp only [pageLoop]
  rw [step1]
  simp only
  rw [step2]
  rfl

/-- C7 on a package of `0x10001` bytes: the first page is one compressed byte that
decompresses to `0x10000` bytes, the second page is raw. -/
theorem reconstruct_two_pages_witness :
    reconstruct (fun _ _ => some (List.replicate 0x10000 7))
        (.disk (List.replicate 0x10001 5)) 0 0x20000 [1, 0] =
      .ok (.memory (List.replicate 0x10000 7 ++ slice (List.replicate 0x10001 5) 1 0x10000)) :=
  (reconstruct_two_pages (fun _ _ => some (List.replicate 0x10000 7))
    (.disk (List.replicate 0x10001 5)) 0 1 0 (List.replicate 0x10000 7)
    (by show (List.replicate 0x10001 (5 : UInt8)).length < W
        rw [List.length_replicate]; decide)
    (by show 0 + 1 + 0x10000 ≤ (List.replicate 0x10001 (5 : UInt8)).length
        rw [List.length_replicate])
    (by decide) (Or.inl rfl) rfl (List.length_replicate _ _)).1

/-! ### Invariant of the page loop -/

theorem store_length {buffer bytes out : List UInt8} {offset : Nat}
    (h : store buffer offset bytes = .ok out) : out.length = buffer.length := by
  unfold store at h
  split at h
  · cases h
    simp only [List.length_append, List.length_take, List.length_drop]
    omega
  · cases h

/-- Under the contract of `uncompress` (the output fits the capacity passed as
`destLen`), a page step keeps the buffer size and keeps `decompOffset` within
`decompressedSize`. -/
theorem pageStep_invariant (uncompress : Nat → List UInt8 → Option (List UInt8))
    (hu : ∀ destLen source out, uncompress destLen source = some out → out.length ≤ destLen)
    (fileBlock : Block) (packageOffset decompressedSize : Nat) (hn : decompressedSize < W)
    (st st2 : PageState) (s : Nat)
    (hlen : st.decompressed.length = decompressedSize) (hd : st.decompOffset ≤ decompressedSize)
    (h : pageStep uncompress fileBlock packageOffset decompressedSize st s = .ok st2) :
    st2.decompressed.length = decompressedSize ∧ st2.decompOffset ≤ decompressedSize := by
  have hexp := expected_size decompressedSize st.decompOffset hn hd
  unfold pageStep at h
  simp only [hexp] at h
  split at h
  · cases hr : fileBlock.Read ((packageOffset + st.compOffset) % W)
        (min (decompressedSize - st.decompOffset) 0x10000) with
    | error e => rw [hr] at h; cases h
    | ok bytes =>
      rw [hr] at h
      simp only at h
      cases hs : store st.decompressed st.decompOffset bytes with
      | error e => rw [hs] at h; cases h
      | ok buffer =>
        rw [hs] at h
        simp only [Except.ok.injEq] at h
        subst h
        refine ⟨by rw [store_length hs, hlen], ?_⟩
        show (st.decompOffset + min (decompressedSize - st.decompOffset) 0x10000) % W ≤ _
        rw [Nat.mod_eq_of_lt (by omega)]
        omega
  · cases hr : fileBlock.Read ((packageOffset + st.compOffset) % W) s with
    | error e => rw [hr] at h; cases h
    | ok compressed =>
      rw [hr] at h
      simp only at h
      cases hc : uncompress (min (decompressedSize - st.decompOffset) 0x10000) compressed with
      | none => rw [hc] at h; cases h
      | some out =>
        rw [hc] at h
        simp only at h
        have hol := hu _ _ _ hc
        cases hs : store st.decompressed st.decompOffset out with
        | error e => rw [hs] at h; cases h
        | ok buffer =>
          rw [hs] at h
          simp only [Except.ok.injEq] at h
          subst h
          refine ⟨by rw [store_length hs, hlen], ?_⟩
          show (st.decompOffset + out.length) % W ≤ _
          rw [Nat.mod_eq_of_lt (by omega)]
          omega

theorem pageLoop_invariant (uncompress : Nat → List UInt8 → Option (List UInt8))
    (hu : ∀ destLen source out, uncompress destLen source = some out → out.length ≤ destLen)
    (fileBlock : Block) (packageOffset decompressedSize : Nat) (hn : decompressedSize < W) :
    ∀ (pages : List Nat) (st st2 : PageState),
      st.decompressed.length = decompressedSize → st.decompOffset ≤ decompressedSize →
      pageLoop uncompress fileBlock packageOffset decompressedSize st pages = .ok st2 →
      st2.decompressed.length = decompressedSize ∧ st2.decompOffset ≤ decompressedSize := by
  intro pages
  induction pages with
  | nil =>
    intro st st2 hlen hd h
    simp only [pageLoop, Except.ok.injEq] at h
    subst h
    exact ⟨hlen, hd⟩
  | cons s rest ih =>
    intro st st2 hlen hd h
    simp only [pageLoop] at h
    cases hs : pageStep uncompress fileBlock packageOffset decompressedSize st s with
    | error e => rw [hs] at h; cases h
    | ok st1 =>
      rw [hs] at h
      simp only at h
      obtain ⟨h1, h2⟩ := pageStep_invariant uncompress hu fileBlock packageOffset
        decompressedSize hn st st1 s hlen hd hs
      exact ih st1 st2 h1 h2 h

/-- The page loop over a concatenation of page lists. -/
theorem pageLoop_append (uncompress : Nat → List UInt8 → Option (List UInt8))
    (fileBlock : Block) (packageOffset decompressedSize : Nat) :
    ∀ (pre rest : List Nat) (st : PageState),
      pageLoop uncompress fileBlock packageOffset decompressedSize st (pre ++ rest) =
        match pageLoop uncompress fileBlock packageOffset decompressedSize st pre with
        | .error e => .error e
        | .ok st1 => pageLoop uncompress fileBlock packageOffset decompressedSize st1 rest := by
  intro pre
  induction pre with
  | nil => intro rest st; rfl
  | cons s pre ih =>
    intro rest st
    simp only [List.cons_append, pageLoop]
    cases pageStep uncompress fileBlock packageOffset decompressedSize st s with
    | error e => rfl
    | ok st1 => exact ih rest st1

theorem initialPageState_invariant (decompressedSize : Nat) :
    (initialPageState decompressedSize).decompressed.length = decompressedSize ∧
      (initialPageState decompressedSize).decompOffset ≤ decompressedSize := by
  constructor
  · exact List.length_replicate _ _
  · exact Nat.zero_le _

/-- C8 (as amended): let `uncompress` obey its contract (on `Z_OK` the output fits
the capacity passed as `destLen`), and let the page loop have run over the pages
`pre`, reaching the state `st`.  For a following compressed page (recorded size
`s` with `s != 0` and `s != expected`, the expected size being
`min(decompressedSize - decompOffset, 0x10000)`) whose `s` bytes `compressed` are
read from the package: when `uncompress` does not return `Z_OK`, reconstruction
throws "Uncompress error" and returns no buffer; when it returns `Z_OK` with
`out` (of the expected size or shorter), the page is accepted: `out` is stored at
`decompOffset`, which advances by the length of `out`, and `compOffset` by `s`. -/
theorem reconstruct_compressed_page (uncompress : Nat → List UInt8 → Option (List UInt8))
    (hu : ∀ destLen source out, uncompress destLen source = some out → out.length ≤ destLen)
    (fileBlock : Block) (packageOffset decompressedSize : Nat) (hn : decompressedSize < W)
    (pre rest : List Nat) (st : PageState) (s : Nat) (compressed : List UInt8)
    (hpre : pageLoop uncompress fileBlock packageOffset decompressedSize
      (initialPageState decompressedSize) pre = .ok st)
    (hs : s ≠ 0) (hne : min (decompressedSize - st.decompOffset) 0x10000 ≠ s)
    (hread : fileBlock.Read ((packageOffset + st.compOffset) % W) s = .ok compressed) :
    (uncompress (min (decompressedSize - st.decompOffset) 0x10000) compressed = none →
      reconstruct uncompress fileBlock packageOffset decompressedSize (pre ++ s :: rest) =
        .error .uncompressError) ∧
    (∀ out, uncompress (min (decompressedSize - st.decompOffset) 0x10000) compressed = some out →
      ∃ buffer, store st.decompressed st.decompOffset out = .ok buffer ∧
        pageLoop uncompress fileBlock packageOffset decompressedSize
            (initialPageState decompressedSize) (pre ++ [s]) =
          .ok ⟨buffer, st.decompOffset + out.length, (st.compOffset + s) % W,
            st.uncompressCalls + 1⟩) := by
  obtain ⟨hlen, hd⟩ := pageLoop_invariant uncompress hu fileBlock packageOffset
    decompressedSize hn pre _ st (initialPageState_invariant decompressedSize).1
    (initialPageState_invariant decompressedSize).2 hpre
  have hexp := expected_size decompressedSize st.decompOffset hn hd
  constructor
  · intro hnone
    have hstep := pageStep_compressed_fail uncompress fileBlock packageOffset decompressedSize
      st s compressed hn hd hs hne hread hnone
    have hl : ¬ (pre ++ s :: rest).length = 0 := by
      rw [List.length_append, List.length_cons]; omega
    unfold reconstruct
    rw [if_neg hl, pageLoop_append, hpre]
    simp only [pageLoop, hstep]
  · intro out hsome
    have hol := hu _ _ _ hsome
    have hfits : st.decompOffset + out.length ≤ st.decompressed.length := by
      rw [hlen]; omega
    have hstore : store st.decompressed st.decompOffset out =
        .ok (st.decompressed.take st.decompOffset ++ out ++
          st.decompressed.drop (st.decompOffset + out.length)) := by
      unfold store
      rw [if_pos hfits]
    refine ⟨_, hstore, ?_⟩
    have hmod : (st.decompOffset + out.length) % W = st.decompOffset + out.length :=
      Nat.mod_eq_of_lt (by omega)
    rw [pageLoop_append, hpre]
    simp only [pageLoop]
    unfold pageStep
    simp only [hexp]
    rw [if_neg (by intro h; rcases h with h | h; exact hs h; exact hne h), hread]
    simp only
    rw [hsome]
    simp only
    rw [hstore]
    simp only [hmod]

/-- C8 (as amended) on a package of five bytes: the single page is compressed and
`uncompress` fails, so reconstruction throws "Uncompress error". -/
theorem reconstruct_compressed_page_witness :
    reconstruct (fun _ _ => none) (.disk [1, 2, 3, 4, 5]) 1 2 [1] = .error .uncompressError :=
  (reconstruct_compressed_page (fun _ _ => none) (by intro _ _ _ h; cases h)
    (.disk [1, 2, 3, 4, 5]) 1 2 (by decide) [] [] (initialPageState 2) 1 [2] rfl (by decide)
    (by decide) (by decide)).1 rfl

/-- C8 as stated fails on a chunk that the program can meet: the tree stream
`shortPageStream` makes `ParseNames` emit a record with `decompressedSize = 2` and
the single page size 9, and the package holds, at offset 0, the nine bytes of
the zlib stream of the one byte `'a'`.  The page is compressed (`s = 9`, neither
0 nor the expected size 2); `uncompress`, called with the capacity 2, returns
`Z_OK` with one byte, fewer than the expected two (within its contract: the
output fits the capacity); reconstruction does not throw but returns the buffer
`['a', 0]`. -/
theorem reconstruct_compressed_page_counterexample :
    (ParseNames 1 ⟨.memory shortPageStream, 0⟩ []).emitted =
        [⟨[], 1, 0, 2, [9], 0, false, false⟩] ∧
      reconstruct uncompressOfA (.disk zlibStreamOfA) 0 2 [9] = .ok (.memory [0x61, 0]) ∧
      (9 : Nat) ≠ 0 ∧ min (2 - 0) 0x10000 ≠ 9 ∧
      (Block.disk zlibStreamOfA).Read 0 9 = .ok zlibStreamOfA ∧
      uncompressOfA (min (2 - 0) 0x10000) zlibStreamOfA = some [0x61] ∧
      ([0x61] : List UInt8).length ≠ min (2 - 0) 0x10000 ∧
      (∀ destLen source out, uncompressOfA destLen source = some out →
        out.length ≤ destLen) := by
  refine ⟨by decide, by decide, by decide, by decide, by decide, by decide, by decide, ?_⟩
  intro destLen source out h
  unfold uncompressOfA at h
  split at h
  · rename_i hc
    cases h
    exact hc.2
  · cases h

/-! ### Chunks stored uncompressed -/

theorem Block.Read_part (file : Block) (offset_ size_ offset size : Nat) :
    (Block.part file offset_ size_).Read offset size =
      if (offset + size) % W > size_ then .error .partRead
      else file.Read ((offset + offset_) % W) size := rfl

/-- With an empty page list the result is the `BlockPart` of the constructor. -/
theorem reconstruct_nil (uncompress : Nat → List UInt8 → Option (List UInt8))
    (fileBlock : Block) (packageOffset decompressedSize : Nat)
    (hle : packageOffset + decompressedSize ≤ fileBlock.Size) :
    reconstruct uncompress fileBlock packageOffset decompressedSize [] =
      .ok (collapse fileBlock packageOffset decompressedSize) := by
  have hguard : ¬ (packageOffset + decompressedSize) % W > fileBlock.Size :=
    Nat.not_lt.mpr (le_trans (Nat.mod_le _ _) hle)
  have h0 : ([] : List Nat).length = 0 := rfl
  unfold reconstruct MakeBlockPart
  rw [if_pos h0, if_neg hguard]

theorem collapse_Size (file : Block) (offset size : Nat) :
    (collapse file offset size).Size = size := by
  cases file <;> rfl

/-- Reading the whole of the `BlockPart` built on `(offset, size)` is reading
`(offset, size)` from the block it was built on. -/
theorem collapse_Read (file : Block) (offset size : Nat) (hoff : offset < W)
    (hle : offset + size ≤ file.Size) :
    (collapse file offset size).Read 0 size = file.Read offset size := by
  have hguard : ¬ (offset + size) % W > file.Size :=
    Nat.not_lt.mpr (le_trans (Nat.mod_le _ _) hle)
  have hz : ¬ (0 + size) % W > size := by
    rw [Nat.zero_add]; exact Nat.not_lt.mpr (Nat.mod_le _ _)
  cases file with
  | disk content =>
    show (Block.part _ _ _).Read 0 size = _
    rw [Block.Read_part, if_neg hz, Nat.zero_add, Nat.mod_eq_of_lt hoff]
  | memory blockData =>
    show (Block.part _ _ _).Read 0 size = _
    rw [Block.Read_part, if_neg hz, Nat.zero_add, Nat.mod_eq_of_lt hoff]
  | part file_ sourceOffset size_ =>
    have hguard2 : ¬ (offset + size) % W > size_ := hguard
    show (Block.part _ _ _).Read 0 size = _
    rw [Block.Read_part, Block.Read_part, if_neg hz, if_neg hguard2, Nat.zero_add,
      Nat.mod_mod]

/-- C9: for `packageOffset + decompressedSize <= fileBlock.Size()`, reconstruction
with an empty `compSizeArray` returns a `BlockPart` view (no byte is copied: the
view refers to the package block itself, or to the backing block of the package
when that is a `BlockPart`), whose size is `decompressedSize` and whose bytes
`Read(0, decompressedSize)` are those of
`fileBlock.Read(packageOffset, decompressedSize)`. -/
theorem reconstruct_uncompressed (uncompress : Nat → List UInt8 → Option (List UInt8))
    (fileBlock : Block) (packageOffset decompressedSize : Nat) (hoff : packageOffset < W)
    (hle : packageOffset + decompressedSize ≤ fileBlock.Size) :
    ∃ view, reconstruct uncompress fileBlock packageOffset decompressedSize [] = .ok view ∧
      view = collapse fileBlock packageOffset decompressedSize ∧
      (∃ backing offset, view = .part backing offset decompressedSize) ∧
      ((∀ f o n, fileBlock ≠ .part f o n) →
        view = .part fileBlock packageOffset decompressedSize) ∧
      view.Size = decompressedSize ∧
      view.Read 0 decompressedSize = fileBlock.Read packageOffset decompressedSize ∧
      (fileBlock.WF → view.Read 0 decompressedSize =
        .ok (slice fileBlock.bytes packageOffset decompressedSize)) := by
  have hread := collapse_Read fileBlock packageOffset decompressedSize hoff hle
  refine ⟨_, reconstruct_nil uncompress fileBlock packageOffset decompressedSize hle, rfl,
    ?_, ?_, collapse_Size _ _ _, hread, ?_⟩
  · cases fileBlock with
    | disk content => exact ⟨_, _, rfl⟩
    | memory blockData => exact ⟨_, _, rfl⟩
    | part file_ sourceOffset size_ => exact ⟨_, _, rfl⟩
  · intro hnp
    cases fileBlock with
    | disk content => rfl
    | memory blockData => rfl
    | part file_ sourceOffset size_ => exact absurd rfl (hnp _ _ _)
  · intro hwf
    rw [hread]
    exact Block.Read_of_le fileBlock _ _ hwf hle

/-- C9 on a package of five bytes: the view of `[1, 3)`. -/
theorem reconstruct_uncompressed_witness :
    ∃ view, reconstruct (fun _ _ => none) (.disk [1, 2, 3, 4, 5]) 1 2 [] = .ok view ∧
      view = .part (.disk [1, 2, 3, 4, 5]) 1 2 ∧ view.Size = 2 ∧
      view.Read 0 2 = .ok [2, 3] :=
  (reconstruct_uncompressed (fun _ _ => none) (.disk [1, 2, 3, 4, 5]) 1 2 (by decide)
    (by decide)).imp fun _ h => ⟨h.1, h.2.1, h.2.2.2.2.1, h.2.2.2.2.2.2 (by decide)⟩

/-! ### The bounds guard of `Read` -/

/-- Without wrap-around of `offset + size`, every block class rejects a request
that ends beyond its size, by the exception of its guard. -/
theorem Block.Read_rejects_of_lt (b : Block) (offset size : Nat) (hW : offset + size < W)
    (h : b.Size < offset + size) :
    b.Read offset size = .error (match b with
      | .disk _ => .goingBeyondFile
      | .memory _ => .memoryIndexOutOfRange
      | .part _ _ _ => .partRead) := by
  have hmod : (offset + size) % W = offset + size := Nat.mod_eq_of_lt hW
  cases b with
  | disk content =>
    have h2 : offset + size > content.length := h
    simp only [Block.Read, hmod]
    rw [if_pos h2]
  | memory blockData =>
    have h2 : offset + size > blockData.length := h
    simp only [Block.Read, hmod]
    rw [if_pos h2]
  | part file offset_ size_ =>
    have h2 : offset + size > size_ := h
    simp only [Block.Read, hmod]
    rw [if_pos h2]

/-- C10 fails when `offset + size` wraps around: for `offset = 2^64 - 1` and
`size = 2` on blocks of size 3 (resp. a view of size 2), `offset + size` exceeds
the size as an integer, yet no guard rejects the request.  `BlockMemory::Read`
goes on to a `memcpy` outside its buffer; `BlockPart::Read` passes the request
on, and the view `[1, 3)` returns the bytes `[0, 2)` of its backing block;
`BlockDisk::Read` opens the file and reads, and throws only "File read error". -/
theorem read_guard_wraps :
    (2 ^ 64 - 1 + 2 > 3) ∧
    (Block.memory [1, 2, 3]).Read (2 ^ 64 - 1) 2 = .error .wild ∧
    (Block.part (.memory [1, 2, 3]) 1 2).Read (2 ^ 64 - 1) 2 = .ok [1, 2] ∧
    (Block.disk [1, 2, 3]).Read (2 ^ 64 - 1) 2 = .error .fileReadError := by
  decide

/-! ### A file-entry node whose bytes are all present -/

theorem slotRecords_length (name : List UInt8) (ddsType byteCount : Nat) :
    ∀ (slots : List SlotBytes) (chunkIndex : Nat),
      (slotRecords name ddsType byteCount chunkIndex slots).length = slots.length := by
  intro slots
  induction slots with
  | nil => intro _; rfl
  | cons b rest ih =>
    intro chunkIndex
    simp only [slotRecords, List.length_cons, ih]

/-- The chunk loop over well-formed slots emits their records and returns. -/
theorem chunkLoop_cursorAfter {s : List UInt8} (hW : s.length < W) (name : List UInt8)
    (ddsType byteCount : Nat) :
    ∀ (slots : List SlotBytes) (pre post : List UInt8) (chunkIndex : Nat),
      s = pre ++ (slotsBytes slots ++ post) → (∀ b ∈ slots, b.WellFormed) →
      chunkLoop name ddsType byteCount slots.length chunkIndex (cursorAfter s pre) =
        ⟨slotRecords name ddsType byteCount chunkIndex slots,
          .ok (cursorAfter s (pre ++ slotsBytes slots))⟩ := by
  intro slots
  induction slots with
  | nil =>
    intro pre post chunkIndex _ _
    simp [chunkLoop, slotRecords, slotsBytes]
  | cons b rest ih =>
    intro pre post chunkIndex hs hwf
    have hb := readChunk_cursorAfter s pre (slotsBytes rest ++ post) b
      (by simpa [slotsBytes] using hs) hW (hwf b (List.mem_cons_self _ _))
    have hrest := ih (pre ++ b.bytes) post (chunkIndex + 1)
      (by simpa [slotsBytes] using hs) (fun c hc => hwf c (List.mem_cons_of_mem _ hc))
    simp only [List.length_cons, chunkLoop, hb, hrest, slotRecords, slotsBytes,
      List.append_assoc]

/-- The trailer loop over `2 * n` bytes consumes them. -/
theorem skipTrailer_cursorAfter {s : List UInt8} (hW : s.length < W) :
    ∀ (n : Nat) (bytes pre post : List UInt8), bytes.length = 2 * n →
      s = pre ++ (bytes ++ post) →
      skipTrailer n (cursorAfter s pre) = .ok (cursorAfter s (pre ++ bytes)) := by
  intro n
  induction n with
  | zero =>
    intro bytes pre post hlen _
    have : bytes = [] := List.length_eq_zero.mp (by simpa using hlen)
    subst this
    simp [skipTrailer]
  | succ n ih =>
    intro bytes pre post hlen hs
    match bytes, hlen with
    | b0 :: b1 :: bytes, hlen =>
      have h0 := File.ReadU8_cursorAfter s pre (b1 :: (bytes ++ post)) b0 (by simpa using hs) hW
      have h1 := File.ReadU8_cursorAfter s (pre ++ [b0]) (bytes ++ post) b1
        (by simpa using hs) hW
      simp only [skipTrailer, h0, h1]
      rw [ih bytes (pre ++ [b0] ++ [b1]) post
        (by simp only [List.length_cons] at hlen; omega) (by simpa using hs)]
      simp

/-- The file-entry branch over a node whose bytes are all present emits one
record per slot and returns. -/
theorem fileEntry_node (s pre post : List UInt8) (e : NodeBytes) (name : List UInt8)
    (hs : s = pre ++ (e.bytes ++ post)) (hW : s.length < W) (hwf : e.WellFormed) :
    fileEntry (cursorAfter s (pre ++ [e.ctrl])) name e.ctrl.toNat =
      ⟨slotRecords name (leValue e.ddsType) (e.ch2.toNat &&& 3) 0 e.slots, .ok ()⟩ := by
  obtain ⟨_, hcount, hne, hid, htag, hslots, htr⟩ := hwf
  simp only [NodeBytes.bytes, List.cons_append, List.append_assoc] at hs
  have r1 := File.ReadU32_cursorAfter s (pre ++ [e.ctrl]) e.strangeId _
    (by simpa using hs) hW hid
  have r2 := File.ReadU8_cursorAfter s (pre ++ [e.ctrl] ++ e.strangeId) _
    e.ch2 (by simpa using hs) hW
  have r3 := readVariadicInteger_cursorAfter s
    (pre ++ [e.ctrl] ++ e.strangeId ++ [e.ch2]) e.ddsType _
    (by simpa using hs) hW
  have r4 := chunkLoop_cursorAfter hW name (leValue e.ddsType) (e.ch2.toNat &&& 3) e.slots
    (pre ++ [e.ctrl] ++ e.strangeId ++ [e.ch2] ++ e.ddsType) (e.trailer ++ post) 0
    (by simpa using hs) hslots
  rw [htag] at r3
  have hchunks : fileEntryChunks (cursorAfter s (pre ++ [e.ctrl])) name e.slots.length =
      ⟨slotRecords name (leValue e.ddsType) (e.ch2.toNat &&& 3) 0 e.slots,
        .ok (cursorAfter s (pre ++ [e.ctrl] ++ e.strangeId ++ [e.ch2] ++ e.ddsType ++
          slotsBytes e.slots))⟩ := by
    unfold fileEntryChunks
    rw [if_pos hne, r1]
    simp only
    rw [r2]
    simp only
    rw [r3]
    simp only
    rw [r4]
  unfold fileEntry
  simp only [hcount, hchunks]
  unfold trailerWellFormed at htr
  by_cases hf : ((e.ctrl.toNat - 65) >>> 3) &&& 1 = 0
  · rw [if_neg (by simpa using hf)]
  · rw [if_neg hf] at htr
    rw [if_pos hf]
    match htrail : e.trailer, htr with
    | n :: rest, hlen =>
      rw [htrail] at hs
      have t1 := File.ReadU8_cursorAfter s (pre ++ [e.ctrl] ++ e.strangeId ++ [e.ch2] ++
        e.ddsType ++ slotsBytes e.slots) (rest ++ post) n (by simpa using hs) hW
      have t2 := skipTrailer_cursorAfter hW n.toNat rest (pre ++ [e.ctrl] ++ e.strangeId ++
        [e.ch2] ++ e.ddsType ++ slotsBytes e.slots ++ [n]) post hlen (by simpa using hs)
      rw [t1]
      simp only
      rw [t2]

/-- C1: on a file-entry control byte `ch` in `'A'..'Z'` (read at `data`, leaving the
cursor `data1`), with `v = ch - 'A'`, `ParseNames` invokes the callback at most
`v & 7` times, and exactly `v & 7` times when it returns normally (so never when
`v & 7 = 0`); the invocations are in slot order, and the `i`-th one carries the
accumulated name unchanged, one common `ddsType` (headerTypeTag),
`append = (i != 0)` (isContinuation) and `useDDS = (extraByteCount != 0 && i == 0)`
(hasHeader), where `extraByteCount` is the low two bits of the byte `b` that
follows the 4-byte identifier.  And it does return normally, with exactly
`v & 7` invocations, on every node whose bytes are all present in a memory
stream. -/
theorem parseNames_fileEntry_records (fuel : Nat) (data data1 : File) (name : List UInt8)
    (ch : Nat) (hch : data.ReadU8 = .ok (ch, data1)) (hA : 65 ≤ ch ∧ ch ≤ 90) :
    (ParseNames (fuel + 1) data name).emitted.length ≤ (ch - 65) &&& 7 ∧
    ((ParseNames (fuel + 1) data name).result = .ok () →
      (ParseNames (fuel + 1) data name).emitted.length = (ch - 65) &&& 7) ∧
    (∃ ddsType : Nat, ∀ (i : Nat) (r : Record),
      (ParseNames (fuel + 1) data name).emitted[i]? = some r →
      r.name = name ∧ r.ddsType = ddsType ∧ r.append = (i != 0) ∧
      ∃ b : UInt8, data1.block.Read ((data1.position + 4) % W) 1 = .ok [b] ∧
        r.useDDS = ((b.toNat &&& 3) != 0 && i == 0)) ∧
    (∀ (s pre post : List UInt8) (e : NodeBytes), s = pre ++ (e.bytes ++ post) →
      s.length < W → e.WellFormed →
      (ParseNames (fuel + 1) (cursorAfter s pre) name).result = .ok () ∧
      (ParseNames (fuel + 1) (cursorAfter s pre) name).emitted =
        slotRecords name (leValue e.ddsType) (e.ch2.toNat &&& 3) 0 e.slots ∧
      (ParseNames (fuel + 1) (cursorAfter s pre) name).emitted.length =
        (e.ctrl.toNat - 65) &&& 7) := by
  refine ⟨?_, ?_, ?_, ?_⟩
  · rw [ParseNames_fileEntry fuel data data1 name ch hch hA, fileEntry_emitted]
    exact (fileEntryChunks_records data1 name ((ch - 65) &&& 7)).1
  · rw [ParseNames_fileEntry fuel data data1 name ch hch hA, fileEntry_emitted]
    exact fun hres =>
      (fileEntryChunks_records data1 name ((ch - 65) &&& 7)).2.1 (fileEntry_ok data1 name ch hres)
  · rw [ParseNames_fileEntry fuel data data1 name ch hch hA, fileEntry_emitted]
    exact (fileEntryChunks_records data1 name ((ch - 65) &&& 7)).2.2
  · intro s pre post e hs hW hwf
    have r0 := File.ReadU8_cursorAfter s pre
      (e.strangeId ++ (e.ch2 :: (e.ddsType ++ (slotsBytes e.slots ++ e.trailer))) ++ post)
      e.ctrl (by simp [hs, NodeBytes.bytes]) hW
    rw [ParseNames_fileEntry fuel _ _ name _ r0 hwf.1, fileEntry_node s pre post e name hs hW hwf]
    exact ⟨rfl, rfl, by rw [slotRecords_length, hwf.2.1]⟩

/-- C1 at a node with control byte `'C'` (`v & 7 = 2`) placed at position 3 of a
stream: two invocations. -/
theorem parseNames_fileEntry_records_witness :
    (ParseNames 1 ⟨.memory ([2, 104, 105] ++ demoNode.bytes), 3⟩ [104, 105]).emitted.length = 2 :=
  (parseNames_fileEntry_records 0 ⟨.memory ([2, 104, 105] ++ demoNode.bytes), 3⟩
    ⟨.memory ([2, 104, 105] ++ demoNode.bytes), 4⟩ [104, 105] 67
    (by decide) (by decide)).2.1 (by decide)

/-- C6: when every page of the page list is stored raw (its recorded size is 0 or
its expected size) and the pages cover `decompressedSize` (in particular a
single page with `compressedSize == decompressedSize <= 0x10000`),
reconstruction returns a block of `decompressedSize` bytes whose bytes are those
of `fileBlock.Read(packageOffset, decompressedSize)` (for a non-empty page list,
a memory block holding a copy of them), and `uncompress` is never called: the
call count of the page loop stays 0 and the result is the same for every
decompression primitive. -/
theorem reconstruct_allRaw (uncompress : Nat → List UInt8 → Option (List UInt8))
    (fileBlock : Block) (packageOffset decompressedSize : Nat) (pages : List Nat)
    (hwf : fileBlock.WF) (hle : packageOffset + decompressedSize ≤ fileBlock.Size)
    (hraw : allRaw decompressedSize 0 pages)
    (hcover : decompressedSize ≤ pages.length * 0x10000) :
    fileBlock.Read packageOffset decompressedSize =
      .ok (slice fileBlock.bytes packageOffset decompressedSize) ∧
    (∃ result, reconstruct uncompress fileBlock packageOffset decompressedSize pages =
        .ok result ∧ result.Size = decompressedSize ∧
      result.Read 0 decompressedSize =
        .ok (slice fileBlock.bytes packageOffset decompressedSize) ∧
      (pages ≠ [] →
        result = .memory (slice fileBlock.bytes packageOffset decompressedSize))) ∧
    (∃ st, pageLoop uncompress fileBlock packageOffset decompressedSize
        (initialPageState decompressedSize) pages = .ok st ∧ st.uncompressCalls = 0) ∧
    (∀ other : Nat → List UInt8 → Option (List UInt8),
      reconstruct other fileBlock packageOffset decompressedSize pages =
        reconstruct uncompress fileBlock packageOffset decompressedSize pages) := by
  have hW := Block.WF_size_lt fileBlock hwf
  have hbl := Block.bytes_length fileBlock hwf
  have hloop : ∀ u : Nat → List UInt8 → Option (List UInt8),
      pageLoop u fileBlock packageOffset decompressedSize
        (initialPageState decompressedSize) pages =
      .ok ⟨slice fileBlock.bytes packageOffset decompressedSize, decompressedSize,
        decompressedSize, 0⟩ := by
    intro u
    have h := pageLoop_allRaw u fileBlock packageOffset decompressedSize hwf hle pages 0 0
      (Nat.zero_le _) hraw
    have hmin : min decompressedSize (0 + pages.length * 0x10000) = decompressedSize := by
      omega
    have hinit : initialPageState decompressedSize =
        ⟨slice fileBlock.bytes packageOffset 0 ++ List.replicate (decompressedSize - 0) 0,
          0, 0, 0⟩ := by
      simp [initialPageState, slice]
    rw [hinit, h, hmin]
    simp
  refine ⟨Block.Read_of_le fileBlock _ _ hwf hle, ?_, ⟨_, hloop uncompress, rfl⟩, ?_⟩
  · by_cases hne : pages = []
    · subst hne
      refine ⟨_, reconstruct_nil uncompress fileBlock packageOffset decompressedSize hle,
        collapse_Size _ _ _, ?_, fun h => absurd rfl h⟩
      rw [collapse_Read fileBlock packageOffset decompressedSize (by omega) hle]
      exact Block.Read_of_le fileBlock _ _ hwf hle
    · have hl : ¬ pages.length = 0 := fun h => hne (List.length_eq_zero.mp h)
      have hsl : (slice fileBlock.bytes packageOffset decompressedSize).length =
          decompressedSize := slice_length _ _ _ (by omega)
      refine ⟨.memory (slice fileBlock.bytes packageOffset decompressedSize), ?_, hsl, ?_,
        fun _ => rfl⟩
      · unfold reconstruct
        rw [if_neg hl, hloop uncompress]
        rfl
      · have hmem : (Block.memory (slice fileBlock.bytes packageOffset decompressedSize)).WF := by
          show (slice fileBlock.bytes packageOffset decompressedSize).length < W
          omega
        have := Block.Read_of_le _ 0 decompressedSize hmem
          (by show 0 + decompressedSize ≤
                (slice fileBlock.bytes packageOffset decompressedSize).length
              omega)
        rw [this]
        show Except.ok (slice (slice fileBlock.bytes packageOffset decompressedSize) 0
          decompressedSize) = _
        rw [slice_slice _ _ _ _ _ (by omega)]
        rfl
  · intro other
    by_cases hne : pages = []
    · subst hne
      rfl
    · have hl : ¬ pages.length = 0 := fun h => hne (List.length_eq_zero.mp h)
      unfold reconstruct
      rw [if_neg hl, if_neg hl, hloop other, hloop uncompress]

/-- C6 on a single raw page: `compressedSize == decompressedSize == 2`. -/
theorem reconstruct_allRaw_witness :
    ∃ result, reconstruct (fun _ _ => none) (.disk [1, 2, 3, 4, 5]) 1 2 [2] = .ok result ∧
      result.Size = 2 ∧ result.Read 0 2 = .ok [2, 3] ∧
      (([2] : List Nat) ≠ [] → result = .memory [2, 3]) :=
  (reconstruct_allRaw (fun _ _ => none) (.disk [1, 2, 3, 4, 5]) 1 2 [2] (by decide) (by decide)
    (by decide) (by decide)).2.1

/-! ### Sub-range views -/

/-- Reading `(o, k)` inside the `BlockPart` built on `(offset, size)` is reading
`(offset + o, k)` from the block it was built on. -/
theorem collapse_Read_inside (file : Block) (offset size o k : Nat) (hW : file.Size < W)
    (hle : offset + size ≤ file.Size) (hok : o + k ≤ size) :
    (collapse file offset size).Read o k = file.Read (offset + o) k := by
  have hz : ¬ (o + k) % W > size := Nat.not_lt.mpr (le_trans (Nat.mod_le _ _) hok)
  cases file with
  | disk content =>
    show (Block.part _ _ _).Read o k = _
    rw [Block.Read_part, if_neg hz, Nat.mod_eq_of_lt (by omega), Nat.add_comm]
  | memory blockData =>
    show (Block.part _ _ _).Read o k = _
    rw [Block.Read_part, if_neg hz, Nat.mod_eq_of_lt (by omega), Nat.add_comm]
  | part file_ sourceOffset size_ =>
    have hle2 : offset + size ≤ size_ := hle
    have hg : ¬ (offset + o + k) % W > size_ :=
      Nat.not_lt.mpr (le_trans (Nat.mod_le _ _) (by omega))
    show (Block.part _ _ _).Read o k = _
    rw [Block.Read_part, Block.Read_part, if_neg hz, if_neg hg]
    congr 1
    simp only [W]
    omega

theorem MakeBlockPart_ok (base : Block) (offset size : Nat)
    (hle : offset + size ≤ base.Size) :
    MakeBlockPart base offset size = .ok (collapse base offset size) := by
  have hguard : ¬ (offset + size) % W > base.Size :=
    Nat.not_lt.mpr (le_trans (Nat.mod_le _ _) hle)
  unfold MakeBlockPart
  rw [if_neg hguard]

/-- C11: for `offset + length <= source.Size()`, `MakeBlockPart(source, offset,
length)` returns a view whose `Size()` is `length`, whose `Read(0, length)` is
`source.Read(offset, length)`, and more generally whose `Read(o, k)` for
`o + k <= length` is `source.Read(offset + o, k)`; for a well-formed source
these are the bytes `[offset + o, offset + o + k)` of the source. -/
theorem makeBlockPart_view (source : Block) (offset length : Nat) (hW : source.Size < W)
    (hle : offset + length ≤ source.Size) :
    ∃ view, MakeBlockPart source offset length = .ok view ∧
      view.Size = length ∧
      view.Read 0 length = source.Read offset length ∧
      (∀ o k, o + k ≤ length → view.Read o k = source.Read (offset + o) k) ∧
      (source.WF → ∀ o k, o + k ≤ length →
        view.Read o k = .ok (slice source.bytes (offset + o) k)) := by
  have hin := collapse_Read_inside source offset length
  refine ⟨_, MakeBlockPart_ok source offset length hle, collapse_Size _ _ _, ?_, ?_, ?_⟩
  · exact collapse_Read source offset length (by omega) hle
  · intro o k hok
    exact hin o k hW hle hok
  · intro hwf o k hok
    rw [hin o k hW hle hok]
    exact Block.Read_of_le source _ _ hwf (by omega)

/-- C11 on the view `[1, 4)` of a disk block of five bytes. -/
theorem makeBlockPart_view_witness :
    ∃ view, MakeBlockPart (.disk [1, 2, 3, 4, 5]) 1 3 = .ok view ∧ view.Size = 3 ∧
      view.Read 0 3 = .ok [2, 3, 4] ∧ view.Read 1 2 = .ok [3, 4] :=
  (makeBlockPart_view (.disk [1, 2, 3, 4, 5]) 1 3 (by decide) (by decide)).imp
    fun _ h => ⟨h.1, h.2.1, (h.2.2.2.2 (by decide) 0 3 (by decide)),
      (h.2.2.2.2 (by decide) 1 2 (by decide))⟩

/-- The view of a view is the view with the offsets added. -/
theorem collapse_collapse (source : Block) (a b c d : Nat) (hW : source.Size < W)
    (hab : a + b ≤ source.Size) (hcd : c + d ≤ b) :
    collapse (collapse source a b) c d = collapse source (a + c) d := by
  cases source with
  | disk content =>
    show Block.part _ ((c + a) % W) d = Block.part _ (a + c) d
    rw [Nat.mod_eq_of_lt (by omega), Nat.add_comm]
  | memory blockData =>
    show Block.part _ ((c + a) % W) d = Block.part _ (a + c) d
    rw [Nat.mod_eq_of_lt (by omega), Nat.add_comm]
  | part file_ sourceOffset size_ =>
    show Block.part _ ((c + (a + sourceOffset) % W) % W) d =
      Block.part _ ((a + c + sourceOffset) % W) d
    congr 1
    simp only [W]
    omega

theorem collapse_flat (source : Block) (offset size : Nat) (h : source.flat) :
    (collapse source offset size).flat := by
  match source, h with
  | .disk _, _ => exact True.intro
  | .memory _, _ => exact True.intro
  | .part (.disk _) _ _, _ => exact True.intro
  | .part (.memory _) _ _, _ => exact True.intro

/-- C12: for `a + b <= source.Size()` and `c + d <= b`, the view
`MakeBlockPart(MakeBlockPart(source, a, b), c, d)` is built and is the very view
`MakeBlockPart(source, a + c, d)`, so both read identically (`Read(o, k)` is
`source.Read(a + c + o, k)`); its backing block
is `source` itself when `source` is not a `BlockPart` (and the backing block of
`source` when it is one), and for every flat `source` (any block that the
constructors build from disk and memory blocks) the result is flat again: the
backing block of a `BlockPart` is never a `BlockPart`. -/
theorem makeBlockPart_nested (source : Block) (a b c d : Nat) (hW : source.Size < W)
    (hab : a + b ≤ source.Size) (hcd : c + d ≤ b) :
    ∃ inner view, MakeBlockPart source a b = .ok inner ∧
      MakeBlockPart inner c d = .ok view ∧
      MakeBlockPart source (a + c) d = .ok view ∧
      (∀ o k, o + k ≤ d → view.Read o k = source.Read (a + c + o) k) ∧
      ((∀ f o n, source ≠ .part f o n) → view = .part source (a + c) d) ∧
      (∀ f o n, source = .part f o n → ∃ o2, view = .part f o2 d) ∧
      (source.flat → view.flat ∧ ∀ f o n, view = .part f o n → ∀ g p m, f ≠ .part g p m) := by
  have h1 := MakeBlockPart_ok source a b hab
  have h2 := MakeBlockPart_ok (collapse source a b) c d
    (by rw [collapse_Size]; exact hcd)
  have h3 := MakeBlockPart_ok source (a + c) d (by omega)
  have hcc := collapse_collapse source a b c d hW hab hcd
  rw [hcc] at h2
  refine ⟨_, _, h1, h2, h3,
    fun o k hok => collapse_Read_inside source (a + c) d o k hW (by omega) hok, ?_, ?_, ?_⟩
  · intro hnp
    cases source with
    | disk content => rfl
    | memory blockData => rfl
    | part file_ sourceOffset size_ => exact absurd rfl (hnp _ _ _)
  · intro f o n hs
    subst hs
    exact ⟨_, rfl⟩
  · intro hflat
    have hf := collapse_flat source (a + c) d hflat
    refine ⟨hf, ?_⟩
    intro f o n hv g p m hfg
    rw [hv, hfg] at hf
    exact hf

/-- C12 on a disk block of five bytes: the view `[1, 3)` of the view `[1, 5)` is
the view `[2, 4)` of the disk block. -/
theorem makeBlockPart_nested_witness :
    ∃ inner view, MakeBlockPart (.disk [1, 2, 3, 4, 5]) 1 4 = .ok inner ∧
      MakeBlockPart inner 1 2 = .ok view ∧
      view = .part (.disk [1, 2, 3, 4, 5]) 2 2 :=
  (makeBlockPart_nested (.disk [1, 2, 3, 4, 5]) 1 4 1 2 (by decide) (by decide)
    (by decide)).imp fun _ h => h.imp fun _ h2 =>
      ⟨h2.1, h2.2.1, h2.2.2.2.2.1 (fun _ _ _ hh => by cases hh)⟩

/-! ### Concatenation -/

theorem slice_full (buffer : List UInt8) : slice buffer 0 buffer.length = buffer := by
  simp [slice]

/-- Reading the whole of a well-formed block returns its bytes. -/
theorem Block.Read_all (b : Block) (h : b.WF) : b.Read 0 b.Size = .ok b.bytes := by
  have := Block.Read_of_le b 0 b.Size h (by omega)
  rw [this, ← Block.bytes_length b h, slice_full]

/-- C13: for blocks `a` and `b` (well-formed, their sizes adding up to a `size_t`
value), `MakeBlockPair(a, b)` returns a memory block whose `Size()` is
`a.Size() + b.Size()` and whose `Read(0, a.Size() + b.Size())` yields all bytes
of `a` followed by all bytes of `b`. -/
theorem makeBlockPair_bytes (a b : Block) (ha : a.WF) (hb : b.WF)
    (hsum : a.Size + b.Size < W) :
    ∃ pair, MakeBlockPair a b = .ok pair ∧
      pair.Size = a.Size + b.Size ∧
      pair.Read 0 (a.Size + b.Size) = .ok (a.bytes ++ b.bytes) ∧
      a.Read 0 a.Size = .ok a.bytes ∧ b.Read 0 b.Size = .ok b.bytes ∧
      pair = .memory (a.bytes ++ b.bytes) := by
  have hla := Block.bytes_length a ha
  have hlb := Block.bytes_length b hb
  have hra := Block.Read_all a ha
  have hrb := Block.Read_all b hb
  have hmod : (a.Size + b.Size) % W = a.Size + b.Size := Nat.mod_eq_of_lt hsum
  have s1 := store_window [] a.bytes (a.Size + b.Size) a.Size hla (by omega)
  have s2 := store_window a.bytes b.bytes (a.Size + b.Size - a.Size) b.Size hlb (by omega)
  have hz : a.Size + b.Size - a.Size - b.Size = 0 := by omega
  rw [hz, List.replicate_zero, List.append_nil, hla] at s2
  simp only [List.nil_append, List.length_nil] at s1
  have hpair : MakeBlockPair a b = .ok (.memory (a.bytes ++ b.bytes)) := by
    unfold MakeBlockPair
    simp only [hmod, hra, s1, hrb, s2]
  have hlen : (a.bytes ++ b.bytes).length = a.Size + b.Size := by
    rw [List.length_append, hla, hlb]
  refine ⟨_, hpair, hlen, ?_, hra, hrb, rfl⟩
  have hwf : (Block.memory (a.bytes ++ b.bytes)).WF := by
    show (a.bytes ++ b.bytes).length < W
    omega
  have := Block.Read_all _ hwf
  rw [show (Block.memory (a.bytes ++ b.bytes)).Size = a.Size + b.Size from hlen] at this
  exact this

/-- C13 on a memory block and a view of a disk block. -/
theorem makeBlockPair_bytes_witness :
    ∃ pair, MakeBlockPair (.memory [1, 2]) (.part (.disk [5, 6, 7, 8]) 1 2) = .ok pair ∧
      pair.Size = 4 ∧ pair.Read 0 4 = .ok [1, 2, 6, 7] :=
  (makeBlockPair_bytes (.memory [1, 2]) (.part (.disk [5, 6, 7, 8]) 1 2) (by decide) (by decide)
    (by decide)).imp fun _ h => ⟨h.1, h.2.1, h.2.2.1⟩

/-! ### Scalar reads of the cursor -/

/-- A scalar read inside a well-formed block returns the bytes at the position
and advances the position by the size of the type. -/
theorem File.Read_within (f : File) (sizeofT : Nat) (hwf : f.block.WF)
    (hle : f.position + sizeofT ≤ f.Size) :
    f.Read sizeofT =
      (⟨f.block, f.position + sizeofT⟩, .ok (slice f.block.bytes f.position sizeofT)) := by
  have hW := Block.WF_size_lt f.block hwf
  have hle2 : f.position + sizeofT ≤ f.block.Size := hle
  unfold File.Read
  simp only
  rw [Nat.mod_eq_of_lt (by omega), Block.Read_of_le f.block _ _ hwf hle]

/-- The cursor after `k` consecutive scalar reads that stay inside the block. -/
theorem File.Read_iterate (sizeofT : Nat) : ∀ (k : Nat) (f : File), f.block.WF →
    f.position + k * sizeofT ≤ f.Size →
    (fun g : File => (g.Read sizeofT).1)^[k] f = ⟨f.block, f.position + k * sizeofT⟩ := by
  intro k
  induction k with
  | zero =>
    intro f _ _
    simp
  | succ k ih =>
    intro f hwf hle
    have hstep : f.position + sizeofT ≤ f.Size := by
      have : (k + 1) * sizeofT = k * sizeofT + sizeofT := Nat.succ_mul k sizeofT
      omega
    rw [Function.iterate_succ_apply, File.Read_within f sizeofT hwf hstep]
    have hle2 : f.position + sizeofT + k * sizeofT ≤ f.block.Size := by
      have : (k + 1) * sizeofT = k * sizeofT + sizeofT := Nat.succ_mul k sizeofT
      have h2 : f.position + (k + 1) * sizeofT ≤ f.block.Size := hle
      omega
    rw [ih ⟨f.block, f.position + sizeofT⟩ hwf hle2]
    have : (k + 1) * sizeofT = k * sizeofT + sizeofT := Nat.succ_mul k sizeofT
    simp only [File.mk.injEq, true_and]
    omega

/-- C16: for a cursor at position `p` over a (well-formed) block of size `n` and a
scalar type of `sizeofT` bytes with `p + sizeofT <= n`, `Read<T>()` returns the
`sizeofT` bytes of the block at offsets `p .. p + sizeofT - 1` (for an unsigned
integer type, their little-endian value) and leaves `position = p + sizeofT`;
bytes placed at a known position of a memory block are read back unchanged; and
`k` consecutive scalar reads inside the block advance the position by exactly
`k * sizeofT`, each returning the bytes at its own position. -/
theorem read_scalar (f : File) (sizeofT : Nat) (hwf : f.block.WF)
    (hle : f.position + sizeofT ≤ f.Size) :
    f.Read sizeofT =
      (⟨f.block, f.position + sizeofT⟩, .ok (slice f.block.bytes f.position sizeofT)) ∧
    (slice f.block.bytes f.position sizeofT).length = sizeofT ∧
    f.ReadUInt sizeofT =
      .ok (leValue (slice f.block.bytes f.position sizeofT), ⟨f.block, f.position + sizeofT⟩) ∧
    (∀ pre bs post : List UInt8, (pre ++ (bs ++ post)).length < W →
      (cursorAfter (pre ++ (bs ++ post)) pre).Read bs.length =
        (cursorAfter (pre ++ (bs ++ post)) (pre ++ bs), .ok bs)) ∧
    (∀ k, f.position + k * sizeofT ≤ f.Size →
      (fun g : File => (g.Read sizeofT).1)^[k] f = ⟨f.block, f.position + k * sizeofT⟩ ∧
      ∀ i, i < k →
        (((fun g : File => (g.Read sizeofT).1)^[i] f).Read sizeofT).2 =
          .ok (slice f.block.bytes (f.position + i * sizeofT) sizeofT)) := by
  have hread := File.Read_within f sizeofT hwf hle
  have hbl := Block.bytes_length f.block hwf
  have hle2 : f.position + sizeofT ≤ f.block.Size := hle
  refine ⟨hread, slice_length _ _ _ (by omega), ?_, ?_, ?_⟩
  · simp only [File.ReadUInt, hread]
  · intro pre bs post hW
    exact File.Read_cursorAfter _ pre bs post rfl hW
  · intro k hk
    refine ⟨File.Read_iterate sizeofT k f hwf hk, ?_⟩
    intro i hi
    have hk2 : f.position + k * sizeofT ≤ f.block.Size := hk
    have hmul : (i + 1) * sizeofT ≤ k * sizeofT := Nat.mul_le_mul_right _ hi
    have hsucc : (i + 1) * sizeofT = i * sizeofT + sizeofT := Nat.succ_mul i sizeofT
    have hi2 : f.position + i * sizeofT ≤ f.Size := by
      show f.position + i * sizeofT ≤ f.block.Size
      omega
    rw [File.Read_iterate sizeofT i f hwf hi2]
    rw [File.Read_within ⟨f.block, f.position + i * sizeofT⟩ sizeofT hwf
      (by show f.position + i * sizeofT + sizeofT ≤ f.block.Size; omega)]

/-- C16 on a memory block of five bytes: a 2-byte scalar read at position 1. -/
theorem read_scalar_witness :
    File.Read ⟨.memory [1, 2, 3, 4, 5], 1⟩ 2 = (⟨.memory [1, 2, 3, 4, 5], 3⟩, .ok [2, 3]) :=
  (read_scalar ⟨.memory [1, 2, 3, 4, 5], 1⟩ 2 (by decide) (by decide)).1

/-! ### `Align` -/

theorem DataArray.get_of_lt {α : Type} (data : List α) (index : Nat) (x : α)
    (h : data[index]? = some x) : DataArray.get data index = .ok x := by
  simp only [DataArray.get, h]

theorem DataArray.get_of_ge {α : Type} (data : List α) (index : Nat) (h : data.length ≤ index) :
    DataArray.get data index = .error .arrayIndexOutOfRange := by
  simp only [DataArray.get, List.getElem?_eq_none h]

/-- C19: for a chunk record with `useDDS` (hasHeader) true: when `ddsType` is
less than the number of header records, the record `ddsHeaderBlock[ddsType]`
has `usedBytes = u <= 0x94`, and the reconstructed block is well-formed with
`u + Size()` a `size_t` value, the block written holds the first `u` bytes of
the record followed by all bytes of the reconstructed block, `u + Size()` bytes
in all; when `ddsType` is not less than the number of header records the
lookup throws "Array index out of range". -/
theorem blockToWrite_header (ddsHeaderBlock : List SdfDdsHeader) (ddsType : Nat)
    (resultBlock : Block) :
    (∀ ddsHeader, ddsHeaderBlock[ddsType]? = some ddsHeader → ddsHeader.usedBytes ≤ 0x94 →
      ddsHeader.bytes.length = 0x94 → resultBlock.WF →
      ddsHeader.usedBytes + resultBlock.Size < W →
      ddsType < ddsHeaderBlock.length ∧
      blockToWrite ddsHeaderBlock ddsType true resultBlock =
        .ok (.memory (ddsHeader.bytes.take ddsHeader.usedBytes ++ resultBlock.bytes)) ∧
      (ddsHeader.bytes.take ddsHeader.usedBytes).length = ddsHeader.usedBytes ∧
      (Block.memory (ddsHeader.bytes.take ddsHeader.usedBytes ++ resultBlock.bytes)).Size =
        ddsHeader.usedBytes + resultBlock.Size) ∧
    (ddsHeaderBlock.length ≤ ddsType →
      blockToWrite ddsHeaderBlock ddsType true resultBlock = .error .arrayIndexOutOfRange) := by
  constructor
  · intro ddsHeader hget hu hlen hwf hsum
    have hlt : ddsType < ddsHeaderBlock.length := by
      by_contra hcon
      rw [List.getElem?_eq_none (Nat.le_of_not_lt hcon)] at hget
      cases hget
    have htake : (ddsHeader.bytes.take ddsHeader.usedBytes).length = ddsHeader.usedBytes := by
      rw [List.length_take, hlen]
      omega
    have hbl := Block.bytes_length resultBlock hwf
    have hmod : (ddsHeader.usedBytes + resultBlock.Size) % W =
        ddsHeader.usedBytes + resultBlock.Size := Nat.mod_eq_of_lt hsum
    have s1 := store_window [] (ddsHeader.bytes.take ddsHeader.usedBytes)
      (ddsHeader.usedBytes + resultBlock.Size) ddsHeader.usedBytes htake (by omega)
    have s2 := store_window (ddsHeader.bytes.take ddsHeader.usedBytes) resultBlock.bytes
      (ddsHeader.usedBytes + resultBlock.Size - ddsHeader.usedBytes) resultBlock.Size hbl
      (by omega)
    have hz : ddsHeader.usedBytes + resultBlock.Size - ddsHeader.usedBytes - resultBlock.Size
        = 0 := by omega
    rw [hz, List.replicate_zero, List.append_nil, htake] at s2
    simp only [List.nil_append, List.length_nil] at s1
    refine ⟨hlt, ?_, htake, ?_⟩
    · unfold blockToWrite prependHeader
      rw [if_pos rfl, DataArray.get_of_lt _ _ _ hget]
      simp only [hmod]
      rw [if_pos hu, s1]
      simp only
      rw [Block.Read_all resultBlock hwf]
      simp only
      rw [s2]
      rfl
    · show (ddsHeader.bytes.take ddsHeader.usedBytes ++ resultBlock.bytes).length = _
      rw [List.length_append, htake, hbl]
  · intro hge
    unfold blockToWrite prependHeader
    rw [if_pos rfl, DataArray.get_of_ge _ _ hge]

/-- C19 on a table of one header record with two used bytes. -/
theorem blockToWrite_header_witness :
    blockToWrite [⟨2, List.replicate 0x94 9⟩] 0 true (.memory [1, 2, 3]) =
      .ok (.memory ((List.replicate 0x94 9).take 2 ++ [1, 2, 3])) :=
  ((blockToWrite_header [⟨2, List.replicate 0x94 9⟩] 0 (.memory [1, 2, 3])).1
    ⟨2, List.replicate 0x94 9⟩ rfl (by decide) (List.length_replicate _ _) (by decide)
    (by decide)).2.1

/-! ### The position of the cursor and the size of its block -/

/-- `Seek`, `Part(size)` and `Array` test their guard before they move the
cursor: a cursor within its block stays within it, whether they return or
throw. -/
theorem File.after_guarded_le (f : File) (hle : f.position ≤ f.Size) :
    (∀ v origin, (f.after (.seek v origin)).position ≤ f.Size) ∧
    (∀ size, (f.after (.part size)).position ≤ f.Size) ∧
    (∀ sizeofT elementCount, (f.after (.array sizeofT elementCount)).position ≤ f.Size) := by
  refine ⟨?_, ?_, ?_⟩
  · intro v origin
    cases origin with
    | FileOriginBegin =>
      simp only [File.after, File.Seek]
      split <;> rename_i h
      · split at h
        · cases h
        · cases h; rename_i hg; exact Nat.le_of_not_lt hg
      · exact hle
    | FileOriginCurrent =>
      simp only [File.after, File.Seek]
      split <;> rename_i h
      · split at h
        · cases h
        · cases h; rename_i hg
          show (f.position + v) % W ≤ f.Size
          rw [Nat.add_comm]
          exact Nat.le_of_not_lt hg
      · exact hle
    | FileOriginEnd =>
      simp only [File.after, File.Seek]
      split <;> rename_i h
      · split at h
        · cases h
        · cases h
          exact Nat.sub_le _ _
      · exact hle
  · intro size
    simp only [File.after, File.Part]
    split
    · exact hle
    · rename_i hg
      show (f.position + size) % W ≤ f.Size
      rw [Nat.add_comm]
      exact Nat.le_of_not_lt hg
  · intro sizeofT elementCount
    simp only [File.after, File.Array]
    split
    · exact hle
    · rename_i hg
      show (f.position + (sizeofT * elementCount) % W) % W ≤ f.Size
      rw [Nat.add_comm]
      exact Nat.le_of_not_lt hg

/-- C14 fails on a cursor over a memory block of three bytes.  `Read<uint32_t>()`
at position 0 moves the position to 4 and then throws "Memory file index out of
range": the position exceeds `Size() = 3`.  So does the array read of four
bytes.  `Align(8)` at position 1 moves the position to 8 without any test. -/
theorem position_exceeds_size :
    (File.mk0 (.memory [1, 2, 3])).Size = 3 ∧
    ((File.mk0 (.memory [1, 2, 3])).Read 4).2 = .error .memoryIndexOutOfRange ∧
    ((File.mk0 (.memory [1, 2, 3])).afterAll [.read 4]).position = 4 ∧
    ((File.mk0 (.memory [1, 2, 3])).ReadArray 1 4).2 = .error .memoryIndexOutOfRange ∧
    ((File.mk0 (.memory [1, 2, 3])).afterAll [.readArray 1 4]).position = 4 ∧
    ((File.mk0 (.memory [1, 2, 3])).afterAll
      [.seek 1 .FileOriginBegin, .align 8]).position = 8 := by
  decide

/-- C15 fails for `FileOriginCurrent` when `position + value` overflows: on a
cursor at position 1 over three bytes, `Seek(2^64 - 1, FileOriginCurrent)` has
the target `2^64`, beyond the size, yet the guard computes `0` and `Seek`
returns with the position set to 0. -/
theorem seek_current_wraps :
    (1 + (2 ^ 64 - 1) > 3) ∧
    File.Seek ⟨.memory [1, 2, 3], 1⟩ (2 ^ 64 - 1) .FileOriginCurrent =
      .ok ⟨.memory [1, 2, 3], 0⟩ := by
  decide

/-- Apart from that overflow `Seek` does what C15 says: the target is `value`,
`position + value` or `size - value`; within `[0, size]` it becomes the
position, otherwise `Seek` throws and the cursor is left as it was. -/
theorem File.Seek_without_overflow (f : File) (v : Nat) :
    (f.Seek v .FileOriginBegin =
      if v ≤ f.Size then .ok ⟨f.block, v⟩ else .error .seekError) ∧
    (f.position + v < W → f.Seek v .FileOriginCurrent =
      if f.position + v ≤ f.Size then .ok ⟨f.block, f.position + v⟩ else .error .seekError) ∧
    (f.Seek v .FileOriginEnd =
      if v ≤ f.Size then .ok ⟨f.block, f.Size - v⟩ else .error .seekError) := by
  refine ⟨?_, ?_, ?_⟩
  · simp only [File.Seek]
    by_cases h : v ≤ f.Size
    · rw [if_neg (by omega), if_pos h]
    · rw [if_pos (by omega), if_neg h]
  · intro hW
    simp only [File.Seek]
    rw [Nat.add_comm v, Nat.mod_eq_of_lt hW]
    by_cases h : f.position + v ≤ f.Size
    · rw [if_neg (by omega), if_pos h]
    · rw [if_pos (by omega), if_neg h]
  · simp only [File.Seek]
    by_cases h : v ≤ f.Size
    · rw [if_neg (by omega), if_pos h]
    · rw [if_pos (by omega), if_neg h]

/-- C17 fails: on a cursor at position 1 over three bytes, `Read<uint32_t>()`
throws because only two bytes remain, and leaves the position at 5, not 1; the
array read of four 1-byte elements does the same. -/
theorem read_failure_moves_position :
    ((File.Read ⟨.memory [1, 2, 3], 1⟩ 4).2 = .error .memoryIndexOutOfRange ∧
      (File.Read ⟨.memory [1, 2, 3], 1⟩ 4).1.position = 5) ∧
    ((File.ReadArray ⟨.memory [1, 2, 3], 1⟩ 1 4).2 = .error .memoryIndexOutOfRange ∧
      (File.ReadArray ⟨.memory [1, 2, 3], 1⟩ 1 4).1.position = 5) := by
  decide

/-! ### Termination of the walk -/

/-- A block read never ends with the fault of the recursion budget. -/
theorem Block.Read_ne_fuel (b : Block) : ∀ (offset size : Nat),
    b.Read offset size ≠ .error .fuel := by
  induction b with
  | disk content =>
    intro offset size h
    simp only [Block.Read] at h
    split at h
    · cases h
    · split at h <;> cases h
  | memory blockData =>
    intro offset size h
    simp only [Block.Read] at h
    split at h
    · cases h
    · split at h <;> cases h
  | part file offset_ size_ ih =>
    intro offset size h
    simp only [Block.Read] at h
    split at h
    · cases h
    · exact ih _ _ h

theorem File.ReadUInt_ne_fuel (f : File) (k : Nat) : f.ReadUInt k ≠ .error .fuel := by
  intro h
  unfold File.ReadUInt File.Read at h
  simp only at h
  split at h
  · cases h
  · rename_i e he
    cases h
    exact Block.Read_ne_fuel _ _ _ he

theorem readVariadicIntegerFrom_ne_fuel : ∀ (remaining : Nat) (data : File) (result i : Nat),
    readVariadicIntegerFrom remaining data result i ≠ .error .fuel := by
  intro remaining
  induction remaining with
  | zero =>
    intro data result i h
    simp only [readVariadicIntegerFrom] at h
    cases h
  | succ n ih =>
    intro data result i h
    simp only [readVariadicIntegerFrom] at h
    cases h1 : data.ReadU8 with
    | error e =>
      rw [h1] at h
      cases h
      exact File.ReadUInt_ne_fuel _ _ h1
    | ok p1 =>
      rw [h1] at h
      exact ih _ _ _ h

theorem readVariadicInteger_ne_fuel (data : File) (count : Nat) :
    readVariadicInteger data count ≠ .error .fuel :=
  readVariadicIntegerFrom_ne_fuel count data 0 0

theorem readPages_ne_fuel : ∀ (remaining : Nat) (data : File) (acc : List Nat),
    readPages remaining data acc ≠ .error .fuel := by
  intro remaining
  induction remaining with
  | zero =>
    intro data acc h
    simp only [readPages] at h
    cases h
  | succ n ih =>
    intro data acc h
    simp only [readPages] at h
    cases h1 : readVariadicInteger data 2 with
    | error e =>
      rw [h1] at h
      cases h
      exact readVariadicInteger_ne_fuel _ _ h1
    | ok p1 =>
      rw [h1] at h
      exact ih _ _ h

theorem readChunk_ne_fuel (data : File) : readChunk data ≠ .error .fuel := by
  intro h
  unfold readChunk at h
  cases h0 : data.ReadU8 with
  | error e => rw [h0] at h; cases h; exact File.ReadUInt_ne_fuel _ _ h0
  | ok p0 =>
  obtain ⟨ch3, d0⟩ := p0
  simp only [h0] at h
  cases h1 : readVariadicInteger d0 ((ch3 &&& 3) + 1) with
  | error e => rw [h1] at h; cases h; exact readVariadicInteger_ne_fuel _ _ h1
  | ok p1 =>
  obtain ⟨ds, d1⟩ := p1
  simp only [h1] at h
  cases h2 : (if (ch3 >>> 5) &&& 1 ≠ 0 then readVariadicInteger d1 ((ch3 &&& 3) + 1)
      else .ok (0, d1)) with
  | error e =>
    rw [h2] at h; cases h
    split at h2
    · exact readVariadicInteger_ne_fuel _ _ h2
    · cases h2
  | ok p2 =>
  obtain ⟨cs, d2⟩ := p2
  simp only [h2] at h
  cases h3 : (if (ch3 >>> 2) &&& 7 ≠ 0 then readVariadicInteger d2 ((ch3 >>> 2) &&& 7)
      else .ok (0, d2)) with
  | error e =>
    rw [h3] at h; cases h
    split at h3
    · exact readVariadicInteger_ne_fuel _ _ h3
    · cases h3
  | ok p3 =>
  obtain ⟨po, d3⟩ := p3
  simp only [h3] at h
  cases h4 : readVariadicInteger d3 2 with
  | error e => rw [h4] at h; cases h; exact readVariadicInteger_ne_fuel _ _ h4
  | ok p4 =>
  obtain ⟨pid, d4⟩ := p4
  simp only [h4] at h
  cases h5 : (if (ch3 >>> 5) &&& 1 ≠ 0 then
      (let pageCount := ((ds + 0xffff) % W) >>> 16
       if pageCount > 1 then readPages pageCount d4 [] else .ok ([], d4))
      else .ok ([], d4)) with
  | error e =>
    rw [h5] at h; cases h
    split at h5
    · simp only at h5
      split at h5
      · exact readPages_ne_fuel _ _ _ h5
      · cases h5
    · cases h5
  | ok p5 =>
  obtain ⟨arr, d5⟩ := p5
  simp only [h5] at h
  cases h6 : readVariadicInteger d5 4 with
  | error e => rw [h6] at h; cases h; exact readVariadicInteger_ne_fuel _ _ h6
  | ok p6 =>
  rw [h6] at h
  cases h

theorem chunkLoop_ne_fuel (name : List UInt8) (ddsType byteCount : Nat) :
    ∀ (remaining chunkIndex : Nat) (data : File),
      (chunkLoop name ddsType byteCount remaining chunkIndex data).result ≠ .error .fuel := by
  intro remaining
  induction remaining with
  | zero =>
    intro chunkIndex data h
    simp only [chunkLoop] at h
    cases h
  | succ n ih =>
    intro chunkIndex data h
    cases hrc : readChunk data with
    | error e =>
      simp only [chunkLoop, hrc] at h
      cases h
      exact readChunk_ne_fuel _ hrc
    | ok p =>
      simp only [chunkLoop, hrc] at h
      exact ih _ _ h

theorem skipTrailer_ne_fuel : ∀ (n : Nat) (data : File), skipTrailer n data ≠ .error .fuel := by
  intro n
  induction n with
  | zero =>
    intro data h
    simp only [skipTrailer] at h
    cases h
  | succ n ih =>
    intro data h
    simp only [skipTrailer] at h
    cases h1 : data.ReadU8 with
    | error e => rw [h1] at h; cases h; exact File.ReadUInt_ne_fuel _ _ h1
    | ok p1 =>
      rw [h1] at h
      simp only at h
      cases h2 : p1.2.ReadU8 with
      | error e => rw [h2] at h; cases h; exact File.ReadUInt_ne_fuel _ _ h2
      | ok p2 =>
        rw [h2] at h
        exact ih _ h

theorem fileEntryChunks_ne_fuel (data : File) (name : List UInt8) (count1 : Nat) :
    (fileEntryChunks data name count1).result ≠ .error .fuel := by
  intro h
  unfold fileEntryChunks at h
  split at h
  · cases h1 : data.ReadU32 with
    | error e => rw [h1] at h; cases h; exact File.ReadUInt_ne_fuel _ _ h1
    | ok p1 =>
      rw [h1] at h
      simp only at h
      cases h2 : p1.2.ReadU8 with
      | error e => rw [h2] at h; cases h; exact File.ReadUInt_ne_fuel _ _ h2
      | ok p2 =>
        rw [h2] at h
        simp only at h
        cases h3 : readVariadicInteger p2.2 (p2.1 &&& 3) with
        | error e => rw [h3] at h; cases h; exact readVariadicInteger_ne_fuel _ _ h3
        | ok p3 =>
          rw [h3] at h
          exact chunkLoop_ne_fuel _ _ _ _ _ _ h
  · cases h

theorem fileEntry_ne_fuel (data : File) (name : List UInt8) (ch : Nat) :
    (fileEntry data name ch).result ≠ .error .fuel := by
  intro h
  unfold fileEntry at h
  simp only at h
  cases hc : (fileEntryChunks data name ((ch - 65) &&& 7)).result with
  | error e =>
    rw [hc] at h
    cases h
    exact fileEntryChunks_ne_fuel _ _ _ hc
  | ok d =>
    rw [hc] at h
    simp only at h
    split at h
    · cases h1 : d.ReadU8 with
      | error e => rw [h1] at h; cases h; exact File.ReadUInt_ne_fuel _ _ h1
      | ok p1 =>
        rw [h1] at h
        simp only at h
        cases h2 : skipTrailer p1.1 p1.2 with
        | error e => rw [h2] at h; cases h; exact skipTrailer_ne_fuel _ _ h2
        | ok d2 => rw [h2] at h; cases h
    · cases h

theorem readName_ne_fuel : ∀ (n : Nat) (data : File) (name : List UInt8),
    readName n data name ≠ .error .fuel := by
  intro n
  induction n with
  | zero =>
    intro data name h
    simp only [readName] at h
    cases h
  | succ n ih =>
    intro data name h
    simp only [readName] at h
    cases h1 : (data.Read 1).2 with
    | error e =>
      rw [h1] at h
      cases h
      exact Block.Read_ne_fuel _ _ _ h1
    | ok bytes =>
      rw [h1] at h
      exact ih _ _ h

/-- A read of a memory block that returns lies within the block. -/
theorem Block.memory_Read_ok {s bytes : List UInt8} {offset size : Nat}
    (h : (Block.memory s).Read offset size = .ok bytes) : offset + size ≤ s.length := by
  simp only [Block.Read] at h
  split at h
  · cases h
  · split at h
    · assumption
    · cases h

/-- A scalar read over a memory block that returns has advanced the position by
the size of the type, within the block. -/
theorem File.ReadUInt_memory {s : List UInt8} {p k v : Nat} {f1 : File} (hW : s.length < W)
    (h : File.ReadUInt ⟨.memory s, p⟩ k = .ok (v, f1)) :
    p + k ≤ s.length ∧ f1 = ⟨.memory s, p + k⟩ := by
  obtain ⟨bytes, hb, _, _, hf⟩ := File.ReadUInt_ok h
  have hle : p + k ≤ s.length := Block.memory_Read_ok hb
  refine ⟨hle, ?_⟩
  rw [hf]
  show (⟨.memory s, (p + k) % W⟩ : File) = _
  rw [Nat.mod_eq_of_lt (by omega)]

theorem readName_memory {s : List UInt8} (hW : s.length < W) :
    ∀ (n p : Nat) (name name2 : List UInt8) (d2 : File),
      readName n ⟨.memory s, p⟩ name = .ok (name2, d2) → d2 = ⟨.memory s, p + n⟩ := by
  intro n
  induction n with
  | zero =>
    intro p name name2 d2 h
    simp only [readName, Except.ok.injEq, Prod.mk.injEq] at h
    exact h.2.symm
  | succ n ih =>
    intro p name name2 d2 h
    simp only [readName] at h
    cases h1 : (File.Read ⟨.memory s, p⟩ 1).2 with
    | error e => rw [h1] at h; cases h
    | ok bytes =>
      rw [h1] at h
      simp only at h
      have hle : p + 1 ≤ s.length := Block.memory_Read_ok h1
      have hpos : (File.Read ⟨.memory s, p⟩ 1).1 = ⟨.memory s, p + 1⟩ := by
        show (⟨.memory s, (p + 1) % W⟩ : File) = _
        rw [Nat.mod_eq_of_lt (by omega)]
      rw [hpos] at h
      rw [ih (p + 1) _ _ _ h]
      simp only [File.mk.injEq, true_and]
      omega

theorem File.Seek_ne_fuel (f : File) (v : Nat) (origin : FileOrigin) :
    f.Seek v origin ≠ .error .fuel := by
  intro h
  cases origin <;> (simp only [File.Seek] at h; split at h <;> cases h)

/-- The walk of a call that the walk makes is part of the walk. -/
theorem Visits_trans {a x u : File} {b y v : List UInt8} (h1 : Visits a b x y)
    (h2 : Visits x y u v) : Visits a b u v := by
  induction h1 with
  | root data name => exact h2
  | fragment hr hc hn _ ih => exact Visits.fragment hr hc hn (ih h2)
  | left hr hb h32 hs _ ih => exact Visits.left hr hb h32 hs (ih h2)
  | right hr hb h32 hs hl hok _ ih => exact Visits.right hr hb h32 hs hl hok (ih h2)

theorem ForwardJumps_of_Visits {a x : File} {b y : List UInt8} (h : ForwardJumps a b)
    (hv : Visits a b x y) : ForwardJumps x y :=
  fun u u1 uL v ch offset huv => h u u1 uL v ch offset (Visits_trans hv huv)

/-- Over a memory stream whose reached branch nodes jump forward, every nested
call starts at a greater position, so a budget of `length - position + 1` calls
is never exhausted. -/
theorem ParseNames_forward_ne_fuel {s : List UInt8} (hW : s.length < W) :
    ∀ (n p : Nat) (name : List UInt8), s.length - p ≤ n →
      ForwardJumps ⟨.memory s, p⟩ name →
      (ParseNames (n + 1) ⟨.memory s, p⟩ name).result ≠ .error .fuel := by
  intro n
  induction n with
  | zero =>
    intro p name hn _
    show (ParseNamesBody (ParseNames 0) ⟨.memory s, p⟩ name).result ≠ _
    unfold ParseNamesBody
    cases h1 : File.ReadU8 ⟨.memory s, p⟩ with
    | error e =>
      simp only
      intro h
      cases h
      exact File.ReadUInt_ne_fuel _ _ h1
    | ok p1 =>
      obtain ⟨ch, d1⟩ := p1
      have := (File.ReadUInt_memory hW h1).1
      omega
  | succ m ih =>
    intro p name hn hfwd
    show (ParseNamesBody (ParseNames (m + 1)) ⟨.memory s, p⟩ name).result ≠ _
    unfold ParseNamesBody
    cases h1 : File.ReadU8 ⟨.memory s, p⟩ with
    | error e =>
      simp only
      intro h
      cases h
      exact File.ReadUInt_ne_fuel _ _ h1
    | ok p1 =>
      obtain ⟨ch, d1⟩ := p1
      obtain ⟨hp1, hd1⟩ := File.ReadUInt_memory hW h1
      subst hd1
      simp only
      by_cases c0 : ch = 0
      · rw [if_pos c0]
        intro h
        cases h
      · rw [if_neg c0]
        by_cases c1 : 1 ≤ ch ∧ ch ≤ 0x1f
        · rw [if_pos c1]
          cases h2 : readName ch ⟨.memory s, p + 1⟩ name with
          | error e =>
            simp only
            intro h
            cases h
            exact readName_ne_fuel _ _ _ h2
          | ok p2 =>
            obtain ⟨name2, d2⟩ := p2
            have hd2 := readName_memory hW ch (p + 1) name name2 d2 h2
            subst hd2
            simp only
            exact ih (p + 1 + ch) name2 (by omega)
              (ForwardJumps_of_Visits hfwd (Visits.fragment h1 c1 h2 (Visits.root _ _)))
        · rw [if_neg c1]
          by_cases c2 : 65 ≤ ch ∧ ch ≤ 90
          · rw [if_pos c2]
            exact fileEntry_ne_fuel _ _ _
          · rw [if_neg c2]
            have hbr : isBranch ch := ⟨c0, c1, c2⟩
            cases h3 : File.ReadU32 ⟨.memory s, p + 1⟩ with
            | error e =>
              simp only
              intro h
              cases h
              exact File.ReadUInt_ne_fuel _ _ h3
            | ok p3 =>
              obtain ⟨offset, dL⟩ := p3
              obtain ⟨_, hdL⟩ := File.ReadUInt_memory hW h3
              subst hdL
              simp only
              cases h4 : File.Seek ⟨.memory s, p + 1⟩ offset .FileOriginBegin with
              | error e =>
                simp only
                intro h
                cases h
                exact File.Seek_ne_fuel _ _ _ h4
              | ok dR =>
                have hdR : dR = ⟨.memory s, offset⟩ := by
                  simp only [File.Seek] at h4
                  split at h4
                  · cases h4
                  · cases h4; rfl
                subst hdR
                simp only
                have hjump : p < offset :=
                  hfwd ⟨.memory s, p⟩ ⟨.memory s, p + 1⟩ ⟨.memory s, p + 1 + 4⟩ name ch offset
                    (Visits.root _ _) h1 hbr h3
                have hL := ih (p + 1 + 4) name (by omega)
                  (ForwardJumps_of_Visits hfwd (Visits.left h1 hbr h3 h4 (Visits.root _ _)))
                unfold Run.andThen
                cases hl : (ParseNames (m + 1) ⟨.memory s, p + 1 + 4⟩ name).result with
                | error e =>
                  simp only
                  intro h
                  cases h
                  exact hL hl
                | ok u =>
                  simp only
                  exact ih offset name (by omega)
                    (ForwardJumps_of_Visits hfwd
                      (Visits.right h1 hbr h3 h4 ⟨m + 1, rfl, hL⟩ hl (Visits.root _ _)))

theorem Block.memory_Read_eq {s bytes : List UInt8} {offset size : Nat}
    (h : (Block.memory s).Read offset size = .ok bytes) : bytes = slice s offset size := by
  simp only [Block.Read] at h
  split at h
  · cases h
  · split at h
    · cases h; rfl
    · cases h

/-- The walk over a memory stream stays on that stream. -/
theorem Visits_memory {s : List UInt8} (hW : s.length < W) {a x : File} {b y : List UInt8}
    (hv : Visits a b x y) : ∀ p, a = ⟨.memory s, p⟩ → ∃ q, x = ⟨.memory s, q⟩ := by
  induction hv with
  | root data name => exact fun p hp => ⟨p, hp⟩
  | fragment hr hc hn _ ih =>
    intro p hp
    subst hp
    obtain ⟨_, hd1⟩ := File.ReadUInt_memory hW hr
    subst hd1
    exact ih _ (readName_memory hW _ _ _ _ _ hn)
  | left hr hb h32 hs _ ih =>
    intro p hp
    subst hp
    obtain ⟨_, hd1⟩ := File.ReadUInt_memory hW hr
    subst hd1
    obtain ⟨_, hdL⟩ := File.ReadUInt_memory hW h32
    exact ih _ hdL
  | right hr hb h32 hs hl hok _ ih =>
    intro p hp
    subst hp
    obtain ⟨_, hd1⟩ := File.ReadUInt_memory hW hr
    subst hd1
    simp only [File.Seek] at hs
    split at hs
    · cases hs
    · cases hs
      exact ih _ rfl

/-- A test on the bytes of the stream that makes every reached branch node jump
forward. -/
theorem ForwardJumps_of_forwardOffsets (s : List UInt8) (p : Nat) (name : List UInt8)
    (hW : s.length < W) (h : forwardOffsets s) : ForwardJumps ⟨.memory s, p⟩ name := by
  intro x x1 xL y ch offset hv h1 hbr h3
  obtain ⟨q, hq⟩ := Visits_memory hW hv p rfl
  subst hq
  obtain ⟨hq1, hx1⟩ := File.ReadUInt_memory hW h1
  subst hx1
  obtain ⟨hq5, _⟩ := File.ReadUInt_memory hW h3
  obtain ⟨b1, hb1, _, hch, _⟩ := File.ReadUInt_ok h1
  obtain ⟨b4, hb4, _, hoff, _⟩ := File.ReadUInt_ok h3
  have e1 := Block.memory_Read_eq hb1
  have e4 := Block.memory_Read_eq hb4
  subst e1
  subst e4
  rw [hch] at hbr
  rw [hoff]
  exact h q (List.mem_range.mpr (by omega)) hbr (by omega)

/-- On `loopStream` no budget suffices: the right child of the branch node at
position 0 is that node itself, and its left child returns. -/
theorem ParseNames_loopStream : ∀ fuel,
    ParseNames fuel ⟨.memory loopStream, 0⟩ [] = ⟨[], .error .fuel⟩ := by
  intro fuel
  induction fuel with
  | zero => rfl
  | succ k ih =>
    have hbody : ∀ self : File → List UInt8 → Run Unit,
        ParseNamesBody self ⟨.memory loopStream, 0⟩ [] =
          (self ⟨.memory loopStream, 5⟩ []).andThen (self ⟨.memory loopStream, 0⟩ []) :=
      fun _ => rfl
    show ParseNamesBody (ParseNames k) ⟨.memory loopStream, 0⟩ [] = _
    rw [hbody, ih]
    cases k with
    | zero => rfl
    | succ j =>
      have hleft : ParseNames (j + 1) ⟨.memory loopStream, 5⟩ [] = ⟨[], .ok ()⟩ := rfl
      rw [hleft]
      rfl

/-- C18 as stated fails on `loopStream`, six bytes with a branch node whose jump
offset is its own position and whose left child (the file entry `'A'`) returns:
for every budget the walk is still recursing when the budget ends, so the call
never completes; no format error stops it. -/
theorem parseNames_terminates_counterexample :
    (∀ fuel, (ParseNames fuel ⟨.memory loopStream, 0⟩ []).result = .error .fuel) ∧
      ¬ ∃ r, Completes ⟨.memory loopStream, 0⟩ [] r := by
  refine ⟨fun fuel => by rw [ParseNames_loopStream], ?_⟩
  rintro ⟨r, fuel, hr, hne⟩
  rw [ParseNames_loopStream] at hr
  exact hne (by rw [← hr])

/-! ### The name of the package file -/

theorem digitChar_decimal (k : Nat) (hk : k < 10) :
    (Nat.digitChar k).isDigit = true ∧ (Nat.digitChar k).toNat - 48 = k := by
  interval_cases k <;> decide

/-- The digits that `Nat.toDigitsCore` puts in front of `ds` denote `n`. -/
theorem toDigitsCore_decimal : ∀ (fuel n : Nat) (ds : List Char), n < fuel →
    ∃ dg : List Char, Nat.toDigitsCore 10 fuel n ds = dg ++ ds ∧ dg ≠ [] ∧
      (∀ c ∈ dg, c.isDigit = true) ∧
      (∀ acc, dg.foldl (fun acc c => 10 * acc + (c.toNat - 48)) acc = acc * 10 ^ dg.length + n) ∧
      n < 10 ^ dg.length ∧ (dg.length = 1 ∨ 10 ^ (dg.length - 1) ≤ n) ∧
      (n ≠ 0 → dg.head? ≠ some '0') := by
  intro fuel
  induction fuel with
  | zero => intro n ds h; omega
  | succ f ih =>
    intro n ds h
    obtain ⟨hd1, hd2⟩ := digitChar_decimal (n % 10) (Nat.mod_lt _ (by decide))
    by_cases h0 : n / 10 = 0
    · refine ⟨[Nat.digitChar (n % 10)], ?_, by simp, ?_, ?_, ?_, Or.inl rfl, ?_⟩
      · simp only [Nat.toDigitsCore, h0, if_true, List.singleton_append]
      · intro c hc
        rw [List.mem_singleton] at hc
        rw [hc]; exact hd1
      · intro acc
        simp only [List.foldl_cons, List.foldl_nil, List.length_singleton, pow_one, hd2]
        omega
      · simp only [List.length_singleton, pow_one]
        omega
      · intro hn0
        have hlt10 : n < 10 := by omega
        rw [Nat.mod_eq_of_lt hlt10]
        interval_cases n
        · exact absurd rfl hn0
        all_goals decide
    · obtain ⟨dg, he, hne, hdig, hval, hlt, hge, hhead⟩ :=
        ih (n / 10) (Nat.digitChar (n % 10) :: ds) (by omega)
      have hlen : 1 ≤ dg.length := by
        cases dg with
        | nil => exact absurd rfl hne
        | cons a l => simp
      refine ⟨dg ++ [Nat.digitChar (n % 10)], ?_, by simp, ?_, ?_, ?_, Or.inr ?_, ?_⟩
      · simp only [Nat.toDigitsCore, h0, if_false, he, List.append_assoc, List.singleton_append]
      · intro c hc
        rw [List.mem_append, List.mem_singleton] at hc
        rcases hc with hc | hc
        · exact hdig c hc
        · rw [hc]; exact hd1
      · intro acc
        rw [List.foldl_append, hval]
        simp only [List.foldl_cons, List.foldl_nil, List.length_append, List.length_singleton, hd2,
          pow_succ]
        have := Nat.div_add_mod n 10
        nlinarith

      · rw [List.length_append, List.length_singleton, pow_succ]
        omega
      · rw [List.length_append, List.length_singleton, Nat.add_sub_cancel]
        rcases hge with h1 | h1
        · rw [h1, pow_one]
          omega
        · have hp : 10 ^ dg.length = 10 ^ (dg.length - 1) * 10 := by
            rw [← pow_succ]
            congr 1
            omega
          omega
      · intro _
        cases dg with
        | nil => exact absurd rfl hne
        | cons a l => exact hhead h0

theorem decimalValue_zeros (k : Nat) (dg : List Char) :
    (List.replicate k '0' ++ dg).foldl (fun acc c => 10 * acc + (c.toNat - 48)) 0 =
      dg.foldl (fun acc c => 10 * acc + (c.toNat - 48)) 0 := by
  induction k with
  | zero => rfl
  | succ k ih =>
    rw [List.replicate_succ, List.cons_append, List.foldl_cons]
    exact ih

/-- C21 (as amended): for every package id, the package file name resolved for a
chunk is `<stem>-<layer>-<id4>.sdfdata`, with a hyphen on both sides of the layer
letter: `<stem>` is the path of the index file without its extension, the layer
is `A` when `id < 1000`, `B` when `1000 <= id < 2000` and `C` otherwise, and
`<id4>` is the id in decimal, filled on the left with zeros to at least four
digits (exactly four when `id < 10000`; an id of 10000 or more keeps all its
digits, none added). -/
theorem sdfDataPath_format (stemPath : List Char) (packageId : Nat) :
    ∃ (l : Char) (id4 : List Char),
      sdfDataPath stemPath packageId =
        stemPath ++ ('-' :: l :: '-' :: (id4 ++ ['.', 's', 'd', 'f', 'd', 'a', 't', 'a'])) ∧
      (l = 'A' ↔ packageId < 1000) ∧
      (l = 'B' ↔ 1000 ≤ packageId ∧ packageId < 2000) ∧
      (l = 'C' ↔ 2000 ≤ packageId) ∧
      (∀ c ∈ id4, c.isDigit = true) ∧ decimalValue id4 = packageId ∧
      4 ≤ id4.length ∧ (id4.length = 4 ↔ packageId < 10000) ∧
      (10000 ≤ packageId → id4.head? ≠ some '0') := by
  obtain ⟨dg, he, hne, hdig, hval, hlt, hge, hhead⟩ :=
    toDigitsCore_decimal (packageId + 1) packageId [] (Nat.lt_succ_self _)
  rw [List.append_nil] at he
  have hfmt : format04i packageId = List.replicate (4 - dg.length) '0' ++ dg := by
    simp only [format04i, Nat.toDigits, he]
  have hlen : 1 ≤ dg.length := by
    cases dg with
    | nil => exact absurd rfl hne
    | cons a l => simp
  have hle4 : dg.length ≤ 4 ↔ packageId < 10000 := by
    constructor
    · intro h
      exact lt_of_lt_of_le hlt (Nat.pow_le_pow_right (by decide) h)
    · intro h
      by_contra hc
      rcases hge with h1 | h1
      · omega
      · have : 10 ^ 4 ≤ 10 ^ (dg.length - 1) := Nat.pow_le_pow_right (by decide) (by omega)
        omega
  have hpath : ∀ l : Char, layer packageId = [l] → sdfDataPath stemPath packageId =
      stemPath ++ ('-' :: l :: '-' :: ((List.replicate (4 - dg.length) '0' ++ dg) ++
        ['.', 's', 'd', 'f', 'd', 'a', 't', 'a'])) := by
    intro l hl
    simp only [sdfDataPath, dataFormated, hl, hfmt, List.append_assoc, List.cons_append,
      List.nil_append]
  have hrest : (∀ c ∈ List.replicate (4 - dg.length) '0' ++ dg, c.isDigit = true) ∧
      decimalValue (List.replicate (4 - dg.length) '0' ++ dg) = packageId ∧
      4 ≤ (List.replicate (4 - dg.length) '0' ++ dg).length ∧
      ((List.replicate (4 - dg.length) '0' ++ dg).length = 4 ↔ packageId < 10000) ∧
      (10000 ≤ packageId →
        (List.replicate (4 - dg.length) '0' ++ dg).head? ≠ some '0') := by
    refine ⟨?_, ?_, ?_, ?_, ?_⟩
    · intro c hc
      rw [List.mem_append] at hc
      rcases hc with hc | hc
      · rw [(List.mem_replicate.mp hc).2]
        decide
      · exact hdig c hc
    · unfold decimalValue
      rw [decimalValue_zeros, hval]
      omega
    · rw [List.length_append, List.length_replicate]
      omega
    · rw [List.length_append, List.length_replicate, ← hle4]
      omega
    · intro hbig
      have h5 : ¬ dg.length ≤ 4 := fun h => by have := hle4.mp h; omega
      have hz : 4 - dg.length = 0 := by omega
      rw [hz, List.replicate_zero, List.nil_append]
      exact hhead (by omega)
  by_cases h1 : packageId < 1000
  · refine ⟨'A', _, hpath 'A' (by simp only [layer, if_pos h1]), ?_, ?_, ?_, hrest⟩
    · exact iff_of_true rfl h1
    · exact iff_of_false (by decide) (by omega)
    · exact iff_of_false (by decide) (by omega)
  · by_cases h2 : packageId < 2000
    · refine ⟨'B', _, hpath 'B' (by simp only [layer, if_neg h1, if_pos h2]), ?_, ?_, ?_, hrest⟩
      · exact iff_of_false (by decide) h1
      · exact iff_of_true rfl ⟨by omega, h2⟩
      · exact iff_of_false (by decide) (by omega)
    · refine ⟨'C', _, hpath 'C' (by simp only [layer, if_neg h1, if_neg h2]), ?_, ?_, ?_, hrest⟩
      · exact iff_of_false (by decide) h1
      · exact iff_of_false (by decide) (by omega)
      · exact iff_of_true rfl (by omega)

/-- C21 as stated fails for the index file `x.sdftoc` and the package id 12: the
name resolved is `x-A-0012.sdfdata`, with a hyphen between the layer letter and
the digits, not `x-A0012.sdfdata`. -/
theorem sdfDataPath_counterexample :
    sdfDataPath ['x'] 12 =
        ['x', '-', 'A', '-', '0', '0', '1', '2', '.', 's', 'd', 'f', 'd', 'a', 't', 'a'] ∧
      sdfDataPath ['x'] 12 ≠
        ['x', '-', 'A', '0', '0', '1', '2', '.', 's', 'd', 'f', 'd', 'a', 't', 'a'] := by
  decide

/-! ### The records of a walk and the nodes that emit them -/

/-- The name-fragment loop appends what it reads to the name it is given. -/
theorem readName_acc : ∀ (n : Nat) (data : File) (acc : List UInt8),
    readName n data acc =
      match readName n data [] with
      | .ok (frag, d2) => .ok (acc ++ frag, d2)
      | .error e => .error e := by
  intro n
  induction n with
  | zero =>
    intro data acc
    simp only [readName, List.append_nil]
  | succ n ih =>
    intro data acc
    simp only [readName]
    cases h1 : (data.Read 1).2 with
    | error e => rfl
    | ok bytes =>
      simp only
      rw [ih (data.Read 1).1 (acc ++ bytes), ih (data.Read 1).1 ([] ++ bytes)]
      cases readName n (data.Read 1).1 [] with
      | error e => rfl
      | ok p =>
        simp only [List.nil_append, List.append_assoc]

/-- What a name-fragment loop that returns has read: the `n` bytes at the cursor. -/
theorem readName_bytes : ∀ (n : Nat) (data d2 : File) (frag : List UInt8),
    data.position < W → readName n data [] = .ok (frag, d2) →
    frag.length = n ∧ d2 = ⟨data.block, (data.position + n) % W⟩ ∧
      ∀ k, k < n → data.block.byteAt ((data.position + k) % W) = frag[k]? := by
  intro n
  induction n with
  | zero =>
    intro data d2 frag hp h
    simp only [readName, Except.ok.injEq, Prod.mk.injEq] at h
    refine ⟨by rw [← h.1]; rfl, ?_, by intro k hk; omega⟩
    rw [← h.2, Nat.add_zero, Nat.mod_eq_of_lt hp]
  | succ n ih =>
    intro data d2 frag hp h
    simp only [readName] at h
    cases h1 : (data.Read 1).2 with
    | error e => rw [h1] at h; cases h
    | ok bytes =>
      rw [h1] at h
      simp only [List.nil_append] at h
      rw [readName_acc] at h
      cases h2 : readName n (data.Read 1).1 [] with
      | error e => rw [h2] at h; cases h
      | ok p2 =>
        obtain ⟨rest, d3⟩ := p2
        rw [h2] at h
        simp only [Except.ok.injEq, Prod.mk.injEq] at h
        have hpos : (data.Read 1).1.position < W := Nat.mod_lt _ (by decide)
        obtain ⟨hlen, hd3, hb⟩ := ih _ _ _ hpos h2
        have hr : data.block.Read data.position 1 = .ok bytes := h1
        have hbl := Block.Read_length _ _ _ _ hr
        obtain ⟨b, rfl⟩ : ∃ b, bytes = [b] := by
          match bytes, hbl with
          | [b], _ => exact ⟨b, rfl⟩
        rw [← h.1, ← h.2, hd3]
        refine ⟨by simp [hlen], ?_, ?_⟩
        · show (⟨data.block, ((data.position + 1) % W + n) % W⟩ : File) = _
          simp only [File.mk.injEq, true_and]
          simp only [W]
          omega
        · intro k hk
          cases k with
          | zero =>
            rw [Nat.add_zero, Nat.mod_eq_of_lt hp]
            simpa using Block.byteAt_of_read hr
          | succ j =>
            have := hb j (by omega)
            rw [List.singleton_append, List.getElem?_cons_succ, ← this]
            show _ = data.block.byteAt (((data.position + 1) % W + j) % W)
            congr 1
            simp only [W]
            omega

/-- Every record that the chunk loop emits carries the sizes of a chunk that
`readChunk` has decoded. -/
theorem chunkLoop_emitted_chunk (name : List UInt8) (ddsType byteCount : Nat) :
    ∀ (remaining chunkIndex : Nat) (data : File) (r : Record),
      r ∈ (chunkLoop name ddsType byteCount remaining chunkIndex data).emitted →
      r.name = name ∧ ∃ (d d2 : File) (c : Chunk), readChunk d = .ok (c, d2) ∧
        r.decompressedSize = c.decompressedSize ∧ r.compSizeArray = c.compSizeArray := by
  intro remaining
  induction remaining with
  | zero =>
    intro chunkIndex data r hr
    simp only [chunkLoop] at hr
    exact absurd hr (List.not_mem_nil _)
  | succ n ih =>
    intro chunkIndex data r hr
    cases hrc : readChunk data with
    | error e =>
      simp only [chunkLoop, hrc] at hr
      exact absurd hr (List.not_mem_nil _)
    | ok p =>
      obtain ⟨c, data1⟩ := p
      simp only [chunkLoop, hrc, List.mem_cons] at hr
      rcases hr with hr | hr
      · subst hr
        exact ⟨rfl, data, data1, c, hrc, rfl, rfl⟩
      · exact ih _ _ r hr

theorem fileEntry_emitted_chunk (data : File) (name : List UInt8) (ch : Nat) (r : Record)
    (hr : r ∈ (fileEntry data name ch).emitted) :
    r.name = name ∧ ∃ (d d2 : File) (c : Chunk), readChunk d = .ok (c, d2) ∧
      r.decompressedSize = c.decompressedSize ∧ r.compSizeArray = c.compSizeArray := by
  rw [fileEntry_emitted] at hr
  unfold fileEntryChunks at hr
  split at hr
  · cases h1 : data.ReadU32 with
    | error e => rw [h1] at hr; exact absurd hr (List.not_mem_nil _)
    | ok p1 =>
      rw [h1] at hr
      simp only at hr
      cases h2 : p1.2.ReadU8 with
      | error e => rw [h2] at hr; exact absurd hr (List.not_mem_nil _)
      | ok p2 =>
        rw [h2] at hr
        simp only at hr
        cases h3 : readVariadicInteger p2.2 (p2.1 &&& 3) with
        | error e => rw [h3] at hr; exact absurd hr (List.not_mem_nil _)
        | ok p3 =>
          rw [h3] at hr
          exact chunkLoop_emitted_chunk _ _ _ _ _ _ r hr
  · exact absurd hr (List.not_mem_nil _)

/-- Every record of a walk is emitted by a file-entry node that a path from the
starting node reaches, under the name made of the starting name and the
fragments of that path. -/
theorem ParseNames_emitted_path : ∀ (fuel : Nat) (data : File) (name : List UInt8) (r : Record),
    r ∈ (ParseNames fuel data name).emitted →
    ∃ (x x1 : File) (ch : Nat) (frags : List (List UInt8)),
      Path data x frags ∧ x.ReadU8 = .ok (ch, x1) ∧ (65 ≤ ch ∧ ch ≤ 90) ∧
      r ∈ (fileEntry x1 (name ++ frags.flatten) ch).emitted := by
  intro fuel
  induction fuel with
  | zero =>
    intro data name r hr
    exact absurd hr (List.not_mem_nil _)
  | succ n ih =>
    intro data name r hr
    change r ∈ (ParseNamesBody (ParseNames n) data name).emitted at hr
    unfold ParseNamesBody at hr
    cases h1 : data.ReadU8 with
    | error e => rw [h1] at hr; exact absurd hr (List.not_mem_nil _)
    | ok p1 =>
      obtain ⟨ch, d1⟩ := p1
      rw [h1] at hr
      simp only at hr
      by_cases c0 : ch = 0
      · rw [if_pos c0] at hr
        exact absurd hr (List.not_mem_nil _)
      · rw [if_neg c0] at hr
        by_cases c1 : 1 ≤ ch ∧ ch ≤ 0x1f
        · rw [if_pos c1] at hr
          cases h2 : readName ch d1 name with
          | error e => rw [h2] at hr; exact absurd hr (List.not_mem_nil _)
          | ok p2 =>
            obtain ⟨name2, d2⟩ := p2
            rw [h2] at hr
            simp only at hr
            rw [readName_acc] at h2
            cases h3 : readName ch d1 [] with
            | error e => rw [h3] at h2; cases h2
            | ok p3 =>
              obtain ⟨frag, d3⟩ := p3
              rw [h3] at h2
              simp only [Except.ok.injEq, Prod.mk.injEq] at h2
              obtain ⟨hn2, hd2⟩ := h2
              subst hn2
              subst hd2
              obtain ⟨x, x1, ch2, frags, hp, hx, hc, hmem⟩ := ih _ _ r hr
              refine ⟨x, x1, ch2, frag :: frags, Path.fragment h1 c1 h3 hp, hx, hc, ?_⟩
              rw [List.flatten_cons, ← List.append_assoc]
              exact hmem
        · rw [if_neg c1] at hr
          by_cases c2 : 65 ≤ ch ∧ ch ≤ 90
          · rw [if_pos c2] at hr
            refine ⟨data, d1, ch, [], Path.root data, h1, c2, ?_⟩
            rw [List.flatten_nil, List.append_nil]
            exact hr
          · rw [if_neg c2] at hr
            have hbr : isBranch ch := ⟨c0, c1, c2⟩
            cases h3 : d1.ReadU32 with
            | error e => rw [h3] at hr; exact absurd hr (List.not_mem_nil _)
            | ok p3 =>
              obtain ⟨offset, dL⟩ := p3
              rw [h3] at hr
              simp only at hr
              cases h4 : d1.Seek offset .FileOriginBegin with
              | error e => rw [h4] at hr; exact absurd hr (List.not_mem_nil _)
              | ok dR =>
                rw [h4] at hr
                simp only at hr
                have hcases : r ∈ (ParseNames n dL name).emitted ∨
                    r ∈ (ParseNames n dR name).emitted := by
                  unfold Run.andThen at hr
                  cases hl : (ParseNames n dL name).result with
                  | error e =>
                    rw [hl] at hr
                    exact Or.inl hr
                  | ok u =>
                    rw [hl] at hr
                    exact List.mem_append.mp hr
                rcases hcases with hm | hm
                · obtain ⟨x, x1, ch2, frags, hp, hx, hc, hmem⟩ := ih _ _ r hm
                  exact ⟨x, x1, ch2, frags, Path.left h1 hbr h3 h4 hp, hx, hc, hmem⟩
                · obtain ⟨x, x1, ch2, frags, hp, hx, hc, hmem⟩ := ih _ _ r hm
                  exact ⟨x, x1, ch2, frags, Path.right h1 hbr h3 h4 hp, hx, hc, hmem⟩

/-- C24: for every tree stream (every cursor `data`), every initial prefix `p` and
every record that `ParseNames(data, cb, p)` emits (at any depth of the walk): the
name of the record starts with `p`, and the rest of the name is the
concatenation, in stream order, of the name fragments on a path from the
starting node to the file-entry node that emits the record; the fragment of a
name-fragment node consists of the bytes that follow its control byte. -/
theorem parseNames_name_extends (fuel : Nat) (data : File) (p : List UInt8) (r : Record)
    (hr : r ∈ (ParseNames fuel data p).emitted) :
    p <+: r.name ∧
    (∃ (x x1 : File) (ch : Nat) (frags : List (List UInt8)),
      Path data x frags ∧ x.ReadU8 = .ok (ch, x1) ∧ (65 ≤ ch ∧ ch ≤ 90) ∧
      r ∈ (fileEntry x1 r.name ch).emitted ∧ r.name = p ++ frags.flatten) ∧
    (∀ (n : Nat) (d d2 : File) (frag : List UInt8), d.position < W →
      readName n d [] = .ok (frag, d2) →
      frag.length = n ∧ ∀ k, k < n → d.block.byteAt ((d.position + k) % W) = frag[k]?) := by
  obtain ⟨x, x1, ch, frags, hp, hx, hc, hmem⟩ := ParseNames_emitted_path fuel data p r hr
  have hname : r.name = p ++ frags.flatten := (fileEntry_emitted_chunk _ _ _ r hmem).1
  refine ⟨⟨frags.flatten, hname.symm⟩, ⟨x, x1, ch, frags, hp, hx, hc, ?_, hname⟩, ?_⟩
  · rw [hname]
    exact hmem
  · intro n d d2 frag hpos h
    obtain ⟨h1, _, h3⟩ := readName_bytes n d d2 frag hpos h
    exact ⟨h1, h3⟩

/-- C24 on `branchStream` walked with the prefix `"p"`: the record of the right
child, which lies behind the name fragment `"x"`, has the name `"px"`. -/
theorem parseNames_name_extends_witness :
    ([112] : List UInt8) <+: [112, 120] :=
  (parseNames_name_extends 3 ⟨.memory branchStream, 0⟩ [112]
    ⟨[112, 120], 2, 0, 4, [], 0, false, false⟩ (by decide)).1


/-! ### The pages tile the output buffer -/

/-- A `readVariadicInteger` loop that returns leaves a position that is a
`size_t` value. -/
theorem readVariadicIntegerFrom_position_lt : ∀ (remaining : Nat) (data : File)
    (result i v : Nat) (d2 : File), (data.position < W ∨ remaining ≠ 0) →
    readVariadicIntegerFrom remaining data result i = .ok (v, d2) → d2.position < W := by
  intro remaining
  induction remaining with
  | zero =>
    intro data result i v d2 hp h
    simp only [readVariadicIntegerFrom, Except.ok.injEq, Prod.mk.injEq] at h
    rw [← h.2]
    rcases hp with hp | hp
    · exact hp
    · exact absurd rfl hp
  | succ n ih =>
    intro data result i v d2 _ h
    simp only [readVariadicIntegerFrom] at h
    cases h1 : data.ReadU8 with
    | error e => rw [h1] at h; cases h
    | ok p1 =>
      rw [h1] at h
      simp only at h
      refine ih _ _ _ _ _ (Or.inl ?_) h
      rw [File.ReadUInt_position h1]
      exact Nat.mod_lt _ (by decide)

/-- The number of pages that `readChunk` records for a compressed chunk. -/
theorem readChunk_page_count (data data2 : File) (c : Chunk)
    (h : readChunk data = .ok (c, data2)) (hne : c.compSizeArray ≠ []) :
    c.decompressedSize < 2 ^ 32 ∧
    c.compSizeArray.length = max 1 (((c.decompressedSize + 0xffff) % W) >>> 16) := by
  unfold readChunk at h
  cases h0 : data.ReadU8 with
  | error e => rw [h0] at h; cases h
  | ok p0 =>
  obtain ⟨ch3, d0⟩ := p0
  simp only [h0] at h
  have hd0p : d0.position < W := by
    rw [File.ReadUInt_position h0]; exact Nat.mod_lt _ (by decide)
  cases h1 : readVariadicInteger d0 ((ch3 &&& 3) + 1) with
  | error e => rw [h1] at h; cases h
  | ok p1 =>
  obtain ⟨ds, d1⟩ := p1
  simp only [h1] at h
  obtain ⟨bs1, hlen1, hds, hd1, _⟩ := readVariadicInteger_ok hd0p h1
  have hds32 : ds < 2 ^ 32 := by
    have h3 : ch3 &&& 3 ≤ 3 := Nat.and_le_right
    have := leValue_lt bs1
    rw [hlen1] at this
    rw [hds]
    exact lt_of_lt_of_le this (Nat.pow_le_pow_right (by decide) (by omega))
  cases h2 : (if (ch3 >>> 5) &&& 1 ≠ 0 then readVariadicInteger d1 ((ch3 &&& 3) + 1)
      else .ok (0, d1)) with
  | error e => rw [h2] at h; cases h
  | ok p2 =>
  obtain ⟨cs, d2⟩ := p2
  simp only [h2] at h
  cases h3 : (if (ch3 >>> 2) &&& 7 ≠ 0 then readVariadicInteger d2 ((ch3 >>> 2) &&& 7)
      else .ok (0, d2)) with
  | error e => rw [h3] at h; cases h
  | ok p3 =>
  obtain ⟨po, d3⟩ := p3
  simp only [h3] at h
  cases h4 : readVariadicInteger d3 2 with
  | error e => rw [h4] at h; cases h
  | ok p4 =>
  obtain ⟨pid, d4⟩ := p4
  simp only [h4] at h
  cases h5 : (if (ch3 >>> 5) &&& 1 ≠ 0 then
      (let pageCount := ((ds + 0xffff) % W) >>> 16
       if pageCount > 1 then readPages pageCount d4 [] else .ok ([], d4))
      else .ok ([], d4)) with
  | error e => rw [h5] at h; cases h
  | ok p5 =>
  obtain ⟨arr, d5⟩ := p5
  simp only [h5] at h
  cases h6 : readVariadicInteger d5 4 with
  | error e => rw [h6] at h; cases h
  | ok p6 =>
  obtain ⟨fid, d6⟩ := p6
  simp only [h6, Except.ok.injEq, Prod.mk.injEq] at h
  obtain ⟨hc, _⟩ := h
  subst hc
  simp only at hne ⊢
  refine ⟨hds32, ?_⟩
  by_cases hz : (ch3 >>> 5) &&& 1 ≠ 0
  · rw [if_pos hz] at h5
    simp only at h5
    by_cases hgt : ((ds + 0xffff) % W) >>> 16 > 1
    · rw [if_pos hgt] at h5
      have hd4p : d4.position < W :=
        readVariadicIntegerFrom_position_lt 2 d3 0 0 pid d4 (Or.inr (by decide)) h4
      obtain ⟨vals, harr, hvl, _, _⟩ := readPages_ok _ d4 d5 [] arr hd4p h5
      simp only [List.nil_append] at harr
      have hne2 : ¬ (arr.length = 0 ∧ (ch3 >>> 5) &&& 1 ≠ 0) := by
        intro hh
        rw [harr, hvl] at hh
        omega
      rw [if_neg hne2, harr, hvl]
      omega
    · rw [if_neg hgt] at h5
      simp only [Except.ok.injEq, Prod.mk.injEq] at h5
      rw [← h5.1, if_pos ⟨rfl, hz⟩]
      simp only [List.nil_append, List.length_singleton]
      omega
  · rw [if_neg hz] at h5
    simp only [Except.ok.injEq, Prod.mk.injEq] at h5
    rw [← h5.1, if_neg (fun hh => hz hh.2)] at hne
    exact absurd rfl hne

/-- When `uncompress` yields the expected size of each page, a page step keeps
the buffer size and advances `decompOffset` by the expected size of the page. -/
theorem pageStep_offset (uncompress : Nat → List UInt8 → Option (List UInt8))
    (hu : ∀ destLen source out, uncompress destLen source = some out → out.length = destLen)
    (fileBlock : Block) (packageOffset decompressedSize : Nat) (hn : decompressedSize < W)
    (st st2 : PageState) (s : Nat)
    (hlen : st.decompressed.length = decompressedSize) (hd : st.decompOffset ≤ decompressedSize)
    (h : pageStep uncompress fileBlock packageOffset decompressedSize st s = .ok st2) :
    st2.decompressed.length = decompressedSize ∧
    st2.decompOffset = st.decompOffset + min (decompressedSize - st.decompOffset) 0x10000 := by
  have hexp := expected_size decompressedSize st.decompOffset hn hd
  unfold pageStep at h
  simp only [hexp] at h
  split at h
  · cases hr : fileBlock.Read ((packageOffset + st.compOffset) % W)
        (min (decompressedSize - st.decompOffset) 0x10000) with
    | error e => rw [hr] at h; cases h
    | ok bytes =>
      rw [hr] at h
      simp only at h
      cases hs : store st.decompressed st.decompOffset bytes with
      | error e => rw [hs] at h; cases h
      | ok buffer =>
        rw [hs] at h
        simp only [Except.ok.injEq] at h
        subst h
        refine ⟨by rw [store_length hs, hlen], ?_⟩
        show (st.decompOffset + min (decompressedSize - st.decompOffset) 0x10000) % W = _
        exact Nat.mod_eq_of_lt (by omega)
  · cases hr : fileBlock.Read ((packageOffset + st.compOffset) % W) s with
    | error e => rw [hr] at h; cases h
    | ok compressed =>
      rw [hr] at h
      simp only at h
      cases hc : uncompress (min (decompressedSize - st.decompOffset) 0x10000) compressed with
      | none => rw [hc] at h; cases h
      | some out =>
        rw [hc] at h
        simp only at h
        have hol := hu _ _ _ hc
        cases hs : store st.decompressed st.decompOffset out with
        | error e => rw [hs] at h; cases h
        | ok buffer =>
          rw [hs] at h
          simp only [Except.ok.injEq] at h
          subst h
          refine ⟨by rw [store_length hs, hlen], ?_⟩
          show (st.decompOffset + out.length) % W = _
          rw [hol]
          exact Nat.mod_eq_of_lt (by omega)

/-- After `i` pages the running offset is `min(i * 0x10000, decompressedSize)`. -/
theorem pageLoop_offsets (uncompress : Nat → List UInt8 → Option (List UInt8))
    (hu : ∀ destLen source out, uncompress destLen source = some out → out.length = destLen)
    (fileBlock : Block) (packageOffset decompressedSize : Nat) (hn : decompressedSize < W) :
    ∀ (pages : List Nat) (st st2 : PageState) (i : Nat),
      st.decompressed.length = decompressedSize →
      st.decompOffset = min (i * 0x10000) decompressedSize →
      pageLoop uncompress fileBlock packageOffset decompressedSize st pages = .ok st2 →
      st2.decompressed.length = decompressedSize ∧
      st2.decompOffset = min ((i + pages.length) * 0x10000) decompressedSize := by
  intro pages
  induction pages with
  | nil =>
    intro st st2 i hlen hd h
    simp only [pageLoop, Except.ok.injEq] at h
    subst h
    exact ⟨hlen, by rw [hd, List.length_nil, Nat.add_zero]⟩
  | cons s rest ih =>
    intro st st2 i hlen hd h
    simp only [pageLoop] at h
    cases hs : pageStep uncompress fileBlock packageOffset decompressedSize st s with
    | error e => rw [hs] at h; cases h
    | ok st1 =>
      rw [hs] at h
      simp only at h
      obtain ⟨h1, h2⟩ := pageStep_offset uncompress hu fileBlock packageOffset
        decompressedSize hn st st1 s hlen (by omega) hs
      obtain ⟨k1, k2⟩ := ih st1 st2 (i + 1) h1 (by omega) h
      refine ⟨k1, ?_⟩
      rw [k2, List.length_cons]
      congr 2
      omega

/-- The expected sizes of the first `k` pages add up to
`min(k * 0x10000, decompressedSize)`. -/
theorem expected_sizes_sum (decompressedSize : Nat) : ∀ k : Nat,
    ((List.range k).map
      (fun i => min (decompressedSize - min (i * 0x10000) decompressedSize) 0x10000)).sum =
      min (k * 0x10000) decompressedSize := by
  intro k
  induction k with
  | zero => simp
  | succ k ih =>
    rw [List.range_succ, List.map_append, List.sum_append, ih]
    simp only [List.map_cons, List.map_nil, List.sum_cons, List.sum_nil]
    omega

/-- C23: for every chunk record that `ParseNames` emits with a non-empty
`compSizeArray`: `decompressedSize` fits four bytes and the number of pages is
`max(1, ceil(decompressedSize / 0x10000))`; the expected sizes
`min(decompressedSize - decompOffset, 0x10000)` of the pages add up to exactly
`decompressedSize`; and in the page loop of the callback, when `uncompress`
yields the expected size for each page it decompresses, the buffer keeps its
`decompressedSize` bytes, the running `decompOffset` after `i` pages is
`min(i * 0x10000, decompressedSize)`, never above `decompressedSize` and equal
to it after the last page, and each further page advances it by exactly its
expected size: the pages tile the buffer without gap and without overrun. -/
theorem pages_tile_buffer (fuel : Nat) (data : File) (name : List UInt8) (r : Record)
    (hr : r ∈ (ParseNames fuel data name).emitted) (hne : r.compSizeArray ≠ []) :
    r.decompressedSize < 2 ^ 32 ∧
    r.compSizeArray.length = max 1 ⌈(r.decompressedSize : ℚ) / 0x10000⌉₊ ∧
    ((List.range r.compSizeArray.length).map
      (fun i => min (r.decompressedSize - min (i * 0x10000) r.decompressedSize) 0x10000)).sum =
      r.decompressedSize ∧
    ∀ (uncompress : Nat → List UInt8 → Option (List UInt8)),
      (∀ destLen source out, uncompress destLen source = some out → out.length = destLen) →
      ∀ (fileBlock : Block) (packageOffset i : Nat) (st : PageState),
        i ≤ r.compSizeArray.length →
        pageLoop uncompress fileBlock packageOffset r.decompressedSize
          (initialPageState r.decompressedSize) (r.compSizeArray.take i) = .ok st →
        st.decompressed.length = r.decompressedSize ∧
        st.decompOffset = min (i * 0x10000) r.decompressedSize ∧
        st.decompOffset ≤ r.decompressedSize ∧
        (i = r.compSizeArray.length → st.decompOffset = r.decompressedSize) ∧
        ∀ (s : Nat) (st2 : PageState),
          pageStep uncompress fileBlock packageOffset r.decompressedSize st s = .ok st2 →
          st2.decompOffset =
            st.decompOffset + min (r.decompressedSize - st.decompOffset) 0x10000 := by
  obtain ⟨x, x1, ch, frags, _, _, _, hmem⟩ := ParseNames_emitted_path fuel data name r hr
  obtain ⟨_, d, d2, c, hc, hds, hcs⟩ := fileEntry_emitted_chunk _ _ _ r hmem
  rw [hcs] at hne
  obtain ⟨h32, hcount⟩ := readChunk_page_count d d2 c hc hne
  rw [← hds] at h32 hcount
  rw [← hcs] at hcount
  have hn : r.decompressedSize < W := lt_trans h32 (by decide)
  have hmod : (r.decompressedSize + 0xffff) % W = r.decompressedSize + 0xffff :=
    Nat.mod_eq_of_lt (by simp only [W]; omega)
  have hdiv : r.compSizeArray.length = max 1 ((r.decompressedSize + 0xffff) / 0x10000) := by
    rw [hcount, hmod, Nat.shiftRight_eq_div_pow]
  have hcover : min (r.compSizeArray.length * 0x10000) r.decompressedSize =
      r.decompressedSize := by
    rw [hdiv]
    omega
  refine ⟨h32, ?_, ?_, ?_⟩
  · rw [hcount, pageCount_eq_ceil _ h32]
  · rw [expected_sizes_sum, hcover]
  · intro uncompress hu fileBlock packageOffset i st hi hloop
    obtain ⟨k1, k2⟩ := pageLoop_offsets uncompress hu fileBlock packageOffset r.decompressedSize
      hn _ _ st 0 (initialPageState_invariant _).1 (by simp [initialPageState]) hloop
    rw [List.length_take, Nat.min_eq_left hi, Nat.zero_add] at k2
    refine ⟨k1, k2, by omega, ?_, ?_⟩
    · intro hlast
      rw [k2, hlast, hcover]
    · intro s st2 hstep
      exact (pageStep_offset uncompress hu fileBlock packageOffset r.decompressedSize hn st st2 s
        k1 (by omega) hstep).2

/-- C23 on `compressedEntryStream`, whose record has `decompressedSize = 3` and the
single page size 2: one page, and the page loop (over a package of five bytes,
with an `uncompress` that fills the capacity with the byte 7) ends with
`decompOffset = 3`. -/
theorem pages_tile_buffer_witness :
    ([2] : List Nat).length = max 1 ⌈((3 : Nat) : ℚ) / 0x10000⌉₊ ∧
      (3 : Nat) = min (1 * 0x10000) 3 :=
  have h := pages_tile_buffer 1 ⟨.memory compressedEntryStream, 0⟩ []
    ⟨[], 1, 0, 3, [2], 0, false, false⟩ (by decide) (by decide)
  ⟨h.2.1, (h.2.2.2 (fun n _ => some (List.replicate n 7))
    (fun _ _ _ hu => by cases hu; exact List.length_replicate _ _)
    (.disk [1, 2, 3, 4, 5]) 0 1 ⟨[7, 7, 7], 3, 2, 1⟩ (by decide) (by decide)).2.1⟩


/-! ### The faults of a walk over a memory stream -/

/-- Within a memory stream that ends at least four bytes below `2^64`, a scalar
read of at most four bytes that fails throws the range error: the request never
wraps around. -/
theorem File.ReadUInt_memory_error {s : List UInt8} {p k : Nat} {e : Fault}
    (hk : s.length + k < W) (hp : p ≤ s.length)
    (h : File.ReadUInt ⟨.memory s, p⟩ k = .error e) : e = .memoryIndexOutOfRange := by
  unfold File.ReadUInt File.Read at h
  simp only at h
  split at h
  · cases h
  · rename_i e2 he
    cases h
    simp only [Block.Read] at he
    have hmod : (p + k) % W = p + k := Nat.mod_eq_of_lt (by omega)
    rw [hmod] at he
    split at he
    · cases he; rfl
    · split at he
      · cases he
      · omega

theorem File.ReadUInt_within {s : List UInt8} (hs : s.length + 4 < W) (p k : Nat) (hk : k ≤ 4)
    (hp : p ≤ s.length) : Within s (File.ReadUInt ⟨.memory s, p⟩ k) := by
  cases h : File.ReadUInt ⟨.memory s, p⟩ k with
  | error e => exact File.ReadUInt_memory_error (by omega) hp h
  | ok r =>
    obtain ⟨v, d⟩ := r
    obtain ⟨hle, hd⟩ := File.ReadUInt_memory (by omega) h
    exact ⟨p + k, hd, hle⟩

theorem readVariadicIntegerFrom_within {s : List UInt8} (hs : s.length + 4 < W) :
    ∀ (remaining p result i : Nat), p ≤ s.length →
      Within s (readVariadicIntegerFrom remaining ⟨.memory s, p⟩ result i) := by
  intro remaining
  induction remaining with
  | zero =>
    intro p result i hp
    exact ⟨p, rfl, hp⟩
  | succ n ih =>
    intro p result i hp
    simp only [readVariadicIntegerFrom]
    have h1 := File.ReadUInt_within hs p 1 (by decide) hp
    cases hr : File.ReadU8 ⟨.memory s, p⟩ with
    | error e =>
      rw [show File.ReadUInt ⟨.memory s, p⟩ 1 = .error e from hr] at h1
      exact h1
    | ok r =>
      rw [show File.ReadUInt ⟨.memory s, p⟩ 1 = .ok r from hr] at h1
      obtain ⟨b, d⟩ := r
      obtain ⟨q, hq, hle⟩ := h1
      subst hq
      exact ih q _ _ hle

theorem readVariadicInteger_within {s : List UInt8} (hs : s.length + 4 < W) (p count : Nat)
    (hp : p ≤ s.length) : Within s (readVariadicInteger ⟨.memory s, p⟩ count) :=
  readVariadicIntegerFrom_within hs count p 0 0 hp

theorem readPages_within {s : List UInt8} (hs : s.length + 4 < W) :
    ∀ (remaining p : Nat) (acc : List Nat), p ≤ s.length →
      Within s (readPages remaining ⟨.memory s, p⟩ acc) := by
  intro remaining
  induction remaining with
  | zero =>
    intro p acc hp
    exact ⟨p, rfl, hp⟩
  | succ n ih =>
    intro p acc hp
    simp only [readPages]
    have h1 := readVariadicInteger_within hs p 2 hp
    cases hr : readVariadicInteger ⟨.memory s, p⟩ 2 with
    | error e =>
      rw [hr] at h1
      exact h1
    | ok r =>
      rw [hr] at h1
      obtain ⟨b, d⟩ := r
      obtain ⟨q, hq, hle⟩ := h1
      subst hq
      exact ih q _ hle

theorem readChunk_within {s : List UInt8} (hs : s.length + 4 < W) (p : Nat)
    (hp : p ≤ s.length) : Within s (readChunk ⟨.memory s, p⟩) := by
  unfold readChunk
  have k0 := File.ReadUInt_within hs p 1 (by decide) hp
  cases h0 : File.ReadU8 ⟨.memory s, p⟩ with
  | error e =>
    rw [show File.ReadUInt ⟨.memory s, p⟩ 1 = .error e from h0] at k0
    exact k0
  | ok r0 =>
  rw [show File.ReadUInt ⟨.memory s, p⟩ 1 = .ok r0 from h0] at k0
  obtain ⟨ch3, d0⟩ := r0
  obtain ⟨q0, hq0, hle0⟩ := k0
  subst hq0
  simp only
  have k1 := readVariadicInteger_within hs q0 ((ch3 &&& 3) + 1) hle0
  cases h1 : readVariadicInteger ⟨.memory s, q0⟩ ((ch3 &&& 3) + 1) with
  | error e => rw [h1] at k1; exact k1
  | ok r1 =>
  rw [h1] at k1
  obtain ⟨ds, d1⟩ := r1
  obtain ⟨q1, hq1, hle1⟩ := k1
  subst hq1
  simp only
  have k2 : Within s (if (ch3 >>> 5) &&& 1 ≠ 0 then
      readVariadicInteger ⟨.memory s, q1⟩ ((ch3 &&& 3) + 1) else .ok (0, ⟨.memory s, q1⟩)) := by
    split
    · exact readVariadicInteger_within hs q1 _ hle1
    · exact ⟨q1, rfl, hle1⟩
  cases h2 : (if (ch3 >>> 5) &&& 1 ≠ 0 then
      readVariadicInteger ⟨.memory s, q1⟩ ((ch3 &&& 3) + 1)
      else .ok (0, ⟨.memory s, q1⟩)) with
  | error e => rw [h2] at k2; exact k2
  | ok r2 =>
  rw [h2] at k2
  obtain ⟨cs, d2⟩ := r2
  obtain ⟨q2, hq2, hle2⟩ := k2
  subst hq2
  simp only
  have k3 : Within s (if (ch3 >>> 2) &&& 7 ≠ 0 then
      readVariadicInteger ⟨.memory s, q2⟩ ((ch3 >>> 2) &&& 7) else .ok (0, ⟨.memory s, q2⟩)) := by
    split
    · exact readVariadicInteger_within hs q2 _ hle2
    · exact ⟨q2, rfl, hle2⟩
  cases h3 : (if (ch3 >>> 2) &&& 7 ≠ 0 then
      readVariadicInteger ⟨.memory s, q2⟩ ((ch3 >>> 2) &&& 7)
      else .ok (0, ⟨.memory s, q2⟩)) with
  | error e => rw [h3] at k3; exact k3
  | ok r3 =>
  rw [h3] at k3
  obtain ⟨po, d3⟩ := r3
  obtain ⟨q3, hq3, hle3⟩ := k3
  subst hq3
  simp only
  have k4 := readVariadicInteger_within hs q3 2 hle3
  cases h4 : readVariadicInteger ⟨.memory s, q3⟩ 2 with
  | error e => rw [h4] at k4; exact k4
  | ok r4 =>
  rw [h4] at k4
  obtain ⟨pid, d4⟩ := r4
  obtain ⟨q4, hq4, hle4⟩ := k4
  subst hq4
  simp only
  have k5 : Within s (if (ch3 >>> 5) &&& 1 ≠ 0 then
      (let pageCount := ((ds + 0xffff) % W) >>> 16
       if pageCount > 1 then readPages pageCount ⟨.memory s, q4⟩ []
       else .ok ([], ⟨.memory s, q4⟩))
      else .ok ([], ⟨.memory s, q4⟩)) := by
    split
    · simp only
      split
      · exact readPages_within hs _ q4 _ hle4
      · exact ⟨q4, rfl, hle4⟩
    · exact ⟨q4, rfl, hle4⟩
  cases h5 : (if (ch3 >>> 5) &&& 1 ≠ 0 then
      (let pageCount := ((ds + 0xffff) % W) >>> 16
       if pageCount > 1 then readPages pageCount ⟨.memory s, q4⟩ []
       else .ok ([], ⟨.memory s, q4⟩))
      else .ok ([], ⟨.memory s, q4⟩)) with
  | error e => rw [h5] at k5; exact k5
  | ok r5 =>
  rw [h5] at k5
  obtain ⟨arr, d5⟩ := r5
  obtain ⟨q5, hq5, hle5⟩ := k5
  subst hq5
  simp only
  have k6 := readVariadicInteger_within hs q5 4 hle5
  cases h6 : readVariadicInteger ⟨.memory s, q5⟩ 4 with
  | error e => rw [h6] at k6; exact k6
  | ok r6 =>
  rw [h6] at k6
  obtain ⟨fid, d6⟩ := r6
  exact k6

theorem chunkLoop_within {s : List UInt8} (hs : s.length + 4 < W) (name : List UInt8)
    (ddsType byteCount : Nat) : ∀ (remaining chunkIndex p : Nat), p ≤ s.length →
      (∀ e, (chunkLoop name ddsType byteCount remaining chunkIndex ⟨.memory s, p⟩).result =
        .error e → e = .memoryIndexOutOfRange) ∧
      (∀ d, (chunkLoop name ddsType byteCount remaining chunkIndex ⟨.memory s, p⟩).result =
        .ok d → ∃ q, d = ⟨.memory s, q⟩ ∧ q ≤ s.length) := by
  intro remaining
  induction remaining with
  | zero =>
    intro chunkIndex p hp
    refine ⟨fun e h => ?_, fun d h => ?_⟩
    · cases h
    · cases h
      exact ⟨p, rfl, hp⟩
  | succ n ih =>
    intro chunkIndex p hp
    have k := readChunk_within hs p hp
    cases hrc : readChunk ⟨.memory s, p⟩ with
    | error e =>
      rw [hrc] at k
      simp only [chunkLoop, hrc]
      refine ⟨fun e2 h => ?_, fun d h => by cases h⟩
      cases h
      exact k
    | ok r =>
      rw [hrc] at k
      obtain ⟨c, d1⟩ := r
      obtain ⟨q, hq, hle⟩ := k
      subst hq
      simp only [chunkLoop, hrc]
      exact ih _ q hle

theorem skipTrailer_within {s : List UInt8} (hs : s.length + 4 < W) :
    ∀ (n p : Nat), p ≤ s.length → ∀ e, skipTrailer n ⟨.memory s, p⟩ = .error e →
      e = .memoryIndexOutOfRange := by
  intro n
  induction n with
  | zero =>
    intro p hp e h
    simp only [skipTrailer] at h
    cases h
  | succ n ih =>
    intro p hp e h
    simp only [skipTrailer] at h
    have k1 := File.ReadUInt_within hs p 1 (by decide) hp
    cases h1 : File.ReadU8 ⟨.memory s, p⟩ with
    | error e1 =>
      rw [show File.ReadUInt ⟨.memory s, p⟩ 1 = .error e1 from h1] at k1
      rw [h1] at h
      cases h
      exact k1
    | ok r1 =>
      rw [show File.ReadUInt ⟨.memory s, p⟩ 1 = .ok r1 from h1] at k1
      obtain ⟨b1, d1⟩ := r1
      obtain ⟨q1, hq1, hle1⟩ := k1
      subst hq1
      rw [h1] at h
      simp only at h
      have k2 := File.ReadUInt_within hs q1 1 (by decide) hle1
      cases h2 : File.ReadU8 ⟨.memory s, q1⟩ with
      | error e2 =>
        rw [show File.ReadUInt ⟨.memory s, q1⟩ 1 = .error e2 from h2] at k2
        rw [h2] at h
        cases h
        exact k2
      | ok r2 =>
        rw [show File.ReadUInt ⟨.memory s, q1⟩ 1 = .ok r2 from h2] at k2
        obtain ⟨b2, d2⟩ := r2
        obtain ⟨q2, hq2, hle2⟩ := k2
        subst hq2
        rw [h2] at h
        exact ih q2 hle2 e h

theorem fileEntryChunks_within {s : List UInt8} (hs : s.length + 4 < W) (name : List UInt8)
    (count1 p : Nat) (hp : p ≤ s.length) :
    (∀ e, (fileEntryChunks ⟨.memory s, p⟩ name count1).result = .error e →
      e = .memoryIndexOutOfRange) ∧
    (∀ d, (fileEntryChunks ⟨.memory s, p⟩ name count1).result = .ok d →
      ∃ q, d = ⟨.memory s, q⟩ ∧ q ≤ s.length) := by
  unfold fileEntryChunks
  split
  · have k1 := File.ReadUInt_within hs p 4 (by decide) hp
    cases h1 : File.ReadU32 ⟨.memory s, p⟩ with
    | error e1 =>
      rw [show File.ReadUInt ⟨.memory s, p⟩ 4 = .error e1 from h1] at k1
      simp only
      refine ⟨fun e h => ?_, fun d h => by cases h⟩
      cases h
      exact k1
    | ok r1 =>
      rw [show File.ReadUInt ⟨.memory s, p⟩ 4 = .ok r1 from h1] at k1
      obtain ⟨sid, d1⟩ := r1
      obtain ⟨q1, hq1, hle1⟩ := k1
      subst hq1
      simp only
      have k2 := File.ReadUInt_within hs q1 1 (by decide) hle1
      cases h2 : File.ReadU8 ⟨.memory s, q1⟩ with
      | error e2 =>
        rw [show File.ReadUInt ⟨.memory s, q1⟩ 1 = .error e2 from h2] at k2
        simp only
        refine ⟨fun e h => ?_, fun d h => by cases h⟩
        cases h
        exact k2
      | ok r2 =>
        rw [show File.ReadUInt ⟨.memory s, q1⟩ 1 = .ok r2 from h2] at k2
        obtain ⟨ch2, d2⟩ := r2
        obtain ⟨q2, hq2, hle2⟩ := k2
        subst hq2
        simp only
        have k3 := readVariadicInteger_within hs q2 (ch2 &&& 3) hle2
        cases h3 : readVariadicInteger ⟨.memory s, q2⟩ (ch2 &&& 3) with
        | error e3 =>
          rw [h3] at k3
          simp only
          refine ⟨fun e h => ?_, fun d h => by cases h⟩
          cases h
          exact k3
        | ok r3 =>
          rw [h3] at k3
          obtain ⟨dds, d3⟩ := r3
          obtain ⟨q3, hq3, hle3⟩ := k3
          subst hq3
          simp only
          exact chunkLoop_within hs name dds (ch2 &&& 3) count1 0 q3 hle3
  · refine ⟨fun e h => ?_, fun d h => ?_⟩
    · cases h
    · cases h
      exact ⟨p, rfl, hp⟩

theorem fileEntry_within {s : List UInt8} (hs : s.length + 4 < W) (name : List UInt8)
    (ch p : Nat) (hp : p ≤ s.length) (e : Fault)
    (h : (fileEntry ⟨.memory s, p⟩ name ch).result = .error e) :
    e = .memoryIndexOutOfRange := by
  unfold fileEntry at h
  simp only at h
  obtain ⟨kerr, kok⟩ := fileEntryChunks_within hs name ((ch - 65) &&& 7) p hp
  cases hc : (fileEntryChunks ⟨.memory s, p⟩ name ((ch - 65) &&& 7)).result with
  | error e1 =>
    rw [hc] at h
    cases h
    exact kerr _ hc
  | ok d =>
    rw [hc] at h
    simp only at h
    obtain ⟨q, hq, hle⟩ := kok d hc
    subst hq
    split at h
    · have k1 := File.ReadUInt_within hs q 1 (by decide) hle
      cases h1 : File.ReadU8 ⟨.memory s, q⟩ with
      | error e1 =>
        rw [show File.ReadUInt ⟨.memory s, q⟩ 1 = .error e1 from h1] at k1
        rw [h1] at h
        cases h
        exact k1
      | ok r1 =>
        rw [show File.ReadUInt ⟨.memory s, q⟩ 1 = .ok r1 from h1] at k1
        obtain ⟨n, d1⟩ := r1
        obtain ⟨q1, hq1, hle1⟩ := k1
        subst hq1
        rw [h1] at h
        simp only at h
        cases h2 : skipTrailer n ⟨.memory s, q1⟩ with
        | error e2 =>
          rw [h2] at h
          cases h
          exact skipTrailer_within hs n q1 hle1 _ h2
        | ok d2 => rw [h2] at h; cases h
    · cases h

theorem readName_within {s : List UInt8} (hs : s.length + 4 < W) :
    ∀ (n p : Nat) (name : List UInt8), p ≤ s.length →
      Within s (readName n ⟨.memory s, p⟩ name) := by
  intro n
  induction n with
  | zero =>
    intro p name hp
    exact ⟨p, rfl, hp⟩
  | succ n ih =>
    intro p name hp
    simp only [readName]
    have k := File.ReadUInt_within hs p 1 (by decide) hp
    unfold File.ReadUInt at k
    cases h1 : (File.Read ⟨.memory s, p⟩ 1).2 with
    | error e =>
      rw [h1] at k
      exact k
    | ok bytes =>
      rw [h1] at k
      obtain ⟨q, hq, hle⟩ := k
      simp only
      rw [hq]
      exact ih q _ hle

/-- Over a memory stream that ends at least four bytes below `2^64`, a walk that
starts within the stream ends, when it does not return, with one of the
exceptions of the code or with an exhausted budget: no read leaves the buffer. -/
theorem ParseNames_memory_result {s : List UInt8} (hs : s.length + 4 < W) :
    ∀ (fuel p : Nat) (name : List UInt8), p ≤ s.length → ∀ e,
      (ParseNames fuel ⟨.memory s, p⟩ name).result = .error e →
      e = .fuel ∨ e.isException = true := by
  intro fuel
  induction fuel with
  | zero =>
    intro p name hp e h
    cases h
    exact Or.inl rfl
  | succ n ih =>
    intro p name hp e h
    change (ParseNamesBody (ParseNames n) ⟨.memory s, p⟩ name).result = .error e at h
    unfold ParseNamesBody at h
    have k1 := File.ReadUInt_within hs p 1 (by decide) hp
    cases h1 : File.ReadU8 ⟨.memory s, p⟩ with
    | error e1 =>
      rw [show File.ReadUInt ⟨.memory s, p⟩ 1 = .error e1 from h1] at k1
      rw [h1] at h
      cases h
      rw [show e = Fault.memoryIndexOutOfRange from k1]
      exact Or.inr rfl
    | ok r1 =>
      rw [show File.ReadUInt ⟨.memory s, p⟩ 1 = .ok r1 from h1] at k1
      obtain ⟨ch, d1⟩ := r1
      obtain ⟨q1, hq1, hle1⟩ := k1
      subst hq1
      rw [h1] at h
      simp only at h
      by_cases c0 : ch = 0
      · rw [if_pos c0] at h
        cases h
        exact Or.inr rfl
      · rw [if_neg c0] at h
        by_cases c1 : 1 ≤ ch ∧ ch ≤ 0x1f
        · rw [if_pos c1] at h
          have k2 := readName_within hs ch q1 name hle1
          cases h2 : readName ch ⟨.memory s, q1⟩ name with
          | error e2 =>
            rw [h2] at k2 h
            cases h
            rw [show e = Fault.memoryIndexOutOfRange from k2]
            exact Or.inr rfl
          | ok r2 =>
            rw [h2] at k2 h
            obtain ⟨name2, d2⟩ := r2
            obtain ⟨q2, hq2, hle2⟩ := k2
            subst hq2
            exact ih q2 name2 hle2 e h
        · rw [if_neg c1] at h
          by_cases c2 : 65 ≤ ch ∧ ch ≤ 90
          · rw [if_pos c2] at h
            rw [fileEntry_within hs name ch q1 hle1 e h]
            exact Or.inr rfl
          · rw [if_neg c2] at h
            have k3 := File.ReadUInt_within hs q1 4 (by decide) hle1
            cases h3 : File.ReadU32 ⟨.memory s, q1⟩ with
            | error e3 =>
              rw [show File.ReadUInt ⟨.memory s, q1⟩ 4 = .error e3 from h3] at k3
              rw [h3] at h
              cases h
              rw [show e = Fault.memoryIndexOutOfRange from k3]
              exact Or.inr rfl
            | ok r3 =>
              rw [show File.ReadUInt ⟨.memory s, q1⟩ 4 = .ok r3 from h3] at k3
              obtain ⟨offset, dL⟩ := r3
              obtain ⟨q3, hq3, hle3⟩ := k3
              subst hq3
              rw [h3] at h
              simp only at h
              cases h4 : File.Seek ⟨.memory s, q1⟩ offset .FileOriginBegin with
              | error e4 =>
                rw [h4] at h
                cases h
                simp only [File.Seek] at h4
                split at h4
                · cases h4
                  exact Or.inr rfl
                · cases h4
              | ok dR =>
                rw [h4] at h
                simp only at h
                simp only [File.Seek] at h4
                split at h4
                · cases h4
                · rename_i hoff
                  cases h4
                  have hoff2 : offset ≤ s.length := by
                    simpa [File.Size, Block.Size] using hoff
                  unfold Run.andThen at h
                  cases hl : (ParseNames n ⟨.memory s, q3⟩ name).result with
                  | error el =>
                    rw [hl] at h
                    cases h
                    exact ih q3 name hle3 _ hl
                  | ok u =>
                    rw [hl] at h
                    exact ih offset name hoff2 e h

/-- Over a memory stream whose reached branch nodes jump forward, every nested
call of the walk starts at a greater position than the call that makes it. -/
theorem Visits_forward_position {s : List UInt8} (hW : s.length < W) {a x : File}
    {b y : List UInt8} (hv : Visits a b x y) : ∀ p, a = ⟨.memory s, p⟩ → ForwardJumps a b →
    (x = a ∧ y = b) ∨ p < x.position := by
  induction hv with
  | root data name => exact fun p _ _ => Or.inl ⟨rfl, rfl⟩
  | fragment hr hc hn _ ih =>
    intro p hp hfwd
    subst hp
    obtain ⟨_, hd1⟩ := File.ReadUInt_memory hW hr
    subst hd1
    have hd2 := readName_memory hW _ _ _ _ _ hn
    have hf2 := ForwardJumps_of_Visits hfwd (Visits.fragment hr hc hn (Visits.root _ _))
    rcases ih _ hd2 hf2 with h | h
    · right
      rw [h.1, hd2]
      show p < p + 1 + _
      omega
    · right
      omega
  | left hr hb h32 hs _ ih =>
    intro p hp hfwd
    subst hp
    obtain ⟨_, hd1⟩ := File.ReadUInt_memory hW hr
    subst hd1
    obtain ⟨_, hdL⟩ := File.ReadUInt_memory hW h32
    have hfL := ForwardJumps_of_Visits hfwd (Visits.left hr hb h32 hs (Visits.root _ _))
    rcases ih _ hdL hfL with h | h
    · right
      rw [h.1, hdL]
      show p < p + 1 + 4
      omega
    · right
      omega
  | right hr hb h32 hs hl hok _ ih =>
    intro p hp hfwd
    subst hp
    have hjump := hfwd _ _ _ _ _ _ (Visits.root _ _) hr hb h32
    have hfR := ForwardJumps_of_Visits hfwd (Visits.right hr hb h32 hs hl hok (Visits.root _ _))
    obtain ⟨_, hd1⟩ := File.ReadUInt_memory hW hr
    subst hd1
    simp only [File.Seek] at hs
    split at hs
    · cases hs
    · cases hs
      rcases ih _ rfl hfR with h | h
      · right
        rw [h.1]
        exact hjump
      · right
        exact lt_trans hjump h

/-- Every call of a walk that starts within a memory stream starts within it. -/
theorem Visits_within {s : List UInt8} (hs : s.length + 4 < W) {a x : File}
    {b y : List UInt8} (hv : Visits a b x y) : ∀ p, a = ⟨.memory s, p⟩ → p ≤ s.length →
    x.position ≤ s.length := by
  have hW : s.length < W := by omega
  induction hv with
  | root data name =>
    intro p hp hle
    rw [hp]
    exact hle
  | @fragment data data1 data2 x name name2 y ch hr hc hn _ ih =>
    intro p hp hle
    subst hp
    obtain ⟨hle1, hd1⟩ := File.ReadUInt_memory hW hr
    subst hd1
    have k := readName_within hs ch (p + 1) name hle1
    rw [hn] at k
    obtain ⟨q, hq, hleq⟩ := k
    exact ih q hq hleq
  | left hr hb h32 hs2 _ ih =>
    intro p hp hle
    subst hp
    obtain ⟨_, hd1⟩ := File.ReadUInt_memory hW hr
    subst hd1
    obtain ⟨hleL, hdL⟩ := File.ReadUInt_memory hW h32
    exact ih _ hdL hleL
  | right hr hb h32 hs2 hl hok _ ih =>
    intro p hp hle
    subst hp
    obtain ⟨_, hd1⟩ := File.ReadUInt_memory hW hr
    subst hd1
    simp only [File.Seek] at hs2
    split at hs2
    · cases hs2
    · rename_i hoff
      cases hs2
      exact ih _ rfl (by simpa [File.Size, Block.Size] using hoff)

/-- C22: over a tree stream (a memory block that ends at least four bytes below
`2^64`, walked from a position within it) in which every branch node that the
walk reaches carries a jump offset greater than the position of its own control
byte, `ParseNames` terminates: the call completes, having made the finitely many
callbacks of its run, and it either returns or throws one of the exceptions of
the code; every nested call that a call of the walk makes starts at a greater
stream position than that call, and every call starts within the stream. -/
theorem parseNames_forward_terminates (s : List UInt8) (p : Nat) (name : List UInt8)
    (hs : s.length + 4 < W) (hp : p ≤ s.length)
    (hfwd : ForwardJumps ⟨.memory s, p⟩ name) :
    (∃ r, Completes ⟨.memory s, p⟩ name r ∧
      (r.result = .ok () ∨ ∃ e, r.result = .error e ∧ e.isException = true)) ∧
    (∀ (x u : File) (y v : List UInt8), Visits ⟨.memory s, p⟩ name x y → Visits x y u v →
      (u = x ∧ v = y) ∨ x.position < u.position) ∧
    (∀ (x : File) (y : List UInt8), Visits ⟨.memory s, p⟩ name x y →
      x.block = .memory s ∧ x.position ≤ s.length) := by
  have hW : s.length < W := by omega
  have hne := ParseNames_forward_ne_fuel hW (s.length - p) p name (Nat.le_refl _) hfwd
  refine ⟨⟨_, ⟨_, rfl, hne⟩, ?_⟩, ?_, ?_⟩
  · cases hres : (ParseNames (s.length - p + 1) ⟨.memory s, p⟩ name).result with
    | ok u => exact Or.inl rfl
    | error e =>
      refine Or.inr ⟨e, rfl, ?_⟩
      rcases ParseNames_memory_result hs _ p name hp e hres with h | h
      · rw [h] at hres
        exact absurd hres hne
      · exact h
  · intro x u y v hxy huv
    obtain ⟨q, hq⟩ := Visits_memory hW hxy p rfl
    subst hq
    exact Visits_forward_position hW huv q rfl (ForwardJumps_of_Visits hfwd hxy)
  · intro x y hxy
    obtain ⟨q, hq⟩ := Visits_memory hW hxy p rfl
    refine ⟨by rw [hq], Visits_within hs hxy p rfl hp⟩

/-- C22 on `branchStream`, walked from position 0 with the name `"p"`: its only
branch node, at position 0, jumps forward to position 19, and the call
completes, returning or throwing an exception of the code. -/
theorem parseNames_forward_terminates_witness :
    ∃ r, Completes ⟨.memory branchStream, 0⟩ [112] r ∧
      (r.result = .ok () ∨ ∃ e, r.result = .error e ∧ e.isException = true) :=
  (parseNames_forward_terminates branchStream 0 [112] (by decide) (by decide)
    (ForwardJumps_of_forwardOffsets branchStream 0 [112] (by decide) (by decide))).1


/-! ### Walks that end and walks that do not -/

/-- A branch node whose right child is the node itself and whose left child
returns: every budget is exhausted. -/
theorem ParseNames_self_jump {data data1 dataL : File} {name : List UInt8} {ch offset : Nat}
    {rl : Run Unit} (h1 : data.ReadU8 = .ok (ch, data1)) (hb : isBranch ch)
    (h3 : data1.ReadU32 = .ok (offset, dataL))
    (h4 : data1.Seek offset .FileOriginBegin = .ok data)
    (hl : Completes dataL name rl) (hok : rl.result = .ok ()) :
    ∀ fuel, (ParseNames fuel data name).result = .error .fuel := by
  obtain ⟨f0, hf0, hne0⟩ := hl
  intro fuel
  induction fuel with
  | zero => rfl
  | succ k ih =>
    show (ParseNamesBody (ParseNames k) data name).result = _
    unfold ParseNamesBody
    rw [h1]
    simp only
    rw [if_neg hb.1, if_neg hb.2.1, if_neg hb.2.2, h3]
    simp only
    rw [h4]
    simp only
    unfold Run.andThen
    cases hres : (ParseNames k dataL name).result with
    | error e =>
      simp only
      by_cases he : e = .fuel
      · rw [he]
      · exfalso
        have hne : (ParseNames k dataL name).result ≠ .error .fuel := by
          rw [hres]
          intro hh
          cases hh
          exact he rfl
        have e1 := ParseNames_fuel_le (Nat.le_max_left k f0) dataL name hne
        have e2 := ParseNames_fuel_le (Nat.le_max_right k f0) dataL name
          (by rw [hf0]; exact hne0)
        rw [e1, hf0] at e2
        rw [e2, hok] at hres
        cases hres
    | ok u =>
      simp only
      exact ih

/-- A walk that makes a call which exhausts every budget exhausts every budget. -/
theorem ParseNames_never_completes {a x : File} {b y : List UInt8} (hv : Visits a b x y)
    (hx : ∀ fuel, (ParseNames fuel x y).result = .error .fuel) :
    ∀ fuel, (ParseNames fuel a b).result = .error .fuel := by
  obtain ⟨f0, hf0⟩ := Visits_error hv .fuel ⟨0, fun fuel _ => hx fuel⟩
  intro fuel
  by_contra hne
  have h1 := ParseNames_fuel_le (Nat.le_max_left fuel f0) a b hne
  have h2 := hf0 (max fuel f0) (Nat.le_max_right _ _)
  rw [h1] at h2
  exact hne h2

/-- C18 (as amended): `ParseNames` has no bound on the depth of its walk and no
format error for exceeding one.  Over a tree stream held in memory (a memory
block that ends at least four bytes below `2^64`, walked from a position within
it) in which every branch node that the walk reaches carries an offset greater
than the position of its own control byte, it terminates: the call completes,
it returns or throws one of the exceptions of the code, and a depth of
`length - position + 1` nested calls is never exceeded.  When the walk from any
cursor reaches a branch node whose jump offset is the position of that node
itself and whose left child returns, it recurses without end: every depth is
exceeded and the call never completes. -/
theorem parseNames_terminates_forward :
    (∀ (s : List UInt8) (p : Nat) (name : List UInt8), s.length + 4 < W → p ≤ s.length →
      ForwardJumps ⟨.memory s, p⟩ name →
      (∃ r, Completes ⟨.memory s, p⟩ name r ∧
        (r.result = .ok () ∨ ∃ e, r.result = .error e ∧ e.isException = true)) ∧
      (∀ fuel, s.length - p + 1 ≤ fuel →
        (ParseNames fuel ⟨.memory s, p⟩ name).result ≠ .error .fuel ∧
        ParseNames fuel ⟨.memory s, p⟩ name =
          ParseNames (s.length - p + 1) ⟨.memory s, p⟩ name)) ∧
    (∀ (a x x1 xL : File) (b y : List UInt8) (ch offset : Nat) (rl : Run Unit),
      Visits a b x y → x.ReadU8 = .ok (ch, x1) → isBranch ch →
      x1.ReadU32 = .ok (offset, xL) → x1.Seek offset .FileOriginBegin = .ok x →
      Completes xL y rl → rl.result = .ok () →
      (∀ fuel, (ParseNames fuel a b).result = .error .fuel) ∧
        ¬ ∃ r, Completes a b r) := by
  constructor
  · intro s p name hs hp hfwd
    have hW : s.length < W := by omega
    have h := ParseNames_forward_ne_fuel hW (s.length - p) p name (Nat.le_refl _) hfwd
    refine ⟨⟨_, ⟨_, rfl, h⟩, ?_⟩, fun fuel hle => ?_⟩
    · cases hres : (ParseNames (s.length - p + 1) ⟨.memory s, p⟩ name).result with
      | ok u => exact Or.inl rfl
      | error e =>
        refine Or.inr ⟨e, rfl, ?_⟩
        rcases ParseNames_memory_result hs _ p name hp e hres with he | he
        · rw [he] at hres
          exact absurd hres h
        · exact he
    · have heq := ParseNames_fuel_le hle ⟨.memory s, p⟩ name h
      exact ⟨by rw [heq]; exact h, heq⟩
  · intro a x x1 xL b y ch offset rl hv h1 hb h3 h4 hl hok
    have hall := ParseNames_never_completes hv (ParseNames_self_jump h1 hb h3 h4 hl hok)
    refine ⟨hall, ?_⟩
    rintro ⟨r, fuel, hr, hne⟩
    exact hne (by rw [← hr]; exact hall fuel)

/-- C18 (as amended) on `branchStream`, whose only branch node jumps forward from
position 0 to position 19: the call completes, returning or throwing an
exception of the code; and on `selfJumpStream`, where the walk from position 0
passes the name fragment and reaches, at position 2, a branch node that jumps to
position 2 and whose left child returns: the call never completes. -/
theorem parseNames_terminates_forward_witness :
    (∃ r, Completes ⟨.memory branchStream, 0⟩ [] r ∧
      (r.result = .ok () ∨ ∃ e, r.result = .error e ∧ e.isException = true)) ∧
    ¬ ∃ r, Completes ⟨.memory selfJumpStream, 0⟩ [] r :=
  ⟨(parseNames_terminates_forward.1 branchStream 0 [] (by decide) (by decide)
      (ForwardJumps_of_forwardOffsets branchStream 0 [] (by decide) (by decide))).1,
    (parseNames_terminates_forward.2 ⟨.memory selfJumpStream, 0⟩ ⟨.memory selfJumpStream, 2⟩
      ⟨.memory selfJumpStream, 3⟩ ⟨.memory selfJumpStream, 7⟩ [] [120] 0x80 2 ⟨[], .ok ()⟩
      (Visits.fragment (show File.ReadU8 ⟨.memory selfJumpStream, 0⟩ =
          .ok (1, ⟨.memory selfJumpStream, 1⟩) by decide) (by decide)
        (show readName 1 ⟨.memory selfJumpStream, 1⟩ [] =
          .ok ([120], ⟨.memory selfJumpStream, 2⟩) by decide) (Visits.root _ _))
      (by decide) (by decide) (by decide) (by decide) ⟨1, rfl, by decide⟩ rfl).2⟩

end RougeSdf
